import Mathlib

/-!
# PairingPQ.h: a pointer-level model of the pairing heap

The heap of `src/PairingPQ.h` is a graph of `Node`s linked by three raw pointers
(`child`, `sibling`, `previous`).  The model keeps that graph: memory is a map from
addresses to nodes, a pointer is an `Option Nat` (`none` is `nullptr`), `new` takes the
next unused address and `delete` empties a cell.  Every operation returns `none` when the
C++ code would dereference `nullptr` or a deleted node, or when a walk over the links takes
more steps than there are addresses handed out (on a tree it never does; on a cyclic graph
the C++ loop does not end).

`count` is a `size_t`.  `count--` is modelled with its wrap-around at zero; `count++` is
modelled on `Nat`, since a heap cannot hold `2 ^ 64` nodes.
-/

set_option autoImplicit false

/-- The class `Node`: one element and the three links. -/
structure Node (α : Type) where
  elt : α
  child : Option Nat
  sibling : Option Nat
  previous : Option Nat

/-- The free store: `none` at an address that is not (or no longer) allocated. -/
abbrev Mem (α : Type) := Nat → Option (Node α)

namespace Mem

variable {α : Type}

/-- Overwrite the cell at address `a`. -/
def store (m : Mem α) (a : Nat) (n : Node α) : Mem α :=
  fun x => if x = a then some n else m x

/-- The effect of `delete` on the cell at address `a`. -/
def free (m : Mem α) (a : Nat) : Mem α :=
  fun x => if x = a then none else m x

/-- The assignment `a->elt = v`. -/
def setElt (m : Mem α) (a : Nat) (v : α) : Option (Mem α) :=
  match m a with
  | none => none
  | some n => some (m.store a { n with elt := v })

/-- The assignment `a->child = v`. -/
def setChild (m : Mem α) (a : Nat) (v : Option Nat) : Option (Mem α) :=
  match m a with
  | none => none
  | some n => some (m.store a { n with child := v })

/-- The assignment `a->sibling = v`. -/
def setSibling (m : Mem α) (a : Nat) (v : Option Nat) : Option (Mem α) :=
  match m a with
  | none => none
  | some n => some (m.store a { n with sibling := v })

/-- The assignment `a->previous = v`. -/
def setPrevious (m : Mem α) (a : Nat) (v : Option Nat) : Option (Mem α) :=
  match m a with
  | none => none
  | some n => some (m.store a { n with previous := v })

end Mem

/-- The data members of `PairingPQ` (`root`, `count`) together with the free store and
the next address `new` will hand out. -/
structure PairingPQ (α : Type) where
  cells : Mem α
  next : Nat
  root : Option Nat
  count : Nat

namespace PairingPQ

variable {α : Type}

/-- The value of `count--` on a `size_t`. -/
def decr (c : Nat) : Nat := if c = 0 then 2 ^ 64 - 1 else c - 1

/-- The four assignments at the end of `meld`, on `greater_node` and `smaller_node`. -/
def attach (m : Mem α) (greater_node smaller_node : Nat) : Option (Mem α) :=
  match m greater_node with
  | none => none
  | some gn =>
    let left_most := gn.child
    match m.setSibling smaller_node left_most with
    | none => none
    | some m1 =>
      match (match left_most with
             | none => some m1
             | some l => m1.setPrevious l (some smaller_node)) with
      | none => none
      | some m2 =>
        match m2.setPrevious smaller_node (some greater_node) with
        | none => none
        | some m3 => m3.setChild greater_node (some smaller_node)

/-- The body of `meld` once both arguments are known to be non-null: the node
arbitrament, then the assignments. -/
def meldNodes (compare : α → α → Bool) (m : Mem α) (a b : Nat) : Option (Mem α × Nat) :=
  match m a, m b with
  | some na, some nb =>
    let greater_node := if compare nb.elt na.elt then a else b
    let smaller_node := if compare nb.elt na.elt then b else a
    match attach m greater_node smaller_node with
    | none => none
    | some m4 => some (m4, greater_node)
  | _, _ => none

/-- The private member `meld`. -/
def meld (compare : α → α → Bool) (m : Mem α) (a b : Option Nat) :
    Option (Mem α × Option Nat) :=
  match a, b with
  | none, _ => some (m, b)
  | some _, none => some (m, a)
  | some pa, some pb =>
    match meldNodes compare m pa pb with
    | none => none
    | some (m', g) => some (m', some g)

/-- The default constructor: `root = nullptr`, `count = 0`. -/
def init : PairingPQ α :=
  { cells := fun _ => none, next := 0, root := none, count := 0 }

/-- The member `addNode`: the new state and the handle of the new node. -/
def addNode (compare : α → α → Bool) (s : PairingPQ α) (val : α) :
    Option (PairingPQ α × Nat) :=
  let new_node := s.next
  let m := s.cells.store new_node ⟨val, none, none, none⟩
  match s.root with
  | none => some ({ cells := m, next := s.next + 1, root := some new_node, count := 1 }, new_node)
  | some r =>
    match meld compare m (some new_node) (some r) with
    | none => none
    | some (m', g) =>
      some ({ cells := m', next := s.next + 1, root := g, count := s.count + 1 }, new_node)

/-- The member `push`. -/
def push (compare : α → α → Bool) (s : PairingPQ α) (val : α) : Option (PairingPQ α) :=
  match addNode compare s val with
  | none => none
  | some (s', _) => some s'

/-- The range constructor: `addNode` on every element, in order, from `root = nullptr`,
`count = 0`. -/
def ofRange (compare : α → α → Bool) : List α → PairingPQ α → Option (PairingPQ α)
  | [], s => some s
  | x :: xs, s =>
    match push compare s x with
    | none => none
    | some s' => ofRange compare xs s'

/-- The loop `while (child != nullptr) { child_queue.push(child); child = child->sibling; }`
of `pop`. -/
def siblingChain (m : Mem α) : Nat → Option Nat → Option (List Nat)
  | _, none => some []
  | 0, some _ => none
  | fuel + 1, some a =>
    match m a with
    | none => none
    | some n =>
      match siblingChain m fuel n.sibling with
      | none => none
      | some rest => some (a :: rest)

/-- The loop `while (!child_queue.empty())` of `pop`: the memory after the melds and the
node left at the end (`none` when the loop is left with nothing in the queue). -/
def pairLoop (compare : α → α → Bool) : Nat → Mem α → List Nat → Option (Mem α × Option Nat)
  | _, m, [] => some (m, none)
  | _, m, [first] => some (m, some first)
  | 0, _, _ :: _ :: _ => none
  | fuel + 1, m, first :: second :: rest =>
    match meldNodes compare m first second with
    | none => none
    | some (m', melded) => pairLoop compare fuel m' (rest ++ [melded])

/-- The member `pop`. -/
def pop (compare : α → α → Bool) (s : PairingPQ α) : Option (PairingPQ α) :=
  match s.root with
  | none => some { s with count := 0 }
  | some r =>
    match s.cells r with
    | none => none
    | some rn =>
      match rn.child with
      | none => some { s with cells := s.cells.free r, root := none, count := 0 }
      | some child =>
        match s.cells child with
        | none => none
        | some cn =>
          match cn.sibling with
          | none => some { s with cells := s.cells.free r, root := some child, count := decr s.count }
          | some _ =>
            match siblingChain s.cells s.next (some child) with
            | none => none
            | some child_queue =>
              match pairLoop compare child_queue.length s.cells child_queue with
              | none => none
              | some (m, none) => some { s with cells := m }
              | some (m, some first) =>
                some { s with cells := m.free r, root := some first, count := decr s.count }

/-- The member `top`. -/
def top (s : PairingPQ α) : Option α :=
  match s.root with
  | none => none
  | some r =>
    match s.cells r with
    | none => none
    | some rn => some rn.elt

/-- The member `size`. -/
def size (s : PairingPQ α) : Nat := s.count

/-- The member `empty`. -/
def empty (s : PairingPQ α) : Bool := s.root.isNone

/-- The loop `while (node != nullptr && node->sibling != nullptr)` of `to_queue`, entered
with `node` non-null: the nodes it pushes. -/
def pushSiblings (m : Mem α) : Nat → Nat → Option (List Nat)
  | 0, _ => none
  | fuel + 1, node =>
    match m node with
    | none => none
    | some n =>
      match n.sibling with
      | none => some []
      | some sb =>
        match pushSiblings m fuel sb with
        | none => none
        | some rest => some (sb :: rest)

/-- The outer loop of `to_queue`, on `child_queue` and `ret_queue`. -/
def toQueueLoop (m : Mem α) (inner : Nat) : Nat → List Nat → List Nat → Option (List Nat)
  | _, [], ret_queue => some ret_queue
  | 0, _ :: _, _ => none
  | fuel + 1, head :: rest, ret_queue =>
    match m head with
    | none => none
    | some hn =>
      match hn.child with
      | none => toQueueLoop m inner fuel rest (ret_queue ++ [head])
      | some node =>
        match pushSiblings m inner node with
        | none => none
        | some sibs => toQueueLoop m inner fuel (rest ++ node :: sibs) (ret_queue ++ [head])

/-- The member `to_queue`. -/
def to_queue (s : PairingPQ α) : Option (List Nat) :=
  match s.root with
  | none => some []
  | some r => toQueueLoop s.cells (s.next + 1) (s.next + 1) [r] []

/-- The loop of `updatePriorities` over `new_queue`, carrying `root`. -/
def rebuildLoop (compare : α → α → Bool) :
    Mem α → Option Nat → List Nat → Option (Mem α × Option Nat)
  | m, root, [] => some (m, root)
  | m, root, front :: rest =>
    match m.setSibling front none with
    | none => none
    | some m1 =>
      match m1.setChild front none with
      | none => none
      | some m2 =>
        match m2.setPrevious front none with
        | none => none
        | some m3 =>
          match meld compare m3 root (some front) with
          | none => none
          | some (m4, root') => rebuildLoop compare m4 root' rest

/-- The member `updatePriorities`. -/
def updatePriorities (compare : α → α → Bool) (s : PairingPQ α) : Option (PairingPQ α) :=
  match to_queue s with
  | none => none
  | some new_queue =>
    match rebuildLoop compare s.cells none new_queue with
    | none => none
    | some (m, root) => some { s with cells := m, root := root }

/-- The member `updateElt`.  Every `->` reads the memory as it is at that point. -/
def updateElt (compare : α → α → Bool) (s : PairingPQ α) (node : Nat) (new_value : α) :
    Option (PairingPQ α) :=
  match s.cells.setElt node new_value with
  | none => none
  | some m0 =>
    match m0 node with
    | none => none
    | some n =>
      -- `node->previous->child`: the back link is followed before it is tested
      match n.previous with
      | none => none
      | some p =>
        match m0 p with
        | none => none
        | some pn =>
          match (if pn.child = some node then m0.setChild p n.sibling
                 else m0.setSibling p n.sibling) with
          | none => none
          | some m1 =>
            match m1 node with
            | none => none
            | some n1 =>
              match (match n1.sibling with
                     | none => some m1
                     | some sb => m1.setPrevious sb n1.previous) with
              | none => none
              | some m2 =>
                match m2.setSibling node none with
                | none => none
                | some m3 =>
                  match m3.setPrevious node none with
                  | none => none
                  | some m4 =>
                    match meld compare m4 s.root (some node) with
                    | none => none
                    | some (m5, root) => some { s with cells := m5, root := root }

/-- The loop of a caller that reads `top()` and calls `pop()` until `empty()`. -/
def drain (compare : α → α → Bool) : Nat → PairingPQ α → Option (List α)
  | 0, s => if s.empty then some [] else none
  | fuel + 1, s =>
    if s.empty then some []
    else
      match s.top, pop compare s with
      | some t, some s' =>
        match drain compare fuel s' with
        | none => none
        | some ys => some (t :: ys)
      | _, _ => none

end PairingPQ


/-! ## Copy constructor and copy assignment

Both heaps of a copy live in one free store, so the copy is built in the memory of the
source: the new nodes take the addresses from `next` on. -/

namespace PairingPQ

variable {α : Type}

/-- The expression `p == nullptr ? nullptr : new Node(p->getElt())` of
`copy_non_recursive`: the memory, the next unused address and the new pointer. -/
def newCopy (m : Mem α) (next : Nat) (p : Option Nat) : Option (Mem α × Nat × Option Nat) :=
  match p with
  | none => some (m, next, none)
  | some a =>
    match m a with
    | none => none
    | some pn => some (m.store next ⟨pn.elt, none, none, none⟩, next + 1, some next)

/-- The assignment `p->previous = this_front` under `if (p != nullptr)`. -/
def linkBack (m : Mem α) (p : Option Nat) (this_front : Nat) : Option (Mem α) :=
  match p with
  | none => some m
  | some a => m.setPrevious a (some this_front)

/-- The loop `while (!other_queue.empty())` of `copy_non_recursive`, on `this_queue` and
`other_queue`. -/
def copyLoop : Nat → Mem α → Nat → List Nat → List Nat → Option (Mem α × Nat)
  | _, m, next, _, [] => some (m, next)
  | 0, _, _, _, _ :: _ => none
  | _ + 1, _, _, [], _ :: _ => none
  | fuel + 1, m, next, this_front :: this_queue, other_front :: other_queue =>
    match m other_front with
    | none => none
    | some other_node =>
      let other_child := other_node.child
      let other_sibling := other_node.sibling
      match newCopy m next other_child with
      | none => none
      | some (m1, next1, this_child) =>
        match newCopy m1 next1 other_sibling with
        | none => none
        | some (m2, next2, this_sibling) =>
          match m2.setChild this_front this_child with
          | none => none
          | some m3 =>
            match m3.setSibling this_front this_sibling with
            | none => none
            | some m4 =>
              match linkBack m4 this_child this_front with
              | none => none
              | some m5 =>
                match linkBack m5 this_sibling this_front with
                | none => none
                | some m6 =>
                  copyLoop fuel m6 next2
                    (this_queue ++ this_child.toList ++ this_sibling.toList)
                    (other_queue ++ other_child.toList ++ other_sibling.toList)

/-- The member `copy_non_recursive`: the memory, the next unused address and the new
`root`.  The argument is dereferenced at once. -/
def copy_non_recursive (fuel : Nat) (m : Mem α) (next : Nat) (other : Option Nat) :
    Option (Mem α × Nat × Nat) :=
  match other with
  | none => none
  | some o =>
    match m o with
    | none => none
    | some other_node =>
      let root := next
      match copyLoop fuel (m.store root ⟨other_node.elt, none, none, none⟩) (next + 1) [root] [o] with
      | none => none
      | some (m', next') => some (m', next', root)

/-- The copy constructor `PairingPQ(const PairingPQ &other)`. -/
def copy (fuel : Nat) (other : PairingPQ α) : Option (PairingPQ α) :=
  match other.root with
  | none => some { cells := other.cells, next := other.next, root := none, count := 0 }
  | some _ =>
    match copy_non_recursive fuel other.cells other.next other.root with
    | none => none
    | some (m, next, root) =>
      some { cells := m, next := next, root := some root, count := other.size }

/-- The loop of `operator=` (and of the destructor) that unlinks and deletes every node of
the queue. -/
def destroyLoop : Mem α → List Nat → Option (Mem α)
  | m, [] => some m
  | m, node :: q =>
    match m.setPrevious node none with
    | none => none
    | some m1 =>
      match m1.setChild node none with
      | none => none
      | some m2 =>
        match m2.setSibling node none with
        | none => none
        | some m3 => destroyLoop (m3.free node) q

/-- The copy assignment `operator=`, called on `s` with argument `rhs`; the nodes of both
heaps are in the store `s.cells`. -/
def assign (fuel : Nat) (s rhs : PairingPQ α) : Option (PairingPQ α) :=
  match to_queue s with
  | none => none
  | some q =>
    match destroyLoop s.cells q with
    | none => none
    | some m =>
      match copy_non_recursive fuel m s.next rhs.root with
      | none => none
      | some (m', next, root) =>
        some { cells := m', next := next, root := some root, count := rhs.size }

end PairingPQ

/-! ## The tree that a memory region lays out

The statements below describe the pointer graph by the tree it lays out: a child list is a
`Shape`, a tree with its root is a `PTree`, and `Models` says that the memory of a heap
holds a given tree and nothing else. -/

/-- A child list as a value: the first node (address, element, its own child list) and the
rest of the list (the sibling chain). -/
inductive Shape (α : Type) where
  | nil : Shape α
  | node (a : Nat) (e : α) (c s : Shape α) : Shape α

/-- Pointer to the first node of the list. -/
def Shape.head {α : Type} : Shape α → Option Nat
  | nil => none
  | node a _ _ _ => some a

/-- Every address in the list and below it. -/
def Shape.addrs {α : Type} : Shape α → List Nat
  | nil => []
  | node a _ c s => a :: (addrs c ++ addrs s)

/-- Every element in the list and below it. -/
def Shape.elts {α : Type} : Shape α → List α
  | nil => []
  | node _ e c s => e :: (elts c ++ elts s)

/-- Number of nodes. -/
def Shape.size {α : Type} : Shape α → Nat
  | nil => 0
  | node _ _ c s => size c + size s + 1

/-- Addresses of the nodes of the list itself (the sibling chain). -/
def Shape.chain {α : Type} : Shape α → List Nat
  | nil => []
  | node a _ _ s => a :: chain s

/-- Elements of the nodes of the list itself. -/
def Shape.roots {α : Type} : Shape α → List α
  | nil => []
  | node _ e _ s => e :: roots s

/-- The memory holds this list: every node sits at its address with its element, `child`
at its first child, `sibling` at the next node and `previous` at `prev` for the first node
(the parent) and at the left neighbour for the others. -/
def Shape.Rep {α : Type} (m : Mem α) : Option Nat → Shape α → Prop
  | _, nil => True
  | prev, node a e c s =>
    m a = some ⟨e, c.head, s.head, prev⟩ ∧ Rep m (some a) c ∧ Rep m (some a) s

/-- Heap order between every node and its direct children. -/
def Shape.Ordered {α : Type} (compare : α → α → Bool) : Shape α → Prop
  | nil => True
  | node _ e c s => (∀ x ∈ c.roots, compare e x = false) ∧ Ordered compare c ∧ Ordered compare s

/-- A tree as a value: the root's address and element and its child list. -/
structure PTree (α : Type) where
  addr : Nat
  elt : α
  kids : Shape α

/-- Every address of the tree, the root first. -/
def PTree.addrs {α : Type} (t : PTree α) : List Nat := t.addr :: t.kids.addrs

/-- Every element of the tree, the root first. -/
def PTree.elts {α : Type} (t : PTree α) : List α := t.elt :: t.kids.elts

/-- Number of nodes. -/
def PTree.size {α : Type} (t : PTree α) : Nat := t.kids.size + 1

/-- The memory holds the tree.  Nothing is asked of `sibling` and `previous` of the root:
`meld` and `pop` leave old values there. -/
def PTree.Rooted {α : Type} (m : Mem α) (t : PTree α) : Prop :=
  (∃ sib prev, m t.addr = some ⟨t.elt, t.kids.head, sib, prev⟩) ∧ Shape.Rep m (some t.addr) t.kids

/-- Heap order between every node of the tree and its direct children. -/
def PTree.Ordered {α : Type} (compare : α → α → Bool) (t : PTree α) : Prop :=
  (∀ x ∈ t.kids.roots, compare t.elt x = false) ∧ t.kids.Ordered compare

/-- The tree `meld` builds when `w` wins: `l` becomes the first child of `w`. -/
def PTree.link {α : Type} (w l : PTree α) : PTree α :=
  ⟨w.addr, w.elt, Shape.node l.addr l.elt l.kids w.kids⟩

/-- The tree `meld(a, b)` builds. -/
def PTree.meld {α : Type} (compare : α → α → Bool) (a b : PTree α) : PTree α :=
  if compare b.elt a.elt then PTree.link a b else PTree.link b a

/-- The pairing loop of `pop` on trees as values. -/
def PTree.pairing {α : Type} (compare : α → α → Bool) : Nat → List (PTree α) → Option (PTree α)
  | _, [] => none
  | _, [t] => some t
  | 0, _ :: _ :: _ => none
  | fuel + 1, a :: b :: rest => pairing compare fuel (rest ++ [PTree.meld compare a b])

/-- The trees of a child list, in sibling order. -/
def Shape.trees {α : Type} : Shape α → List (PTree α)
  | nil => []
  | node a e c s => ⟨a, e, c⟩ :: trees s

/-- The requirement on the comparator: a strict weak ordering, as for `std::less`. -/
structure StrictWeakOrder {α : Type} (compare : α → α → Bool) : Prop where
  irrefl : ∀ x, compare x x = false
  trans : ∀ x y z, compare x y = true → compare y z = true → compare x z = true
  incomp_trans : ∀ x y z, compare x y = false → compare y x = false →
    compare y z = false → compare z y = false → compare x z = false ∧ compare z x = false

/-- Trees that the memory holds and that share no node. -/
def PairingPQ.Forest {α : Type} (m : Mem α) (ts : List (PTree α)) : Prop :=
  (∀ t ∈ ts, t.Rooted m) ∧ (ts.flatMap PTree.addrs).Nodup

/-- The state holds the heap `o`: nothing when `o` is `none`, else the tree at `root` with
`count` its number of nodes, no node twice, and no other node allocated. -/
def PairingPQ.Models {α : Type} (s : PairingPQ α) : Option (PTree α) → Prop
  | none => s.root = none ∧ s.count = 0 ∧ ∀ a, s.cells a = none
  | some t => s.root = some t.addr ∧ t.Rooted s.cells ∧ t.addrs.Nodup ∧ s.count = t.size ∧
      (∀ a, s.cells a ≠ none → a ∈ t.addrs) ∧ (∀ a ∈ t.addrs, a < s.next)

/-- The heap after `addNode(v)` with the new node at address `a`. -/
def PairingPQ.pushed {α : Type} (compare : α → α → Bool) (o : Option (PTree α)) (a : Nat)
    (v : α) : PTree α :=
  match o with
  | none => ⟨a, v, Shape.nil⟩
  | some t => PTree.meld compare ⟨a, v, Shape.nil⟩ t

/-- The heap after `pop()`. -/
def PairingPQ.popped {α : Type} (compare : α → α → Bool) : Option (PTree α) → Option (PTree α)
  | none => none
  | some t => PTree.pairing compare t.kids.trees.length t.kids.trees

/-- Elements of a heap value. -/
def PairingPQ.heapElts {α : Type} : Option (PTree α) → List α
  | none => []
  | some t => t.elts

/-- Addresses of a heap value. -/
def PairingPQ.heapAddrs {α : Type} : Option (PTree α) → List Nat
  | none => []
  | some t => t.addrs

/-- Heap order of a heap value. -/
def PairingPQ.HeapOrdered {α : Type} (compare : α → α → Bool) : Option (PTree α) → Prop
  | none => True
  | some t => t.Ordered compare

/-- Addresses that hold a node. -/
def PairingPQ.liveAddrs {α : Type} (s : PairingPQ α) : List Nat :=
  (List.range s.next).filter (fun a => (s.cells a).isSome)

/-- The elements held by the nodes of the heap, by address. -/
def PairingPQ.liveElts {α : Type} (s : PairingPQ α) : List α :=
  (List.range s.next).filterMap (fun a => (s.cells a).map Node.elt)

/-- The default comparator `std::less<TYPE>`. -/
def less {α : Type} [LinearOrder α] (x y : α) : Bool := decide (x < y)

/-- The comparator `std::greater<TYPE>`, for which the most extreme element is the least. -/
def greater {α : Type} [LinearOrder α] (x y : α) : Bool := decide (y < x)

/-- States reached from the empty heap by `push`, `addNode` and `pop`. -/
inductive PairingPQ.ReachPushPop {α : Type} (compare : α → α → Bool) : PairingPQ α → Prop
  | init : ReachPushPop compare PairingPQ.init
  | push {s s' : PairingPQ α} (v : α) :
      ReachPushPop compare s → PairingPQ.push compare s v = some s' → ReachPushPop compare s'
  | addNode {s s' : PairingPQ α} (v : α) (h : Nat) :
      ReachPushPop compare s → PairingPQ.addNode compare s v = some (s', h) →
      ReachPushPop compare s'
  | pop {s s' : PairingPQ α} :
      ReachPushPop compare s → PairingPQ.pop compare s = some s' → ReachPushPop compare s'

/-- The child list without the node at address `h` (and without what hangs below it): the
nodes after `h` move up one place. -/
def Shape.cut {α : Type} (h : Nat) : Shape α → Shape α
  | nil => nil
  | node a e c s => if a = h then s else node a e (cut h c) (cut h s)

/-- The child list of the node at address `h`. -/
def Shape.kidsOf {α : Type} (h : Nat) : Shape α → Shape α
  | nil => nil
  | node a _ c s => if a = h then c else if h ∈ c.addrs then kidsOf h c else kidsOf h s

/-- The element of the node at address `h`. -/
def Shape.eltOf {α : Type} (h : Nat) : Shape α → Option α
  | nil => none
  | node a e c s => if a = h then some e else if h ∈ c.addrs then eltOf h c else eltOf h s

/-- The memory after `updateElt` has written the new value and taken the node `h` out of
its list, where `hn` is the node at `h` before, `p` its `previous` and `pn` the node at `p`. -/
def PairingPQ.unlinked {α : Type} (m : Mem α) (h : Nat) (v : α) (hn : Node α) (p : Nat)
    (pn : Node α) : Mem α :=
  fun x =>
    if x = h then some ⟨v, hn.child, none, none⟩
    else if x = p then
      some (if pn.child = some h then { pn with child := hn.sibling }
            else { pn with sibling := hn.sibling })
    else if hn.sibling = some x then (m x).map (fun n => { n with previous := some p })
    else m x

/-- The heap after `updateElt(h, v)` on a node `h` that is not the root. -/
def PairingPQ.updated {α : Type} (compare : α → α → Bool) (t : PTree α) (h : Nat) (v : α) :
    PTree α :=
  PTree.meld compare ⟨t.addr, t.elt, Shape.cut h t.kids⟩ ⟨h, v, Shape.kidsOf h t.kids⟩

/-- The order in which `to_queue` visits the nodes of the trees in its queue: address and
element of every node, the children of a node joining the back of the queue. -/
def PTree.bfs {α : Type} : Nat → List (PTree α) → List (Nat × α)
  | 0, _ => []
  | _ + 1, [] => []
  | fuel + 1, t :: rest => (t.addr, t.elt) :: bfs fuel (rest ++ t.kids.trees)

/-- The heap `updatePriorities` builds from `acc` by melding in, one after the other, single
nodes given by address and element. -/
def PairingPQ.rebuilt {α : Type} (compare : α → α → Bool) :
    Option (PTree α) → List (Nat × α) → Option (PTree α)
  | acc, [] => acc
  | none, x :: rest => rebuilt compare (some ⟨x.1, x.2, Shape.nil⟩) rest
  | some t, x :: rest => rebuilt compare (some (PTree.meld compare t ⟨x.1, x.2, Shape.nil⟩)) rest

/-- The heap after `updatePriorities()`: the nodes in the order `to_queue` visits them,
melded one by one. -/
def PairingPQ.reordered {α : Type} (compare : α → α → Bool) (fuel : Nat) :
    Option (PTree α) → Option (PTree α)
  | none => none
  | some t => PairingPQ.rebuilt compare none (PTree.bfs fuel [t])

/-- `c` is in the child list of `p`: it is `p->child` or the `sibling` of a node of the
list. -/
inductive InChildList {α : Type} (m : Mem α) : Nat → Nat → Prop
  | first {p c : Nat} {n : Node α} : m p = some n → n.child = some c → InChildList m p c
  | next {p c d : Nat} {n : Node α} :
      InChildList m p c → m c = some n → n.sibling = some d → InChildList m p d

/-- States reached from the empty heap by `push`, `addNode`, `pop`, `updatePriorities`, and
`updateElt` on a live node other than the root with a value that beats the node's. -/
inductive PairingPQ.Reach {α : Type} (compare : α → α → Bool) : PairingPQ α → Prop
  | init : Reach compare PairingPQ.init
  | push {s s' : PairingPQ α} (v : α) :
      Reach compare s → PairingPQ.push compare s v = some s' → Reach compare s'
  | addNode {s s' : PairingPQ α} (v : α) (h : Nat) :
      Reach compare s → PairingPQ.addNode compare s v = some (s', h) → Reach compare s'
  | pop {s s' : PairingPQ α} :
      Reach compare s → PairingPQ.pop compare s = some s' → Reach compare s'
  | updateElt {s s' : PairingPQ α} (h : Nat) (v : α) (n : Node α) :
      Reach compare s → s.cells h = some n → s.root ≠ some h → compare n.elt v = true →
      PairingPQ.updateElt compare s h v = some s' → Reach compare s'
  | updatePriorities {s s' : PairingPQ α} :
      Reach compare s → PairingPQ.updatePriorities compare s = some s' → Reach compare s'

/-- The same list with the element of every node replaced by `val` of its address. -/
def Shape.relabel {α : Type} (val : Nat → α) : Shape α → Shape α
  | nil => nil
  | node a _ c s => node a (val a) (relabel val c) (relabel val s)

/-- The state after the stored values were overwritten from outside: node `a` now holds
`val a`, every link is as before. -/
def PairingPQ.overwrite {α : Type} (s : PairingPQ α) (val : Nat → α) : PairingPQ α :=
  { s with cells := fun a => (s.cells a).map (fun n => { n with elt := val a }) }

/-- The nodes reached from `root` through child lists. -/
inductive PairingPQ.FromRoot {α : Type} (s : PairingPQ α) : Nat → Prop
  | root {r : Nat} : s.root = some r → FromRoot s r
  | child {p c : Nat} : FromRoot s p → InChildList s.cells p c → FromRoot s c

/-- The memory after the assignments of `meld` with winner `g` and loser `l`, where `gn`
and `ln` are their nodes before: `l` is put in front of the child list of `g`. -/
def PairingPQ.attached {α : Type} (m : Mem α) (g l : Nat) (gn ln : Node α) : Mem α :=
  fun x =>
    if x = g then some { gn with child := some l }
    else if x = l then some { ln with sibling := gn.child, previous := some g }
    else if gn.child = some x then (m x).map (fun n => { n with previous := some l })
    else m x

/-- What `meld` with winner `w` and loser `l` (nodes `wn`, `ln` before) leaves in memory:
`winner.child = loser`, `loser.sibling` is the winner's former first child,
`loser.back = winner`, the former first child has `back = loser`, and every other link and
every stored value is as before. -/
def PairingPQ.MeldPost {α : Type} (m m' : Mem α) (w l : Nat) (wn ln : Node α) : Prop :=
  m' w = some { wn with child := some l } ∧
  m' l = some { ln with sibling := wn.child, previous := some w } ∧
  (∀ c cn, wn.child = some c → m c = some cn → m' c = some { cn with previous := some l }) ∧
  (∀ x, x ≠ w → x ≠ l → wn.child ≠ some x → m' x = m x)

/-- A memory with two single nodes: 5 at address 0 and 7 at address 1. -/
def twoNodes : Mem Nat :=
  Mem.store (Mem.store (fun _ => none) 0 ⟨5, none, none, none⟩) 1 ⟨7, none, none, none⟩

/-- The loop `while (!child_queue.empty())` of `pop` again, counting the calls of `meld`. -/
def PairingPQ.pairLoopMelds {α : Type} (compare : α → α → Bool) :
    Nat → Mem α → List Nat → Option Nat
  | _, _, [] => some 0
  | _, _, [_] => some 0
  | 0, _, _ :: _ :: _ => none
  | fuel + 1, m, first :: second :: rest =>
    match PairingPQ.meldNodes compare m first second with
    | none => none
    | some (m', melded) =>
      match pairLoopMelds compare fuel m' (rest ++ [melded]) with
      | none => none
      | some n => some (n + 1)

/-- Breadth-first order in the words of the spec: the roots of the trees of one level, in
order, then the next level, which is made of their children in sibling order. -/
def PTree.levelOrder {α : Type} : Nat → List (PTree α) → List (Nat × α)
  | 0, _ => []
  | depth + 1, ts =>
    ts.map (fun t => (t.addr, t.elt)) ++ levelOrder depth (ts.flatMap fun t => t.kids.trees)

/-- The trees of a heap value: one or none. -/
def PairingPQ.heapTrees {α : Type} : Option (PTree α) → List (PTree α)
  | none => []
  | some t => [t]

/-! ## Lemmas on the tree layout, `meld`, `addNode`, `pop` -/


namespace Shape

variable {α : Type}

theorem size_eq_length_addrs (t : Shape α) : t.size = t.addrs.length := by
  induction t with
  | nil => rfl
  | node a e c s ihc ihs => simp [size, addrs, ihc, ihs]

theorem length_elts (t : Shape α) : t.elts.length = t.size := by
  induction t with
  | nil => rfl
  | node a e c s ihc ihs => simp [size, elts, ihc, ihs]

theorem chain_subset (t : Shape α) : ∀ x ∈ t.chain, x ∈ t.addrs := by
  induction t with
  | nil => simp [chain]
  | node a e c s ihc ihs =>
    intro x hx
    simp only [chain, List.mem_cons] at hx
    simp only [addrs, List.mem_cons, List.mem_append]
    rcases hx with h | h
    · exact Or.inl h
    · exact Or.inr (Or.inr (ihs x h))

theorem roots_subset (t : Shape α) : ∀ x ∈ t.roots, x ∈ t.elts := by
  induction t with
  | nil => simp [roots]
  | node a e c s ihc ihs =>
    intro x hx
    simp only [roots, List.mem_cons] at hx
    simp only [elts, List.mem_cons, List.mem_append]
    rcases hx with h | h
    · exact Or.inl h
    · exact Or.inr (Or.inr (ihs x h))

/-- Memory that agrees on the addresses of a list holds the same list. -/
theorem Rep.frame {m m' : Mem α} : ∀ {t : Shape α} {prev : Option Nat},
    Rep m prev t → (∀ a ∈ t.addrs, m' a = m a) → Rep m' prev t
  | nil, _, _, _ => trivial
  | node a e c s, prev, h, hm => by
    obtain ⟨ha, hc, hs⟩ := h
    refine ⟨?_, Rep.frame hc ?_, Rep.frame hs ?_⟩
    · rw [hm a (by simp [addrs])]; exact ha
    · intro x hx; exact hm x (by simp [addrs, hx])
    · intro x hx; exact hm x (by simp [addrs, hx])

/-- Every address of a list that the memory holds is allocated. -/
theorem Rep.live {m : Mem α} : ∀ {t : Shape α} {prev : Option Nat},
    Rep m prev t → ∀ a ∈ t.addrs, ∃ n, m a = some n
  | nil, _, _, a, ha => by simp [addrs] at ha
  | node b e c s, prev, h, a, ha => by
    obtain ⟨hb, hc, hs⟩ := h
    simp only [addrs, List.mem_cons, List.mem_append] at ha
    rcases ha with rfl | ha | ha
    · exact ⟨_, hb⟩
    · exact Rep.live hc a ha
    · exact Rep.live hs a ha

/-- Retargeting `previous` of the first node of a list. -/
theorem Rep.rehead {m : Mem α} {prev : Option Nat} (prev' : Option Nat) :
    ∀ {t : Shape α}, Rep m prev t → t.addrs.Nodup →
      ∀ m' : Mem α,
        (∀ a e c s, t = node a e c s → m' a = some ⟨e, c.head, s.head, prev'⟩) →
        (∀ x ∈ t.addrs, some x ≠ t.head → m' x = m x) → Rep m' prev' t
  | nil, _, _, _, _, _ => trivial
  | node a e c s, h, hnd, m', hh, hm => by
    obtain ⟨_, hc, hs⟩ := h
    simp only [addrs, List.nodup_cons, List.mem_append, not_or] at hnd
    refine ⟨hh a e c s rfl, Rep.frame hc ?_, Rep.frame hs ?_⟩
    · intro x hx
      apply hm x (by simp [addrs, hx])
      simp only [head, ne_eq, Option.some.injEq]
      rintro rfl; exact hnd.1.1 hx
    · intro x hx
      apply hm x (by simp [addrs, hx])
      simp only [head, ne_eq, Option.some.injEq]
      rintro rfl; exact hnd.1.2 hx

end Shape

namespace PTree

variable {α : Type}

theorem Rooted.frame_tree {m m' : Mem α} {t : PTree α} (h : t.Rooted m)
    (hm : ∀ a ∈ t.addrs, m' a = m a) : t.Rooted m' := by
  obtain ⟨⟨sib, prev, hr⟩, hk⟩ := h
  refine ⟨⟨sib, prev, ?_⟩, hk.frame ?_⟩
  · rw [hm _ (by simp [addrs])]; exact hr
  · intro a ha; exact hm a (by simp [addrs, ha])

end PTree

namespace PairingPQ

variable {α : Type}

theorem meldNodes_eq (compare : α → α → Bool) (m : Mem α) (a b : Nat) (na nb : Node α)
    (ha : m a = some na) (hb : m b = some nb) :
    meldNodes compare m a b =
      if compare nb.elt na.elt then (attach m a b).map (fun m' => (m', a))
      else (attach m b a).map (fun m' => (m', b)) := by
  unfold meldNodes
  rw [ha, hb]
  cases hc : compare nb.elt na.elt
  · simp only [hc, Bool.false_eq_true, if_false]
    cases attach m b a <;> rfl
  · simp only [hc, if_true]
    cases attach m a b <;> rfl

/-- What `attach` leaves in memory when the winner and the loser are roots of two trees
that share no node. -/
theorem attach_spec (m : Mem α) (w l : PTree α) (sibw prevw : Option Nat)
    (hw : m w.addr = some ⟨w.elt, w.kids.head, sibw, prevw⟩)
    (hwk : Shape.Rep m (some w.addr) w.kids)
    (hl : l.Rooted m) (hnd : (w.addrs ++ l.addrs).Nodup) :
    ∃ m', attach m w.addr l.addr = some m' ∧
      m' w.addr = some ⟨w.elt, some l.addr, sibw, prevw⟩ ∧
      (PTree.link w l).Rooted m' ∧
      (∀ x, x ∉ w.addrs ++ l.addrs → m' x = m x) := by
  obtain ⟨wa, we, wk⟩ := w
  obtain ⟨la, le, lk⟩ := l
  obtain ⟨⟨sibl, prevl, hl⟩, hlk⟩ := hl
  simp only [PTree.addrs, List.cons_append, List.nodup_cons, List.mem_append, List.mem_cons,
    not_or, List.nodup_append, List.disjoint_cons_right] at hnd
  simp only at hw hwk hl hlk
  obtain ⟨⟨hwk1, hwl, hwlk⟩, hndw, ⟨hlk1, hndl⟩, hla, hdis⟩ := hnd
  have hlw : la ≠ wa := fun h => hwl h.symm
  cases wk with
  | nil =>
    have hat : attach m wa la = some (((m.store la ⟨le, lk.head, none, prevl⟩).store la
        ⟨le, lk.head, none, some wa⟩).store wa ⟨we, some la, sibw, prevw⟩) := by
      have hw' : m wa = some ⟨we, none, sibw, prevw⟩ := hw
      simp [attach, hw', Mem.setSibling, Mem.setPrevious, Mem.setChild, Mem.store, hl, hwl]
    refine ⟨_, hat, ?_, ?_, ?_⟩
    · simp [Mem.store]
    · refine ⟨⟨sibw, prevw, by simp [Mem.store, PTree.link, Shape.head]⟩, ?_, ?_, trivial⟩
      · simp [Mem.store, PTree.link, Shape.head, hlw]
      · apply hlk.frame
        intro x hx
        have h1 : x ≠ la := by rintro rfl; exact hlk1 hx
        have h2 : x ≠ wa := by rintro rfl; exact hwlk hx
        simp [Mem.store, PTree.link, h1, h2]
    · intro x hx
      simp only [PTree.addrs, List.cons_append, List.mem_cons, List.mem_append, not_or] at hx
      simp [Mem.store, hx.1, hx.2.2.1]
  | node c ec cc cs =>
    obtain ⟨hc, hcc, hcs⟩ := hwk
    simp only [Shape.addrs, List.mem_cons, List.mem_append, not_or, List.nodup_cons,
      List.disjoint_cons_left] at hwk1 hla hdis hndw
    have hcw : c ≠ wa := fun h => hwk1.1 h.symm
    have hcl : c ≠ la := fun h => hla.1 h.symm
    have hat : attach m wa la = some ((((m.store la ⟨le, lk.head, some c, prevl⟩).store c
        ⟨ec, cc.head, cs.head, some la⟩).store la ⟨le, lk.head, some c, some wa⟩).store wa
          ⟨we, some la, sibw, prevw⟩) := by
      have hw' : m wa = some ⟨we, some c, sibw, prevw⟩ := hw
      simp [attach, hw', Mem.setSibling, Mem.setPrevious, Mem.setChild, Mem.store, hl,
        hwl, hcl, hc, hcw, hlw, hla.1, hwk1.1]
    refine ⟨_, hat, ?_, ?_, ?_⟩
    · simp [Mem.store]
    · refine ⟨⟨sibw, prevw, by simp [Mem.store, PTree.link, Shape.head]⟩, ?_, ?_, ?_⟩
      · simp [Mem.store, PTree.link, Shape.head, hlw]
      · apply hlk.frame
        intro x hx
        have h1 : x ≠ la := by rintro rfl; exact hlk1 hx
        have h2 : x ≠ wa := by rintro rfl; exact hwlk hx
        have h3 : x ≠ c := by rintro rfl; exact hdis.1 hx
        simp [Mem.store, PTree.link, h1, h2, h3]
      · refine ⟨?_, hcc.frame ?_, hcs.frame ?_⟩
        · simp [Mem.store, hcw, hcl]
        · intro x hx
          have h1 : x ≠ la := by rintro rfl; exact hla.2.1 hx
          have h2 : x ≠ wa := by rintro rfl; exact hwk1.2.1 hx
          have h3 : x ≠ c := by rintro rfl; exact hndw.1.1 hx
          simp [Mem.store, h1, h2, h3]
        · intro x hx
          have h1 : x ≠ la := by rintro rfl; exact hla.2.2 hx
          have h2 : x ≠ wa := by rintro rfl; exact hwk1.2.2 hx
          have h3 : x ≠ c := by rintro rfl; exact hndw.1.2 hx
          simp [Mem.store, h1, h2, h3]
    · intro x hx
      simp only [PTree.addrs, List.cons_append, List.mem_cons, List.mem_append, not_or,
        Shape.addrs] at hx
      simp [Mem.store, hx.1, hx.2.2.2.1, hx.2.1]

end PairingPQ

namespace PTree

variable {α : Type}

theorem link_addrs_perm (w l : PTree α) : (link w l).addrs.Perm (w.addrs ++ l.addrs) := by
  simp only [link, addrs, Shape.addrs, List.cons_append]
  refine List.Perm.cons _ ?_
  have h1 : (l.addr :: (l.kids.addrs ++ w.kids.addrs)).Perm ((l.addr :: l.kids.addrs) ++ w.kids.addrs) := by
    simp
  exact h1.trans List.perm_append_comm

theorem meld_addrs_perm (compare : α → α → Bool) (a b : PTree α) :
    (meld compare a b).addrs.Perm (a.addrs ++ b.addrs) := by
  unfold meld
  split
  · exact link_addrs_perm a b
  · exact (link_addrs_perm b a).trans List.perm_append_comm

theorem link_elts_perm (w l : PTree α) : (link w l).elts.Perm (w.elts ++ l.elts) := by
  simp only [link, elts, Shape.elts, List.cons_append]
  refine List.Perm.cons _ ?_
  have h1 : (l.elt :: (l.kids.elts ++ w.kids.elts)).Perm ((l.elt :: l.kids.elts) ++ w.kids.elts) := by
    simp
  exact h1.trans List.perm_append_comm

theorem meld_elts_perm (compare : α → α → Bool) (a b : PTree α) :
    (meld compare a b).elts.Perm (a.elts ++ b.elts) := by
  unfold meld
  split
  · exact link_elts_perm a b
  · exact (link_elts_perm b a).trans List.perm_append_comm

theorem size_eq_length_tree_addrs (t : PTree α) : t.size = t.addrs.length := by
  simp [size, addrs, Shape.size_eq_length_addrs]

theorem length_tree_elts (t : PTree α) : t.elts.length = t.size := by
  simp [size, elts, Shape.length_elts]

end PTree

namespace Shape

variable {α : Type}

theorem trees_map_addr (t : Shape α) : t.trees.map PTree.addr = t.chain := by
  induction t with
  | nil => rfl
  | node a e c s _ ihs => simp [trees, chain, ihs]

theorem trees_map_elt (t : Shape α) : t.trees.map PTree.elt = t.roots := by
  induction t with
  | nil => rfl
  | node a e c s _ ihs => simp [trees, roots, ihs]

theorem trees_flatMap_addrs (t : Shape α) : t.trees.flatMap PTree.addrs = t.addrs := by
  induction t with
  | nil => rfl
  | node a e c s _ ihs => simp [trees, addrs, PTree.addrs, ihs]

theorem trees_flatMap_elts (t : Shape α) : t.trees.flatMap PTree.elts = t.elts := by
  induction t with
  | nil => rfl
  | node a e c s _ ihs => simp [trees, elts, PTree.elts, ihs]

theorem length_trees (t : Shape α) : t.trees.length = t.chain.length := by
  rw [← trees_map_addr, List.length_map]

theorem length_chain_le (t : Shape α) : t.chain.length ≤ t.size := by
  induction t with
  | nil => simp [chain]
  | node a e c s _ ihs => simp only [chain, size, List.length_cons]; omega

theorem Rep.trees_rooted {m : Mem α} : ∀ {t : Shape α} {prev : Option Nat},
    Rep m prev t → ∀ x ∈ t.trees, x.Rooted m
  | nil, _, _, x, hx => by simp [Shape.trees] at hx
  | node a e c s, prev, h, x, hx => by
    obtain ⟨ha, hc, hs⟩ := h
    simp only [Shape.trees, List.mem_cons] at hx
    rcases hx with rfl | hx
    · exact ⟨⟨_, _, ha⟩, hc⟩
    · exact Rep.trees_rooted hs x hx

end Shape

namespace PairingPQ

variable {α : Type}

/-- `meld` on the roots of two trees that share no node builds `PTree.meld` of them and
touches no other node. -/
theorem meldNodes_spec (compare : α → α → Bool) (m : Mem α) (a b : PTree α)
    (ha : a.Rooted m) (hb : b.Rooted m) (hnd : (a.addrs ++ b.addrs).Nodup) :
    ∃ m', meldNodes compare m a.addr b.addr = some (m', (PTree.meld compare a b).addr) ∧
      (PTree.meld compare a b).Rooted m' ∧ (∀ x, x ∉ a.addrs ++ b.addrs → m' x = m x) := by
  obtain ⟨⟨siba, preva, ha1⟩, ha2⟩ := id ha
  obtain ⟨⟨sibb, prevb, hb1⟩, hb2⟩ := id hb
  rw [meldNodes_eq compare m a.addr b.addr _ _ ha1 hb1]
  simp only [PTree.meld]
  cases hc : compare b.elt a.elt
  · have hnd' : (b.addrs ++ a.addrs).Nodup := (List.perm_append_comm.nodup_iff).1 hnd
    obtain ⟨m', h1, _, h3, h4⟩ := attach_spec m b a sibb prevb hb1 hb2 ha hnd'
    refine ⟨m', by simp [h1, PTree.link], by simpa using h3, ?_⟩
    intro x hx
    apply h4
    simp only [List.mem_append, not_or] at hx ⊢
    exact ⟨hx.2, hx.1⟩
  · obtain ⟨m', h1, _, h3, h4⟩ := attach_spec m a b siba preva ha1 ha2 hb hnd
    exact ⟨m', by simp [h1, PTree.link], by simpa using h3, h4⟩

/-- The sibling walk of `pop` returns the child list. -/
theorem siblingChain_spec {m : Mem α} : ∀ (t : Shape α) (prev : Option Nat) (fuel : Nat),
    Shape.Rep m prev t → t.chain.length ≤ fuel → siblingChain m fuel t.head = some t.chain
  | Shape.nil, _, fuel, _, _ => by cases fuel <;> rfl
  | Shape.node a e c s, prev, 0, _, hf => by simp [Shape.chain] at hf
  | Shape.node a e c s, prev, fuel + 1, h, hf => by
    obtain ⟨ha, _, hs⟩ := h
    simp only [Shape.chain, List.length_cons, Nat.add_le_add_iff_right] at hf
    show siblingChain m (fuel + 1) (some a) = some (a :: s.chain)
    simp only [siblingChain, ha, siblingChain_spec s (some a) fuel hs hf]

theorem Forest.perm {m : Mem α} {ts ts' : List (PTree α)} (h : Forest m ts)
    (hp : ts'.Perm ts) : Forest m ts' :=
  ⟨fun t ht => h.1 t (hp.subset ht), ((hp.flatMap_right _).nodup_iff).2 h.2⟩

/-- The pairing loop of `pop` computes `PTree.pairing` and touches no node outside the
trees in its queue. -/
theorem pairLoop_spec (compare : α → α → Bool) : ∀ (fuel : Nat) (m : Mem α) (ts : List (PTree α)),
    Forest m ts → ts.length ≤ fuel →
    ∃ m', pairLoop compare fuel m (ts.map PTree.addr) =
        some (m', (PTree.pairing compare fuel ts).map PTree.addr) ∧
      (∀ t, PTree.pairing compare fuel ts = some t → t.Rooted m') ∧
      (∀ x, x ∉ ts.flatMap PTree.addrs → m' x = m x)
  | fuel, m, [], _, _ => ⟨m, by cases fuel <;> rfl, by cases fuel <;> simp [PTree.pairing], fun _ _ => rfl⟩
  | fuel, m, [t], h, _ =>
    ⟨m, by cases fuel <;> rfl, by
      intro t' ht'
      have : t' = t := by cases fuel <;> simp [PTree.pairing] at ht' <;> exact ht'.symm
      subst this
      exact h.1 _ (by simp), fun _ _ => rfl⟩
  | 0, m, a :: b :: rest, _, hf => by simp at hf
  | fuel + 1, m, a :: b :: rest, h, hf => by
    have hnd : (a.addrs ++ (b.addrs ++ rest.flatMap PTree.addrs)).Nodup := by
      simpa [List.flatMap_cons] using h.2
    have hab : (a.addrs ++ b.addrs).Nodup := by
      rw [← List.append_assoc] at hnd
      exact (List.nodup_append.1 hnd).1
    obtain ⟨m1, h1, h2, h3⟩ := meldNodes_spec compare m a b (h.1 a (by simp)) (h.1 b (by simp)) hab
    have hF : Forest m1 (rest ++ [PTree.meld compare a b]) := by
      refine ⟨?_, ?_⟩
      · intro t ht
        simp only [List.mem_append, List.mem_singleton] at ht
        rcases ht with ht | rfl
        · apply (h.1 t (by simp [ht])).frame_tree
          intro x hx
          apply h3
          rw [← List.append_assoc] at hnd
          have hd := (List.nodup_append.1 hnd).2.2
          intro hx'
          exact hd hx' (List.mem_flatMap.2 ⟨t, ht, hx⟩)
        · exact h2
      · rw [List.flatMap_append]
        simp only [List.flatMap_cons, List.flatMap_nil, List.append_nil]
        rw [← List.append_assoc] at hnd
        have hp : (rest.flatMap PTree.addrs ++ (PTree.meld compare a b).addrs).Perm
            ((a.addrs ++ b.addrs) ++ rest.flatMap PTree.addrs) :=
          List.perm_append_comm.trans (List.Perm.append_right _ (PTree.meld_addrs_perm compare a b))
        exact (hp.nodup_iff).2 hnd
    have hlen : (rest ++ [PTree.meld compare a b]).length ≤ fuel := by
      simp only [List.length_append, List.length_cons, List.length_nil] at hf ⊢; omega
    obtain ⟨m2, g1, g2, g3⟩ := pairLoop_spec compare fuel m1 _ hF hlen
    refine ⟨m2, ?_, ?_, ?_⟩
    · simp only [List.map_cons, pairLoop, h1, PTree.pairing]
      rw [← g1]; simp
    · intro t ht
      exact g2 t (by simpa [PTree.pairing] using ht)
    · intro x hx
      simp only [List.flatMap_cons, List.mem_append, not_or] at hx
      rw [g3 x, h3 x]
      · simp only [List.mem_append, not_or]; exact ⟨hx.1, hx.2.1⟩
      · rw [List.flatMap_append]
        simp only [List.flatMap_cons, List.flatMap_nil, List.append_nil, List.mem_append, not_or]
        refine ⟨hx.2.2, ?_⟩
        intro hm
        have := (PTree.meld_addrs_perm compare a b).subset hm
        simp only [List.mem_append] at this
        rcases this with h | h
        · exact hx.1 h
        · exact hx.2.1 h

end PairingPQ

namespace StrictWeakOrder

variable {α : Type} {compare : α → α → Bool}

theorem asymm (h : StrictWeakOrder compare) {x y : α} (hxy : compare x y = true) :
    compare y x = false := by
  cases hyx : compare y x
  · rfl
  · have := h.trans x y x hxy hyx
    rw [h.irrefl] at this
    exact absurd this (by decide)

theorem neg_trans (h : StrictWeakOrder compare) {x y z : α} (hxy : compare x y = false)
    (hyz : compare y z = false) : compare x z = false := by
  cases hxz : compare x z
  · rfl
  · exfalso
    have hyx : compare y x = false := by
      cases hyx : compare y x
      · rfl
      · have := h.trans y x z hyx hxz
        rw [hyz] at this; exact absurd this (by decide)
    have hzy : compare z y = false := by
      cases hzy : compare z y
      · rfl
      · have := h.trans x z y hxz hzy
        rw [hxy] at this; exact absurd this (by decide)
    have := (h.incomp_trans x y z hxy hyx hyz hzy).1
    rw [hxz] at this; exact absurd this (by decide)

end StrictWeakOrder

theorem List.length_le_of_nodup_of_lt {l : List Nat} {n : Nat} (hnd : l.Nodup)
    (hlt : ∀ a ∈ l, a < n) : l.length ≤ n := by
  have h1 : l.toFinset ⊆ Finset.range n := by
    intro a ha
    simp only [List.mem_toFinset] at ha
    simpa using hlt a ha
  have h2 := Finset.card_le_card h1
  rw [List.toFinset_card_of_nodup hnd] at h2
  simpa using h2

namespace PTree

variable {α : Type}

theorem link_ordered {compare : α → α → Bool} {w l : PTree α} (hw : w.Ordered compare)
    (hl : l.Ordered compare) (h : compare w.elt l.elt = false) : (link w l).Ordered compare := by
  refine ⟨?_, hl.1, hl.2, hw.2⟩
  intro x hx
  simp only [link, Shape.roots, List.mem_cons] at hx
  rcases hx with rfl | hx
  · exact h
  · exact hw.1 x hx

theorem meld_ordered {compare : α → α → Bool} (hc : StrictWeakOrder compare) {a b : PTree α}
    (ha : a.Ordered compare) (hb : b.Ordered compare) : (meld compare a b).Ordered compare := by
  unfold meld
  cases h : compare b.elt a.elt
  · simpa using link_ordered hb ha h
  · simpa using link_ordered ha hb (hc.asymm h)

theorem meld_size (compare : α → α → Bool) (a b : PTree α) :
    (meld compare a b).size = a.size + b.size := by
  rw [size_eq_length_tree_addrs, (meld_addrs_perm compare a b).length_eq, List.length_append,
    size_eq_length_tree_addrs, size_eq_length_tree_addrs]

/-- With fuel for every tree in the queue the pairing returns one tree made of all of them. -/
theorem pairing_spec (compare : α → α → Bool) : ∀ (fuel : Nat) (ts : List (PTree α)),
    ts ≠ [] → ts.length ≤ fuel →
    ∃ g, pairing compare fuel ts = some g ∧ g.addrs.Perm (ts.flatMap addrs) ∧
      g.elts.Perm (ts.flatMap elts) ∧
      (StrictWeakOrder compare → (∀ t ∈ ts, t.Ordered compare) → g.Ordered compare)
  | _, [], h, _ => absurd rfl h
  | fuel, [t], _, _ => ⟨t, by cases fuel <;> rfl, by simp, by simp, fun _ h => h t (by simp)⟩
  | 0, _ :: _ :: _, _, hf => by simp at hf
  | fuel + 1, a :: b :: rest, _, hf => by
    have hlen : (rest ++ [meld compare a b]).length ≤ fuel := by
      simp only [List.length_append, List.length_cons, List.length_nil] at hf ⊢; omega
    obtain ⟨g, h1, h2, h3, h4⟩ := pairing_spec compare fuel (rest ++ [meld compare a b]) (by simp) hlen
    refine ⟨g, by simpa [pairing] using h1, ?_, ?_, ?_⟩
    · refine h2.trans ?_
      rw [List.flatMap_append]
      simp only [List.flatMap_cons, List.flatMap_nil, List.append_nil]
      rw [← List.append_assoc]
      exact List.perm_append_comm.trans (List.Perm.append_right _ (meld_addrs_perm compare a b))
    · refine h3.trans ?_
      rw [List.flatMap_append]
      simp only [List.flatMap_cons, List.flatMap_nil, List.append_nil]
      rw [← List.append_assoc]
      exact List.perm_append_comm.trans (List.Perm.append_right _ (meld_elts_perm compare a b))
    · intro hc ho
      apply h4 hc
      intro t ht
      simp only [List.mem_append, List.mem_singleton] at ht
      rcases ht with ht | rfl
      · exact ho t (by simp [ht])
      · exact meld_ordered hc (ho a (by simp)) (ho b (by simp))

end PTree

namespace Shape

variable {α : Type}

theorem Ordered.trees_ordered {compare : α → α → Bool} : ∀ {t : Shape α},
    t.Ordered compare → ∀ x ∈ t.trees, x.Ordered compare
  | nil, _, x, hx => by simp [Shape.trees] at hx
  | node a e c s, h, x, hx => by
    obtain ⟨h1, h2, h3⟩ := h
    simp only [Shape.trees, List.mem_cons] at hx
    rcases hx with rfl | hx
    · exact ⟨h1, h2⟩
    · exact Ordered.trees_ordered h3 x hx

end Shape

namespace PairingPQ

variable {α : Type}

theorem init_models : Models (init : PairingPQ α) none := ⟨rfl, rfl, fun _ => rfl⟩

theorem addNode_spec (compare : α → α → Bool) (s : PairingPQ α) (o : Option (PTree α)) (v : α)
    (h : Models s o) :
    ∃ s', addNode compare s v = some (s', s.next) ∧
      Models s' (some (pushed compare o s.next v)) ∧ s'.next = s.next + 1 := by
  cases o with
  | none =>
    obtain ⟨hr, hc, hm⟩ := h
    refine ⟨⟨s.cells.store s.next ⟨v, none, none, none⟩, s.next + 1, some s.next, 1⟩,
      by simp [addNode, hr], ?_, rfl⟩
    refine ⟨rfl, ⟨⟨none, none, by simp [Mem.store, pushed, Shape.head]⟩, trivial⟩, by simp [pushed, PTree.addrs, Shape.addrs],
      by simp [pushed, PTree.size, Shape.size], ?_, ?_⟩
    · intro a ha
      by_cases hx : a = s.next
      · simp [pushed, PTree.addrs, hx]
      · simp [Mem.store, hx, hm] at ha
    · intro a ha
      simp only [pushed, PTree.addrs, Shape.addrs, List.mem_singleton] at ha
      simp [ha]
  | some t =>
    obtain ⟨hr, hroot, hnd, hc, hlive, hlt⟩ := h
    let n : PTree α := ⟨s.next, v, Shape.nil⟩
    have hfresh : s.next ∉ t.addrs := fun hx => Nat.lt_irrefl _ (hlt _ hx)
    have hn : n.Rooted (s.cells.store s.next ⟨v, none, none, none⟩) :=
      ⟨⟨none, none, by simp [Mem.store, n, Shape.head]⟩, trivial⟩
    have ht : t.Rooted (s.cells.store s.next ⟨v, none, none, none⟩) := by
      apply hroot.frame_tree
      intro a ha
      have : a ≠ s.next := by rintro rfl; exact hfresh ha
      simp [Mem.store, this]
    have hna : n.addrs = [s.next] := rfl
    have hnd' : (n.addrs ++ t.addrs).Nodup := by
      rw [hna, List.singleton_append, List.nodup_cons]
      exact ⟨hfresh, hnd⟩
    obtain ⟨m', h1, h2, h3⟩ := meldNodes_spec compare _ n t hn ht hnd'
    have h1' : meldNodes compare (s.cells.store s.next ⟨v, none, none, none⟩) s.next t.addr =
        some (m', (PTree.meld compare n t).addr) := h1
    refine ⟨⟨m', s.next + 1, some (PTree.meld compare n t).addr, s.count + 1⟩,
      by simp [addNode, hr, meld, h1'], ?_, rfl⟩
    have hp := PTree.meld_addrs_perm compare n t
    refine ⟨rfl, h2, (hp.nodup_iff).2 hnd', ?_, ?_, ?_⟩
    · simp only [pushed]
      rw [PTree.meld_size, hc]
      simp [n, PTree.size, Shape.size]; omega
    · intro a ha
      by_contra hnm
      have hna' : a ∉ n.addrs ++ t.addrs := fun hx => hnm (hp.symm.subset hx)
      have := h3 a hna'
      simp only at ha
      rw [this] at ha
      rw [hna, List.singleton_append, List.mem_cons, not_or] at hna'
      simp only [Mem.store, hna'.1, if_false] at ha
      exact hna'.2 (hlive a ha)
    · intro a ha
      have := hp.subset ha
      rw [hna, List.singleton_append, List.mem_cons] at this
      rcases this with rfl | h
      · exact Nat.lt_succ_self _
      · exact Nat.lt_succ_of_lt (hlt a h)

end PairingPQ

namespace PairingPQ

variable {α : Type}

theorem decr_succ (n : Nat) : decr (n + 1) = n := by simp [decr]

theorem pop_spec (compare : α → α → Bool) (s : PairingPQ α) (o : Option (PTree α))
    (h : Models s o) :
    ∃ s', pop compare s = some s' ∧ Models s' (popped compare o) ∧ s'.next = s.next := by
  cases o with
  | none =>
    obtain ⟨hr, hc, hm⟩ := h
    exact ⟨⟨s.cells, s.next, s.root, 0⟩, by simp [pop, hr], ⟨hr, rfl, hm⟩, rfl⟩
  | some t =>
    obtain ⟨r, e, kids⟩ := t
    obtain ⟨hr, ⟨⟨sib, prev, hroot⟩, hk⟩, hnd, hc, hlive, hlt⟩ := h
    simp only at hr hroot hk
    simp only [PTree.addrs, List.nodup_cons] at hnd
    have hfree : ∀ a, a ∉ kids.addrs → s.cells.free r a = none := by
      intro a ha
      by_cases har : a = r
      · simp [Mem.free, har]
      · simp only [Mem.free, har, if_false]
        by_contra hne
        have := hlive a hne
        simp only [PTree.addrs, List.mem_cons] at this
        rcases this with h | h
        · exact har h
        · exact ha h
    cases kids with
    | nil =>
      have hroot' : s.cells r = some ⟨e, none, sib, prev⟩ := hroot
      refine ⟨⟨s.cells.free r, s.next, none, 0⟩, by simp [pop, hr, hroot'], ⟨rfl, rfl, ?_⟩, rfl⟩
      intro a
      exact hfree a (by simp [Shape.addrs])
    | node c ec cc cs =>
      have hroot' : s.cells r = some ⟨e, some c, sib, prev⟩ := hroot
      have hcount : s.count = (cc.size + cs.size) + 1 + 1 := by
        rw [hc]; simp [PTree.size, Shape.size]
      obtain ⟨hcell, hcc, hcs⟩ := id hk
      cases cs with
      | nil =>
        have hcell' : s.cells c = some ⟨ec, cc.head, none, some r⟩ := hcell
        refine ⟨⟨s.cells.free r, s.next, some c, decr s.count⟩,
          by simp [pop, hr, hroot', hcell'], ?_, rfl⟩
        have hpop : popped compare (some ⟨r, e, Shape.node c ec cc Shape.nil⟩) =
            some ⟨c, ec, cc⟩ := rfl
        rw [hpop]
        simp only [Shape.addrs, List.append_nil, List.mem_cons, not_or, List.nodup_cons] at hnd
        refine ⟨rfl, ⟨⟨none, some r, ?_⟩, hcc.frame ?_⟩, ?_, ?_, ?_, ?_⟩
        · simp only [Mem.free, hnd.1.1, Ne.symm hnd.1.1, if_false]; exact hcell'
        · intro a ha
          have : a ≠ r := by rintro rfl; exact hnd.1.2 ha
          simp [Mem.free, this]
        · simp only [PTree.addrs, List.nodup_cons]; exact hnd.2
        · simp only [hcount, decr_succ, PTree.size, Shape.size]
        · intro a ha
          by_contra hna
          apply ha
          apply hfree
          simpa [PTree.addrs, Shape.addrs] using hna
        · intro a ha
          apply hlt
          simp only [PTree.addrs, Shape.addrs, List.append_nil, List.mem_cons] at ha ⊢
          exact Or.inr ha
      | node d ed dc ds =>
        have hcell' : s.cells c = some ⟨ec, cc.head, some d, some r⟩ := hcell
        set kids := Shape.node c ec cc (Shape.node d ed dc ds) with hkids
        have hlen : kids.addrs.length ≤ s.next := by
          apply List.length_le_of_nodup_of_lt hnd.2
          intro a ha
          exact hlt a (by simp [PTree.addrs, ha])
        have hchain : siblingChain s.cells s.next (some c) = some kids.chain := by
          have := siblingChain_spec kids (some r) s.next hk
            (le_trans (by rw [← Shape.size_eq_length_addrs]; exact Shape.length_chain_le kids) hlen)
          exact this
        have hF : Forest s.cells kids.trees :=
          ⟨hk.trees_rooted, by rw [Shape.trees_flatMap_addrs]; exact hnd.2⟩
        obtain ⟨m', h1, h2, h3⟩ :=
          pairLoop_spec compare kids.trees.length s.cells kids.trees hF (le_refl _)
        obtain ⟨g, g1, g2, g3, _⟩ :=
          PTree.pairing_spec compare kids.trees.length kids.trees (by simp [kids, Shape.trees])
            (le_refl _)
        rw [Shape.trees_flatMap_addrs] at g2 h3
        rw [Shape.trees_map_addr, g1] at h1
        have hlc : kids.chain.length = kids.trees.length := (Shape.length_trees kids).symm
        refine ⟨⟨m'.free r, s.next, some g.addr, decr s.count⟩, ?_, ?_, rfl⟩
        · simp only [pop, hr, hroot', hcell', hchain, hlc, h1, Option.map_some']
        · have hpop : popped compare (some ⟨r, e, kids⟩) = some g := g1
          rw [hpop]
          have hrg : r ∉ g.addrs := fun hx => hnd.1 (g2.subset hx)
          refine ⟨rfl, (h2 g g1).frame_tree ?_, (g2.nodup_iff).2 hnd.2, ?_, ?_, ?_⟩
          · intro a ha
            have : a ≠ r := by rintro rfl; exact hrg ha
            simp [Mem.free, this]
          · rw [hcount, decr_succ, PTree.size_eq_length_tree_addrs, g2.length_eq,
              ← Shape.size_eq_length_addrs]
            simp [kids, Shape.size]
          · intro a ha
            by_contra hna
            apply ha
            have hna' : a ∉ kids.addrs := fun hx => hna (g2.symm.subset hx)
            have := hfree a hna'
            simp only [Mem.free] at this ⊢
            split
            · rfl
            · rename_i har
              simp only [har, if_false] at this
              rw [h3 a hna']; exact this
          · intro a ha
            apply hlt
            simp only [PTree.addrs, List.mem_cons]
            exact Or.inr (g2.subset ha)

end PairingPQ

namespace Shape

variable {α : Type}

/-- In an ordered child list whose first-level nodes are not beaten by `b`, nothing is. -/
theorem Ordered.bound {compare : α → α → Bool} (hc : StrictWeakOrder compare) :
    ∀ {t : Shape α} {b : α}, t.Ordered compare → (∀ x ∈ t.roots, compare b x = false) →
      ∀ x ∈ t.elts, compare b x = false
  | nil, _, _, _, x, hx => by simp [elts] at hx
  | node a e c s, b, h, hb, x, hx => by
    obtain ⟨h1, h2, h3⟩ := h
    have hbe : compare b e = false := hb e (by simp [roots])
    simp only [elts, List.mem_cons, List.mem_append] at hx
    rcases hx with rfl | hx | hx
    · exact hbe
    · exact hc.neg_trans hbe (Ordered.bound hc h2 h1 x hx)
    · exact Ordered.bound hc h3 (fun y hy => hb y (by simp [roots, hy])) x hx

end Shape

namespace PTree

variable {α : Type}

/-- The root of an ordered tree is beaten by no element of the tree. -/
theorem Ordered.root_extreme {compare : α → α → Bool} (hc : StrictWeakOrder compare)
    {t : PTree α} (h : t.Ordered compare) : ∀ x ∈ t.elts, compare t.elt x = false := by
  intro x hx
  simp only [elts, List.mem_cons] at hx
  rcases hx with rfl | hx
  · exact hc.irrefl _
  · exact Shape.Ordered.bound hc h.2 h.1 x hx

end PTree

namespace PairingPQ

variable {α : Type}

theorem pushed_elts (compare : α → α → Bool) (o : Option (PTree α)) (a : Nat) (v : α) :
    (pushed compare o a v).elts.Perm (v :: heapElts o) := by
  cases o with
  | none => simp [pushed, PTree.elts, Shape.elts, heapElts]
  | some t =>
    simpa [pushed, heapElts, PTree.elts, Shape.elts] using
      PTree.meld_elts_perm compare ⟨a, v, Shape.nil⟩ t

theorem pushed_addrs (compare : α → α → Bool) (o : Option (PTree α)) (a : Nat) (v : α) :
    (pushed compare o a v).addrs.Perm (a :: heapAddrs o) := by
  cases o with
  | none => simp [pushed, PTree.addrs, Shape.addrs, heapAddrs]
  | some t =>
    simpa [pushed, heapAddrs, PTree.addrs, Shape.addrs] using
      PTree.meld_addrs_perm compare ⟨a, v, Shape.nil⟩ t

theorem pushed_ordered {compare : α → α → Bool} (hc : StrictWeakOrder compare)
    {o : Option (PTree α)} (a : Nat) (v : α) (h : HeapOrdered compare o) :
    (pushed compare o a v).Ordered compare := by
  have hn : (⟨a, v, Shape.nil⟩ : PTree α).Ordered compare :=
    ⟨by simp [Shape.roots], trivial⟩
  cases o with
  | none => exact hn
  | some t => exact PTree.meld_ordered hc hn h

theorem popped_elts (compare : α → α → Bool) (t : PTree α) :
    (heapElts (popped compare (some t))).Perm t.kids.elts := by
  by_cases hk : t.kids.trees = []
  · have : t.kids = Shape.nil := by
      cases h : t.kids with
      | nil => rfl
      | node a e c s => rw [h] at hk; simp [Shape.trees] at hk
    simp [popped, this, Shape.trees, PTree.pairing, heapElts, Shape.elts]
  · obtain ⟨g, g1, _, g3, _⟩ := PTree.pairing_spec compare _ t.kids.trees hk (le_refl _)
    rw [Shape.trees_flatMap_elts] at g3
    simpa [popped, g1, heapElts] using g3

theorem popped_addrs (compare : α → α → Bool) (t : PTree α) :
    (heapAddrs (popped compare (some t))).Perm t.kids.addrs := by
  by_cases hk : t.kids.trees = []
  · have : t.kids = Shape.nil := by
      cases h : t.kids with
      | nil => rfl
      | node a e c s => rw [h] at hk; simp [Shape.trees] at hk
    simp [popped, this, Shape.trees, PTree.pairing, heapAddrs, Shape.addrs]
  · obtain ⟨g, g1, g2, _, _⟩ := PTree.pairing_spec compare _ t.kids.trees hk (le_refl _)
    rw [Shape.trees_flatMap_addrs] at g2
    simpa [popped, g1, heapAddrs] using g2

theorem popped_ordered {compare : α → α → Bool} (hc : StrictWeakOrder compare)
    {o : Option (PTree α)} (h : HeapOrdered compare o) : HeapOrdered compare (popped compare o) := by
  cases o with
  | none => trivial
  | some t =>
    by_cases hk : t.kids.trees = []
    · simp [popped, hk, PTree.pairing, HeapOrdered]
    · obtain ⟨g, g1, _, _, g4⟩ := PTree.pairing_spec compare _ t.kids.trees hk (le_refl _)
      simp only [popped, g1, HeapOrdered]
      exact g4 hc (Shape.Ordered.trees_ordered h.2)

theorem Models.top_eq {s : PairingPQ α} {t : PTree α} (h : Models s (some t)) :
    s.top = some t.elt := by
  obtain ⟨hr, ⟨⟨sib, prev, hroot⟩, _⟩, _⟩ := h
  simp [PairingPQ.top, hr, hroot]

theorem Models.empty_iff {s : PairingPQ α} {o : Option (PTree α)} (h : Models s o) :
    s.empty = true ↔ o = none := by
  cases o with
  | none => simp [PairingPQ.empty, h.1]
  | some t => simp [PairingPQ.empty, h.1]

theorem Models.size_eq {s : PairingPQ α} {o : Option (PTree α)} (h : Models s o) :
    s.size = (heapElts o).length := by
  cases o with
  | none => simp [PairingPQ.size, h.2.1, heapElts]
  | some t => simp [PairingPQ.size, h.2.2.2.1, heapElts, PTree.length_tree_elts]

theorem push_spec (compare : α → α → Bool) (s : PairingPQ α) (o : Option (PTree α)) (v : α)
    (h : Models s o) :
    ∃ s', push compare s v = some s' ∧
      Models s' (some (pushed compare o s.next v)) ∧ s'.next = s.next + 1 := by
  obtain ⟨s', h1, h2, h3⟩ := addNode_spec compare s o v h
  exact ⟨s', by simp [push, h1], h2, h3⟩

theorem ofRange_spec (compare : α → α → Bool) (hc : StrictWeakOrder compare) :
    ∀ (xs : List α) (s : PairingPQ α) (o : Option (PTree α)), Models s o → HeapOrdered compare o →
      ∃ s' o', ofRange compare xs s = some s' ∧ Models s' o' ∧ HeapOrdered compare o' ∧
        (heapElts o').Perm (heapElts o ++ xs)
  | [], s, o, h, ho => ⟨s, o, rfl, h, ho, by simp⟩
  | x :: xs, s, o, h, ho => by
    obtain ⟨s1, h1, h2, _⟩ := push_spec compare s o x h
    obtain ⟨s', o', g1, g2, g3, g4⟩ := ofRange_spec compare hc xs s1 _ h2
      (pushed_ordered hc s.next x ho)
    refine ⟨s', o', by simp [ofRange, h1, g1], g2, g3, g4.trans ?_⟩
    simp only [heapElts]
    have := (pushed_elts compare o s.next x).append_right xs
    refine this.trans ?_
    simp only [List.cons_append]
    exact List.perm_middle.symm

/-- Draining a heap with enough fuel returns its elements, no later one beating an
earlier one. -/
theorem drain_spec (compare : α → α → Bool) (hc : StrictWeakOrder compare) :
    ∀ (fuel : Nat) (s : PairingPQ α) (o : Option (PTree α)), Models s o →
      HeapOrdered compare o → (heapElts o).length ≤ fuel →
      ∃ ys, drain compare fuel s = some ys ∧ ys.Perm (heapElts o) ∧
        ys.Pairwise (fun yi yj => compare yi yj = false)
  | fuel, s, none, h, _, _ => by
    have he : s.empty = true := (h.empty_iff).2 rfl
    refine ⟨[], ?_, by simp [heapElts], List.Pairwise.nil⟩
    cases fuel <;> simp [drain, he]
  | 0, s, some t, _, _, hf => by simp [heapElts, PTree.elts] at hf
  | fuel + 1, s, some t, h, ho, hf => by
    have he : s.empty = false := by
      cases hs : s.empty
      · rfl
      · exact absurd ((h.empty_iff).1 hs) (by simp)
    obtain ⟨s', h1, h2, _⟩ := pop_spec compare s _ h
    have hp := popped_elts compare t
    have hlen : (heapElts (popped compare (some t))).length ≤ fuel := by
      rw [hp.length_eq]
      simp only [heapElts, PTree.elts, List.length_cons] at hf
      omega
    obtain ⟨ys, g1, g2, g3⟩ := drain_spec compare hc fuel s' _ h2 (popped_ordered hc ho) hlen
    refine ⟨t.elt :: ys, by simp [drain, he, h.top_eq, h1, g1], ?_, ?_⟩
    · simp only [heapElts, PTree.elts]
      exact List.Perm.cons _ (g2.trans hp)
    · refine List.Pairwise.cons ?_ g3
      intro y hy
      apply PTree.Ordered.root_extreme hc ho
      simp only [PTree.elts, List.mem_cons]
      exact Or.inr ((g2.trans hp).subset hy)

end PairingPQ

/-! ## The elements of a state, comparators, reachable states -/

namespace Shape
variable {α : Type}

theorem Rep.filterMap_elt {m : Mem α} : ∀ {t : Shape α} {prev : Option Nat}, Rep m prev t →
    t.addrs.filterMap (fun a => (m a).map Node.elt) = t.elts
  | nil, _, _ => rfl
  | node a e c s, prev, h => by
    obtain ⟨ha, hc, hs⟩ := h
    simp only [addrs, elts, List.filterMap_cons, ha, Option.map_some', List.filterMap_append,
      Rep.filterMap_elt hc, Rep.filterMap_elt hs]

end Shape

namespace PairingPQ
variable {α : Type}

theorem Models.liveAddrs_perm {s : PairingPQ α} {o : Option (PTree α)} (h : Models s o) :
    (liveAddrs s).Perm (heapAddrs o) := by
  have hnd1 : (liveAddrs s).Nodup := (List.nodup_range _).filter _
  cases o with
  | none =>
    have : liveAddrs s = [] := by
      simp only [liveAddrs, List.filter_eq_nil_iff]
      intro a _
      simp [h.2.2 a]
    rw [this]; exact List.Perm.refl _
  | some t =>
    obtain ⟨_, hroot, hnd, _, hlive, hlt⟩ := h
    show (liveAddrs s).Perm t.addrs
    rw [List.perm_ext_iff_of_nodup hnd1 hnd]
    intro a
    simp only [liveAddrs, List.mem_filter, List.mem_range, heapAddrs]
    constructor
    · rintro ⟨_, ha⟩
      apply hlive
      intro hn; rw [hn] at ha; simp at ha
    · intro ha
      refine ⟨hlt a ha, ?_⟩
      simp only [PTree.addrs, List.mem_cons] at ha
      rcases ha with rfl | ha
      · obtain ⟨sib, prev, hr⟩ := hroot.1
        simp [hr]
      · obtain ⟨n, hn⟩ := hroot.2.live a ha
        simp [hn]

theorem liveElts_eq (s : PairingPQ α) :
    liveElts s = (liveAddrs s).filterMap (fun a => (s.cells a).map Node.elt) := by
  simp only [liveElts, liveAddrs, List.filterMap_filter]
  apply List.filterMap_congr
  intro a _
  cases s.cells a <;> simp [Option.guard]

theorem Models.liveElts_perm {s : PairingPQ α} {o : Option (PTree α)} (h : Models s o) :
    (liveElts s).Perm (heapElts o) := by
  rw [liveElts_eq]
  refine (h.liveAddrs_perm.filterMap _).trans ?_
  cases o with
  | none => simp [heapAddrs, heapElts]
  | some t =>
    obtain ⟨_, hroot, _⟩ := h
    obtain ⟨sib, prev, hr⟩ := hroot.1
    simp only [heapAddrs, heapElts, PTree.addrs, PTree.elts, List.filterMap_cons, hr,
      Option.map_some', hroot.2.filterMap_elt]
    exact List.Perm.refl _

end PairingPQ

theorem less_strictWeakOrder {α : Type} [LinearOrder α] : StrictWeakOrder (less : α → α → Bool) where
  irrefl x := by simp [less]
  trans x y z h1 h2 := by
    simp only [less, decide_eq_true_eq] at *
    exact lt_trans h1 h2
  incomp_trans x y z h1 h2 h3 h4 := by
    simp only [less, decide_eq_false_iff_not, not_lt] at *
    exact ⟨le_trans h3 h1, le_trans h2 h4⟩

theorem greater_strictWeakOrder {α : Type} [LinearOrder α] :
    StrictWeakOrder (greater : α → α → Bool) where
  irrefl x := by simp [greater]
  trans x y z h1 h2 := by
    simp only [greater, decide_eq_true_eq] at *
    exact lt_trans h2 h1
  incomp_trans x y z h1 h2 h3 h4 := by
    simp only [greater, decide_eq_false_iff_not, not_lt] at *
    exact ⟨le_trans h1 h3, le_trans h4 h2⟩

namespace PairingPQ
variable {α : Type}

theorem ReachPushPop.models {compare : α → α → Bool} (hc : StrictWeakOrder compare)
    {s : PairingPQ α} (h : ReachPushPop compare s) :
    ∃ o, Models s o ∧ HeapOrdered compare o := by
  induction h with
  | init => exact ⟨none, init_models, trivial⟩
  | push v _ hs ih =>
    obtain ⟨o, h1, h2⟩ := ih
    obtain ⟨s1, g1, g2, _⟩ := push_spec compare _ o v h1
    rw [g1] at hs; cases hs
    exact ⟨_, g2, pushed_ordered hc _ v h2⟩
  | addNode v a _ hs ih =>
    obtain ⟨o, h1, h2⟩ := ih
    obtain ⟨s1, g1, g2, _⟩ := addNode_spec compare _ o v h1
    rw [g1] at hs; cases hs
    exact ⟨_, g2, pushed_ordered hc _ v h2⟩
  | pop _ hs ih =>
    obtain ⟨o, h1, h2⟩ := ih
    obtain ⟨s1, g1, g2, _⟩ := pop_spec compare _ o h1
    rw [g1] at hs; cases hs
    exact ⟨_, g2, popped_ordered hc h2⟩

theorem ReachPushPop.of_range_reach {compare : α → α → Bool} : ∀ (xs : List α) {s s' : PairingPQ α},
    ReachPushPop compare s → PairingPQ.ofRange compare xs s = some s' → ReachPushPop compare s'
  | [], s, s', h, hs => by cases hs; exact h
  | x :: xs, s, s', h, hs => by
    simp only [PairingPQ.ofRange] at hs
    cases hp : PairingPQ.push compare s x with
    | none => rw [hp] at hs; cases hs
    | some s1 =>
      rw [hp] at hs
      exact ReachPushPop.of_range_reach xs (ReachPushPop.push x h hp) hs

end PairingPQ

/-! ## `updateElt`, `to_queue`, `updatePriorities`, reachable states -/

namespace Shape
variable {α : Type}

theorem head_mem_addrs {t : Shape α} {x : Nat} (h : t.head = some x) : x ∈ t.addrs := by
  cases t with
  | nil => simp [head] at h
  | node a e c s =>
    simp only [head, Option.some.injEq] at h
    simp [addrs, h]

theorem cut_absent {h : Nat} : ∀ {t : Shape α}, h ∉ t.addrs → cut h t = t
  | nil, _ => rfl
  | node a e c s, hh => by
    simp only [addrs, List.mem_cons, List.mem_append, not_or] at hh
    simp only [cut, Ne.symm hh.1, if_false, cut_absent hh.2.1, cut_absent hh.2.2]

theorem cut_addrs_subset {h : Nat} : ∀ {t : Shape α}, ∀ x ∈ (cut h t).addrs, x ∈ t.addrs
  | nil, x, hx => by simp [cut, addrs] at hx
  | node a e c s, x, hx => by
    simp only [cut] at hx
    split at hx
    · simp [addrs, hx]
    · simp only [addrs, List.mem_cons, List.mem_append] at hx ⊢
      rcases hx with h1 | h1 | h1
      · exact Or.inl h1
      · exact Or.inr (Or.inl (cut_addrs_subset x h1))
      · exact Or.inr (Or.inr (cut_addrs_subset x h1))

/-- Taking `h` out of a list splits its nodes into the list that is left, `h`, and the
child list of `h`. -/
theorem cut_addrs_perm {h : Nat} : ∀ {t : Shape α}, t.addrs.Nodup → h ∈ t.addrs →
    ((cut h t).addrs ++ h :: (kidsOf h t).addrs).Perm t.addrs
  | nil, _, hh => by simp [addrs] at hh
  | node a e c s, hnd, hh => by
    simp only [addrs, List.nodup_cons, List.mem_append, not_or, List.nodup_append] at hnd
    obtain ⟨⟨hac, has⟩, hndc, hnds, hdis⟩ := hnd
    by_cases hah : a = h
    · subst hah
      simp only [cut, kidsOf, if_true, addrs]
      have : (s.addrs ++ a :: c.addrs).Perm (a :: c.addrs ++ s.addrs) := List.perm_append_comm
      simpa using this
    · simp only [addrs, List.mem_cons, List.mem_append] at hh
      have hh' : h ∈ c.addrs ∨ h ∈ s.addrs := by
        rcases hh with h1 | h1
        · exact absurd h1.symm hah
        · exact h1
      by_cases hc : h ∈ c.addrs
      · have hs : h ∉ s.addrs := fun hx => hdis hc hx
        simp only [cut, kidsOf, hah, if_false, hc, if_true, addrs, cut_absent hs]
        have ih := cut_addrs_perm hndc hc
        have h1 : (a :: ((cut h c).addrs ++ s.addrs) ++ h :: (kidsOf h c).addrs).Perm
            (a :: (((cut h c).addrs ++ h :: (kidsOf h c).addrs) ++ s.addrs)) := by
          simp only [List.cons_append]
          refine List.Perm.cons _ ?_
          rw [List.append_assoc, List.append_assoc]
          exact List.Perm.append_left _ List.perm_append_comm
        exact h1.trans (List.Perm.cons _ (ih.append_right _))
      · have hs : h ∈ s.addrs := hh'.resolve_left hc
        simp only [cut, kidsOf, hah, if_false, hc, addrs, cut_absent hc]
        have ih := cut_addrs_perm hnds hs
        simp only [List.cons_append, List.append_assoc]
        exact List.Perm.cons _ (List.Perm.append_left _ ih)

end Shape

namespace Shape
variable {α : Type}

open PairingPQ in
/-- The unlinking of `updateElt` on a node `h` inside a list laid out in memory leaves the
list `cut h t` laid out, and tells where `previous` and `sibling` of `h` point. -/
theorem rep_cut {m : Mem α} {h : Nat} (v : α) {hn : Node α} {p : Nat} {pn : Node α}
    (hmh : m h = some hn) (hprev : hn.previous = some p) (hmp : m p = some pn) :
    ∀ (t : Shape α) (q : Nat), Rep m (some q) t → (q :: t.addrs).Nodup → h ∈ t.addrs →
      (p = q ∨ p ∈ (cut h t).addrs) ∧ (p = q ↔ t.head = some h) ∧
      (∀ x, hn.sibling = some x → x ∈ (cut h t).addrs ∧ x ≠ p) ∧
      Rep (unlinked m h v hn p pn) (some q) (cut h t) ∧
      (cut h t).head = (if t.head = some h then hn.sibling else t.head)
  | nil, _, _, _, hh => by simp [addrs] at hh
  | node a e c s, q, hrep, hnd, hh => by
    obtain ⟨ha, hc, hs⟩ := hrep
    simp only [addrs, List.nodup_cons, List.mem_cons, List.mem_append, not_or,
      List.nodup_append] at hnd
    obtain ⟨⟨hqa, hqc, hqs⟩, ⟨hac, has⟩, hndc, hnds, hdis⟩ := hnd
    by_cases hah : a = h
    · -- `h` is the first node of the list
      subst hah
      rw [ha] at hmh
      cases hmh
      simp only at hprev
      cases hprev
      have hcut : cut a (node a e c s) = s := by simp [cut]
      rw [hcut]
      refine ⟨Or.inl rfl, by simp [head], ?_, ?_, by simp [head]⟩
      · intro x hx
        refine ⟨head_mem_addrs hx, ?_⟩
        rintro rfl
        exact hqs (head_mem_addrs hx)
      · apply Rep.rehead (some p) hs hnds
        · intro b eb cb sb hsb
          subst hsb
          have hba : b ≠ a := by
            rintro rfl; exact has (by simp [addrs])
          have hbp : b ≠ p := by
            rintro rfl; exact hqs (by simp [addrs])
          simp only [unlinked, hba, hbp, if_false, head, if_true]
          rw [hs.1]; rfl
        · intro x hx hxh
          have hxa : x ≠ a := by rintro rfl; exact has hx
          have hxp : x ≠ p := by rintro rfl; exact hqs hx
          have hxs : ¬ (s.head = some x) := fun h' => hxh h'.symm
          simp only [unlinked, hxa, hxp, if_false]
          rw [if_neg hxs]
    · -- `h` is further down
      have hha : h ≠ a := fun h' => hah h'.symm
      simp only [addrs, List.mem_cons, List.mem_append] at hh
      have hh' : h ∈ c.addrs ∨ h ∈ s.addrs := by
        rcases hh with h1 | h1
        · exact absurd h1 hha
        · exact h1
      have hhead : (node a e c s).head ≠ some h := by
        simp only [head, ne_eq, Option.some.injEq]; exact hah
      by_cases hcm : h ∈ c.addrs
      · have hsm : h ∉ s.addrs := fun hx => hdis hcm hx
        have hcut : cut h (node a e c s) = node a e (cut h c) s := by
          simp [cut, hah, cut_absent hsm]
        rw [hcut]
        obtain ⟨i1, i2, i3, i4, i5⟩ := rep_cut v hmh hprev hmp c a hc
          (by simp only [List.nodup_cons]; exact ⟨hac, hndc⟩) hcm
        have hpt : p = a ∨ p ∈ c.addrs := i1.imp id (cut_addrs_subset p)
        have hpq : p ≠ q := by
          rintro rfl
          rcases hpt with h1 | h1
          · exact hqa h1
          · exact hqc h1
        have hps : p ∉ s.addrs := by
          intro hx
          rcases hpt with h1 | h1
          · exact has (h1 ▸ hx)
          · exact hdis h1 hx
        refine ⟨Or.inr ?_, ?_, ?_, ?_, ?_⟩
        · simp only [addrs, List.mem_cons, List.mem_append]
          rcases i1 with h1 | h1
          · exact Or.inl h1
          · exact Or.inr (Or.inl h1)
        · exact ⟨fun h1 => absurd h1 hpq, fun h1 => absurd h1 hhead⟩
        · intro x hx
          obtain ⟨j1, j2⟩ := i3 x hx
          exact ⟨by simp [addrs, j1], j2⟩
        · refine ⟨?_, i4, hs.frame ?_⟩
          · by_cases hch : c.head = some h
            · have hpa : p = a := i2.2 hch
              subst hpa
              rw [ha] at hmp
              cases hmp
              simp only [unlinked, hah, if_false, if_true, hch]
              rw [i5, if_pos hch]
            · have hpa : p ≠ a := fun h1 => hch (i2.1 h1)
              have hsa : ¬ (hn.sibling = some a) := by
                intro h1
                exact hac (cut_addrs_subset a (i3 a h1).1)
              simp only [unlinked, hah, Ne.symm hpa, if_false]
              rw [if_neg hsa, i5, if_neg hch]
              exact ha
          · intro x hx
            have hxh : x ≠ h := by rintro rfl; exact hsm hx
            have hxp : x ≠ p := by rintro rfl; exact hps hx
            have hxs : ¬ (hn.sibling = some x) := by
              intro h1
              exact hdis (cut_addrs_subset x (i3 x h1).1) hx
            simp only [unlinked, hxh, hxp, if_false]
            rw [if_neg hxs]
        · simp [head, hah]
      · have hsm : h ∈ s.addrs := hh'.resolve_left hcm
        have hcut : cut h (node a e c s) = node a e c (cut h s) := by
          simp [cut, hah, cut_absent hcm]
        rw [hcut]
        obtain ⟨i1, i2, i3, i4, i5⟩ := rep_cut v hmh hprev hmp s a hs
          (by simp only [List.nodup_cons]; exact ⟨has, hnds⟩) hsm
        have hpt : p = a ∨ p ∈ s.addrs := i1.imp id (cut_addrs_subset p)
        have hpq : p ≠ q := by
          rintro rfl
          rcases hpt with h1 | h1
          · exact hqa h1
          · exact hqs h1
        have hpc : p ∉ c.addrs := by
          intro hx
          rcases hpt with h1 | h1
          · exact hac (h1 ▸ hx)
          · exact hdis hx h1
        refine ⟨Or.inr ?_, ?_, ?_, ?_, ?_⟩
        · simp only [addrs, List.mem_cons, List.mem_append]
          rcases i1 with h1 | h1
          · exact Or.inl h1
          · exact Or.inr (Or.inr h1)
        · exact ⟨fun h1 => absurd h1 hpq, fun h1 => absurd h1 hhead⟩
        · intro x hx
          obtain ⟨j1, j2⟩ := i3 x hx
          exact ⟨by simp [addrs, j1], j2⟩
        · refine ⟨?_, hc.frame ?_, i4⟩
          · by_cases hsh : s.head = some h
            · have hpa : p = a := i2.2 hsh
              subst hpa
              rw [ha] at hmp
              cases hmp
              have hch : ¬ (c.head = some h) := fun h1 => hcm (head_mem_addrs h1)
              simp only [unlinked, hah, if_false, if_true, hch]
              rw [i5, if_pos hsh]
            · have hpa : p ≠ a := fun h1 => hsh (i2.1 h1)
              have hsa : ¬ (hn.sibling = some a) := by
                intro h1
                exact has (cut_addrs_subset a (i3 a h1).1)
              simp only [unlinked, hah, Ne.symm hpa, if_false]
              rw [if_neg hsa, i5, if_neg hsh]
              exact ha
          · intro x hx
            have hxh : x ≠ h := by rintro rfl; exact hcm hx
            have hxp : x ≠ p := by rintro rfl; exact hpc hx
            have hxs : ¬ (hn.sibling = some x) := by
              intro h1
              exact hdis hx (cut_addrs_subset x (i3 x h1).1)
            simp only [unlinked, hxh, hxp, if_false]
            rw [if_neg hxs]
        · simp [head, hah]

end Shape

namespace Shape
variable {α : Type}

theorem head_roots_chain {t : Shape α} : t.roots.length = t.chain.length := by
  induction t with
  | nil => rfl
  | node a e c s _ ihs => simp [roots, chain, ihs]

/-- The node at an address of a list laid out in memory: its element, its child list, and
a `previous` that is the holder of the list or a node of the list. -/
theorem rep_kidsOf {m : Mem α} {h : Nat} : ∀ (t : Shape α) (q : Nat),
    Rep m (some q) t → t.addrs.Nodup → h ∈ t.addrs →
    ∃ hn p, m h = some hn ∧ hn.previous = some p ∧ (p = q ∨ p ∈ t.addrs) ∧
      hn.child = (kidsOf h t).head ∧ eltOf h t = some hn.elt ∧ Rep m (some h) (kidsOf h t)
  | nil, _, _, _, hh => by simp [addrs] at hh
  | node a e c s, q, hrep, hnd, hh => by
    obtain ⟨ha, hc, hs⟩ := hrep
    simp only [addrs, List.nodup_cons, List.mem_append, not_or, List.nodup_append] at hnd
    obtain ⟨⟨hac, has⟩, hndc, hnds, hdis⟩ := hnd
    by_cases hah : a = h
    · subst hah
      exact ⟨_, q, ha, rfl, Or.inl rfl, by simp [kidsOf], by simp [eltOf], by simpa [kidsOf] using hc⟩
    · simp only [addrs, List.mem_cons, List.mem_append] at hh
      have hh' : h ∈ c.addrs ∨ h ∈ s.addrs := by
        rcases hh with h1 | h1
        · exact absurd h1.symm hah
        · exact h1
      by_cases hcm : h ∈ c.addrs
      · obtain ⟨hn, p, j1, j2, j3, j4, j5, j6⟩ := rep_kidsOf c a hc hndc hcm
        refine ⟨hn, p, j1, j2, Or.inr ?_, ?_, ?_, ?_⟩
        · simp only [addrs, List.mem_cons, List.mem_append]
          rcases j3 with h1 | h1
          · exact Or.inl h1
          · exact Or.inr (Or.inl h1)
        · simpa [kidsOf, hah, hcm] using j4
        · simpa [eltOf, hah, hcm] using j5
        · simpa [kidsOf, hah, hcm] using j6
      · have hsm : h ∈ s.addrs := hh'.resolve_left hcm
        obtain ⟨hn, p, j1, j2, j3, j4, j5, j6⟩ := rep_kidsOf s a hs hnds hsm
        refine ⟨hn, p, j1, j2, Or.inr ?_, ?_, ?_, ?_⟩
        · simp only [addrs, List.mem_cons, List.mem_append]
          rcases j3 with h1 | h1
          · exact Or.inl h1
          · exact Or.inr (Or.inr h1)
        · simpa [kidsOf, hah, hcm] using j4
        · simpa [eltOf, hah, hcm] using j5
        · simpa [kidsOf, hah, hcm] using j6

/-- The elements of a list are those left after taking `h` out, the element of `h`, and
the elements below `h`. -/
theorem cut_elts_perm {h : Nat} : ∀ {t : Shape α}, t.addrs.Nodup → h ∈ t.addrs →
    ∃ u, eltOf h t = some u ∧ ((cut h t).elts ++ u :: (kidsOf h t).elts).Perm t.elts
  | nil, _, hh => by simp [addrs] at hh
  | node a e c s, hnd, hh => by
    simp only [addrs, List.nodup_cons, List.mem_append, not_or, List.nodup_append] at hnd
    obtain ⟨⟨hac, has⟩, hndc, hnds, hdis⟩ := hnd
    by_cases hah : a = h
    · subst hah
      refine ⟨e, by simp [eltOf], ?_⟩
      simp only [cut, kidsOf, if_true, elts]
      have : (s.elts ++ e :: c.elts).Perm (e :: c.elts ++ s.elts) := List.perm_append_comm
      simpa using this
    · simp only [addrs, List.mem_cons, List.mem_append] at hh
      have hh' : h ∈ c.addrs ∨ h ∈ s.addrs := by
        rcases hh with h1 | h1
        · exact absurd h1.symm hah
        · exact h1
      by_cases hc : h ∈ c.addrs
      · have hs : h ∉ s.addrs := fun hx => hdis hc hx
        obtain ⟨u, hu, ih⟩ := cut_elts_perm hndc hc
        refine ⟨u, by simpa [eltOf, hah, hc] using hu, ?_⟩
        simp only [cut, kidsOf, hah, if_false, hc, if_true, elts, cut_absent hs]
        have h1 : (e :: ((cut h c).elts ++ s.elts) ++ u :: (kidsOf h c).elts).Perm
            (e :: (((cut h c).elts ++ u :: (kidsOf h c).elts) ++ s.elts)) := by
          simp only [List.cons_append]
          refine List.Perm.cons _ ?_
          rw [List.append_assoc, List.append_assoc]
          exact List.Perm.append_left _ List.perm_append_comm
        exact h1.trans (List.Perm.cons _ (ih.append_right _))
      · have hs : h ∈ s.addrs := hh'.resolve_left hc
        obtain ⟨u, hu, ih⟩ := cut_elts_perm hnds hs
        refine ⟨u, by simpa [eltOf, hah, hc] using hu, ?_⟩
        simp only [cut, kidsOf, hah, if_false, hc, elts, cut_absent hc]
        simp only [List.cons_append, List.append_assoc]
        exact List.Perm.cons _ (List.Perm.append_left _ ih)

theorem cut_roots_subset {h : Nat} : ∀ {t : Shape α}, ∀ x ∈ (cut h t).roots, x ∈ t.roots
  | nil, x, hx => by simp [cut, roots] at hx
  | node a e c s, x, hx => by
    simp only [cut] at hx
    split at hx
    · simp [roots, hx]
    · simp only [roots, List.mem_cons] at hx ⊢
      rcases hx with h1 | h1
      · exact Or.inl h1
      · exact Or.inr (cut_roots_subset x h1)

/-- Heap order survives the cut, and holds below `h`. -/
theorem ordered_cut {compare : α → α → Bool} {h : Nat} : ∀ {t : Shape α}, t.Ordered compare →
    (cut h t).Ordered compare ∧ (kidsOf h t).Ordered compare ∧
      ∀ u, eltOf h t = some u → ∀ x ∈ (kidsOf h t).roots, compare u x = false
  | nil, _ => ⟨trivial, trivial, fun u hu => by simp [eltOf] at hu⟩
  | node a e c s, ho => by
    obtain ⟨h1, h2, h3⟩ := ho
    obtain ⟨c1, c2, c3⟩ := ordered_cut (h := h) h2
    obtain ⟨s1, s2, s3⟩ := ordered_cut (h := h) h3
    by_cases hah : a = h
    · subst hah
      refine ⟨by simpa [cut] using h3, by simpa [kidsOf] using h2, ?_⟩
      intro u hu x hx
      simp only [eltOf, if_true, Option.some.injEq] at hu
      subst hu
      simp only [kidsOf, if_true] at hx
      exact h1 x hx
    · refine ⟨?_, ?_, ?_⟩
      · simp only [cut, hah, if_false]
        exact ⟨fun x hx => h1 x (cut_roots_subset x hx), c1, s1⟩
      · simp only [kidsOf, hah, if_false]
        split
        · exact c2
        · exact s2
      · intro u hu x hx
        simp only [eltOf, kidsOf, hah, if_false] at hu hx
        split at hu
        · rename_i hc; rw [if_pos hc] at hx; exact c3 u hu x hx
        · rename_i hc; rw [if_neg hc] at hx; exact s3 u hu x hx

end Shape

namespace PairingPQ
variable {α : Type}

/-- Up to its call of `meld`, `updateElt` turns the memory into `unlinked`. -/
theorem updateElt_unlink (compare : α → α → Bool) (s : PairingPQ α) (h : Nat) (v : α)
    {hn : Node α} {p : Nat} {pn : Node α}
    (hmh : s.cells h = some hn) (hprev : hn.previous = some p) (hmp : s.cells p = some pn)
    (hph : p ≠ h)
    (hsb : ∀ x, hn.sibling = some x → x ≠ h ∧ x ≠ p ∧ ∃ xn, s.cells x = some xn) :
    updateElt compare s h v =
      match meld compare (unlinked s.cells h v hn p pn) s.root (some h) with
      | none => none
      | some (m5, root) => some { s with cells := m5, root := root } := by
  have hm0 : s.cells.setElt h v = some (s.cells.store h { hn with elt := v }) := by
    simp [Mem.setElt, hmh]
  have hm0h : (s.cells.store h { hn with elt := v }) h = some { hn with elt := v } := by
    simp [Mem.store]
  have hm0p : (s.cells.store h { hn with elt := v }) p = some pn := by
    simp [Mem.store, hph, hmp]
  cases hsib : hn.sibling with
  | none =>
    have hU : unlinked s.cells h v hn p pn =
        (((s.cells.store h { hn with elt := v }).store p
          (if pn.child = some h then { pn with child := none }
           else { pn with sibling := none })).store h
            ⟨v, hn.child, none, hn.previous⟩).store h ⟨v, hn.child, none, none⟩ := by
      funext x
      by_cases hxh : x = h
      · simp [unlinked, Mem.store, hxh]
      · by_cases hxp : x = p
        · simp [unlinked, Mem.store, hxh, hxp, hph, hsib]
        · simp [unlinked, Mem.store, hxh, hxp, hsib]
    rw [hU]
    unfold updateElt
    simp only [hm0, hm0h, hprev, hm0p, hsib]
    by_cases hch : pn.child = some h
    · simp [hch, Mem.setChild, Mem.setSibling, Mem.setPrevious, Mem.store, hph, hmp, Ne.symm hph,
        hprev]
      try rfl
    · simp [hch, Mem.setChild, Mem.setSibling, Mem.setPrevious, Mem.store, hph, hmp, Ne.symm hph,
        hprev]
      try rfl
  | some sb =>
    obtain ⟨hsbh, hsbp, sbn, hsbn⟩ := hsb sb hsib
    have hU : unlinked s.cells h v hn p pn =
        ((((s.cells.store h { hn with elt := v }).store p
          (if pn.child = some h then { pn with child := some sb }
           else { pn with sibling := some sb })).store sb { sbn with previous := some p }).store h
            ⟨v, hn.child, none, hn.previous⟩).store h ⟨v, hn.child, none, none⟩ := by
      funext x
      by_cases hxh : x = h
      · simp [unlinked, Mem.store, hxh]
      · by_cases hxp : x = p
        · simp [unlinked, Mem.store, hxh, hxp, hph, hsib, Ne.symm hsbp]
        · by_cases hxs : x = sb
          · simp [unlinked, Mem.store, hxh, hxp, hsib, hxs, hsbh, hsbp, hsbn]
          · simp [unlinked, Mem.store, hxh, hxp, hsib, hxs, Ne.symm hxs]
    rw [hU]
    unfold updateElt
    simp only [hm0, hm0h, hprev, hm0p, hsib]
    by_cases hch : pn.child = some h
    · simp [hch, Mem.setChild, Mem.setSibling, Mem.setPrevious, Mem.store, hph, hmp, Ne.symm hph,
        hprev, hsbh, hsbp, hsbn, Ne.symm hsbh, Ne.symm hsbp, hsib]
      try rfl
    · simp [hch, Mem.setChild, Mem.setSibling, Mem.setPrevious, Mem.store, hph, hmp, Ne.symm hph,
        hprev, hsbh, hsbp, hsbn, Ne.symm hsbh, Ne.symm hsbp, hsib]
      try rfl

/-- `updateElt` on a node that is not the root: the call succeeds and the heap afterwards
is `updated`. -/
theorem updateElt_spec (compare : α → α → Bool) (s : PairingPQ α) (t : PTree α) (h : Nat)
    (v : α) (hM : Models s (some t)) (hh : h ∈ t.kids.addrs) :
    ∃ s', updateElt compare s h v = some s' ∧ Models s' (some (updated compare t h v)) ∧
      s'.next = s.next := by
  obtain ⟨r, e, kids⟩ := t
  obtain ⟨hr, ⟨⟨sib, prev, hroot⟩, hk⟩, hnd, hc, hlive, hlt⟩ := hM
  simp only at hr hroot hk hh
  have hnd' : (r :: kids.addrs).Nodup := hnd
  have hndk : kids.addrs.Nodup := (List.nodup_cons.1 hnd').2
  have hrk : r ∉ kids.addrs := (List.nodup_cons.1 hnd').1
  obtain ⟨hn, p, hmh, hprev, hp, hchild, helt, hkrep⟩ := Shape.rep_kidsOf kids r hk hndk hh
  have hpl : ∃ pn, s.cells p = some pn := by
    rcases hp with rfl | hp
    · exact ⟨_, hroot⟩
    · exact hk.live p hp
  obtain ⟨pn, hmp⟩ := hpl
  obtain ⟨i1, i2, i3, i4, i5⟩ := Shape.rep_cut v hmh hprev hmp kids r hk hnd' hh
  have hperm := Shape.cut_addrs_perm hndk hh
  have hnd2 : ((Shape.cut h kids).addrs ++ h :: (Shape.kidsOf h kids).addrs).Nodup :=
    (hperm.nodup_iff).2 hndk
  obtain ⟨hndc, hndhk, hdis⟩ := List.nodup_append.1 hnd2
  have hhc : h ∉ (Shape.cut h kids).addrs := fun hx => hdis hx (by simp)
  have hhr : h ≠ r := by rintro rfl; exact hrk hh
  have hph : p ≠ h := by
    rcases i1 with h1 | h1
    · rw [h1]; exact Ne.symm hhr
    · rintro rfl; exact hhc h1
  have hsb : ∀ x, hn.sibling = some x → x ≠ h ∧ x ≠ p ∧ ∃ xn, s.cells x = some xn := by
    intro x hx
    obtain ⟨j1, j2⟩ := i3 x hx
    refine ⟨?_, j2, hk.live x (Shape.cut_addrs_subset x j1)⟩
    rintro rfl; exact hhc j1
  rw [updateElt_unlink compare s h v hmh hprev hmp hph hsb]
  -- the two trees handed to `meld`
  have hA : (⟨r, e, Shape.cut h kids⟩ : PTree α).Rooted (unlinked s.cells h v hn p pn) := by
    refine ⟨?_, i4⟩
    by_cases hkh : kids.head = some h
    · have hpr : p = r := i2.2 hkh
      subst hpr
      rw [hroot] at hmp
      cases hmp
      refine ⟨sib, prev, ?_⟩
      simp only [unlinked, Ne.symm hhr, if_false, if_true, hkh]
      rw [i5, if_pos hkh]
    · have hpr : p ≠ r := fun h1 => hkh (i2.1 h1)
      have hsr : ¬ (hn.sibling = some r) := fun h1 => hrk (Shape.cut_addrs_subset r (i3 r h1).1)
      refine ⟨sib, prev, ?_⟩
      simp only [unlinked, Ne.symm hhr, Ne.symm hpr, if_false]
      rw [if_neg hsr, i5, if_neg hkh]
      exact hroot
  have hB : (⟨h, v, Shape.kidsOf h kids⟩ : PTree α).Rooted (unlinked s.cells h v hn p pn) := by
    refine ⟨⟨none, none, by simp [unlinked, hchild]⟩, hkrep.frame ?_⟩
    intro x hx
    have hxh : x ≠ h := by
      rintro rfl
      exact (List.nodup_cons.1 hndhk).1 hx
    have hxc : x ∉ (Shape.cut h kids).addrs := fun h1 => hdis h1 (by simp [hx])
    have hxk : x ∈ kids.addrs := hperm.subset (by simp [hx])
    have hxp : x ≠ p := by
      rintro rfl
      rcases i1 with h1 | h1
      · exact hrk (h1 ▸ hxk)
      · exact hxc h1
    have hxs : ¬ (hn.sibling = some x) := fun h1 => hxc (i3 x h1).1
    simp only [unlinked, hxh, hxp, if_false]
    rw [if_neg hxs]
  have hndAB : ((⟨r, e, Shape.cut h kids⟩ : PTree α).addrs ++
      (⟨h, v, Shape.kidsOf h kids⟩ : PTree α).addrs).Nodup := by
    simp only [PTree.addrs, List.cons_append, List.nodup_cons]
    refine ⟨?_, hnd2⟩
    intro hx
    exact hrk (hperm.subset hx)
  have hpermAB : ((⟨r, e, Shape.cut h kids⟩ : PTree α).addrs ++
      (⟨h, v, Shape.kidsOf h kids⟩ : PTree α).addrs).Perm (r :: kids.addrs) := by
    simp only [PTree.addrs, List.cons_append]
    exact List.Perm.cons _ hperm
  obtain ⟨m5, h1, h2, h3⟩ := meldNodes_spec compare _ _ _ hA hB hndAB
  have h1' : meldNodes compare (unlinked s.cells h v hn p pn) r h =
      some (m5, (updated compare ⟨r, e, kids⟩ h v).addr) := h1
  have hp5 := (PTree.meld_addrs_perm compare ⟨r, e, Shape.cut h kids⟩
    ⟨h, v, Shape.kidsOf h kids⟩).trans hpermAB
  refine ⟨⟨m5, s.next, some (updated compare ⟨r, e, kids⟩ h v).addr, s.count⟩, ?_, ?_, rfl⟩
  · simp [hr, meld, h1']
  · refine ⟨rfl, h2, (hp5.nodup_iff).2 hnd', ?_, ?_, ?_⟩
    · show s.count = _
      rw [hc, PTree.size_eq_length_tree_addrs, PTree.size_eq_length_tree_addrs]
      exact hp5.length_eq.symm
    · intro a ha
      by_contra hna
      have hna' : a ∉ (r :: kids.addrs) := fun hx => hna (hp5.symm.subset hx)
      have hnaAB : a ∉ (⟨r, e, Shape.cut h kids⟩ : PTree α).addrs ++
          (⟨h, v, Shape.kidsOf h kids⟩ : PTree α).addrs := fun hx => hna' (hpermAB.subset hx)
      have hm5 := h3 a hnaAB
      simp only at ha
      rw [hm5] at ha
      have hah : a ≠ h := by rintro rfl; exact hna' (by simp [hh])
      have hap : a ≠ p := by
        rintro rfl
        rcases i1 with h1 | h1
        · exact hna' (by simp [h1])
        · exact hna' (by simp [Shape.cut_addrs_subset _ h1])
      have has : ¬ (hn.sibling = some a) := fun h1 =>
        hna' (by simp [Shape.cut_addrs_subset _ (i3 a h1).1])
      simp only [unlinked, hah, hap, if_false] at ha
      rw [if_neg has] at ha
      exact hna' (hlive a ha)
    · intro a ha
      exact hlt a (hp5.subset ha)

theorem kidsOf_of_eltOf_none {h : Nat} : ∀ {t : Shape α}, Shape.eltOf h t = none →
    Shape.kidsOf h t = Shape.nil
  | Shape.nil, _ => rfl
  | Shape.node a e c s, hu => by
    simp only [Shape.eltOf] at hu
    simp only [Shape.kidsOf]
    split at hu
    · cases hu
    · rename_i hah
      rw [if_neg hah]
      split at hu
      · rename_i hc; rw [if_pos hc]; exact kidsOf_of_eltOf_none hu
      · rename_i hc; rw [if_neg hc]; exact kidsOf_of_eltOf_none hu

theorem updated_addrs_perm (compare : α → α → Bool) (t : PTree α) (h : Nat) (v : α)
    (hnd : t.addrs.Nodup) (hh : h ∈ t.kids.addrs) :
    (updated compare t h v).addrs.Perm t.addrs := by
  have hndk : t.kids.addrs.Nodup := (List.nodup_cons.1 hnd).2
  refine (PTree.meld_addrs_perm compare _ _).trans ?_
  simp only [PTree.addrs, List.cons_append]
  exact List.Perm.cons _ (Shape.cut_addrs_perm hndk hh)

theorem updated_ordered {compare : α → α → Bool} (hc : StrictWeakOrder compare) (t : PTree α)
    (h : Nat) (v : α) (ho : t.Ordered compare)
    (hv : ∀ u, Shape.eltOf h t.kids = some u → compare u v = true) :
    (updated compare t h v).Ordered compare := by
  obtain ⟨c1, c2, c3⟩ := Shape.ordered_cut (h := h) ho.2
  apply PTree.meld_ordered hc
  · exact ⟨fun x hx => ho.1 x (Shape.cut_roots_subset x hx), c1⟩
  · refine ⟨?_, c2⟩
    intro x hx
    simp only at hx
    cases hu : Shape.eltOf h t.kids with
    | none =>
      -- `h` is not in the list: nothing hangs below it
      rw [kidsOf_of_eltOf_none hu] at hx
      simp [Shape.roots] at hx
    | some u =>
      have h1 := c3 u hu x hx
      have h2 := hv u hu
      cases hvx : compare v x
      · rfl
      · have := hc.trans u v x h2 hvx
        rw [h1] at this; exact absurd this (by decide)

end PairingPQ

namespace PTree
variable {α : Type}

theorem bfs_nil (fuel : Nat) : bfs fuel ([] : List (PTree α)) = [] := by
  cases fuel <;> rfl

/-- With fuel for every node, the visit lists every node of the queue once. -/
theorem bfs_addrs_perm : ∀ (fuel : Nat) (ts : List (PTree α)),
    (ts.flatMap addrs).length ≤ fuel → ((bfs fuel ts).map Prod.fst).Perm (ts.flatMap addrs)
  | fuel, [], _ => by simp [bfs_nil]
  | 0, t :: rest, hf => by simp [addrs] at hf
  | fuel + 1, t :: rest, hf => by
    simp only [List.flatMap_cons, addrs, List.cons_append, List.length_cons,
      List.length_append] at hf
    have hlen : ((rest ++ t.kids.trees).flatMap addrs).length ≤ fuel := by
      rw [List.flatMap_append, List.length_append, Shape.trees_flatMap_addrs]
      omega
    have ih := bfs_addrs_perm fuel (rest ++ t.kids.trees) hlen
    simp only [bfs, List.map_cons, List.flatMap_cons, addrs, List.cons_append]
    refine List.Perm.cons _ (ih.trans ?_)
    rw [List.flatMap_append, Shape.trees_flatMap_addrs]
    exact List.perm_append_comm

theorem bfs_elts_perm : ∀ (fuel : Nat) (ts : List (PTree α)),
    (ts.flatMap addrs).length ≤ fuel → ((bfs fuel ts).map Prod.snd).Perm (ts.flatMap elts)
  | fuel, [], _ => by simp [bfs_nil]
  | 0, t :: rest, hf => by simp [addrs] at hf
  | fuel + 1, t :: rest, hf => by
    simp only [List.flatMap_cons, addrs, List.cons_append, List.length_cons,
      List.length_append] at hf
    have hlen : ((rest ++ t.kids.trees).flatMap addrs).length ≤ fuel := by
      rw [List.flatMap_append, List.length_append, Shape.trees_flatMap_addrs]
      omega
    have ih := bfs_elts_perm fuel (rest ++ t.kids.trees) hlen
    simp only [bfs, List.map_cons, List.flatMap_cons, elts, List.cons_append]
    refine List.Perm.cons _ (ih.trans ?_)
    rw [List.flatMap_append, Shape.trees_flatMap_elts]
    exact List.perm_append_comm

/-- Every visited pair is a node of the memory with its element. -/
theorem bfs_stored {m : Mem α} : ∀ (fuel : Nat) (ts : List (PTree α)),
    (∀ t ∈ ts, t.Rooted m) → ∀ x ∈ bfs fuel ts, ∃ n, m x.1 = some n ∧ n.elt = x.2
  | 0, _, _, x, hx => by simp [bfs] at hx
  | _ + 1, [], _, x, hx => by simp [bfs] at hx
  | fuel + 1, t :: rest, ht, x, hx => by
    simp only [bfs, List.mem_cons] at hx
    rcases hx with rfl | hx
    · obtain ⟨⟨sib, prev, hr⟩, _⟩ := ht t (by simp)
      exact ⟨_, hr, rfl⟩
    · apply bfs_stored fuel (rest ++ t.kids.trees) _ x hx
      intro t' ht'
      simp only [List.mem_append] at ht'
      rcases ht' with h1 | h1
      · exact ht t' (by simp [h1])
      · exact (ht t (by simp)).2.trees_rooted t' h1

end PTree

namespace PairingPQ
variable {α : Type}

/-- The inner loop of `to_queue` pushes the nodes after `a` in its list. -/
theorem pushSiblings_spec {m : Mem α} : ∀ (s : Shape α) (a : Nat) (e : α) (c : Shape α)
    (prev : Option Nat) (fuel : Nat),
    Shape.Rep m prev (Shape.node a e c s) → s.chain.length < fuel →
    pushSiblings m fuel a = some s.chain
  | _, _, _, _, _, 0, _, hf => by simp at hf
  | Shape.nil, a, e, c, prev, fuel + 1, h, _ => by
    have ha : m a = some ⟨e, c.head, none, prev⟩ := h.1
    simp [pushSiblings, ha, Shape.chain]
  | Shape.node b eb cb sb, a, e, c, prev, fuel + 1, h, hf => by
    have ha : m a = some ⟨e, c.head, some b, prev⟩ := h.1
    simp only [Shape.chain, List.length_cons, Nat.add_lt_add_iff_right] at hf
    have ih := pushSiblings_spec sb b eb cb (some a) fuel h.2.2 hf
    simp [pushSiblings, ha, Shape.chain, ih]

/-- The outer loop of `to_queue` appends the breadth-first visit of its queue. -/
theorem toQueueLoop_spec {m : Mem α} (inner : Nat) : ∀ (fuel : Nat) (ts : List (PTree α))
    (ret : List Nat), (∀ t ∈ ts, t.Rooted m) → (ts.flatMap PTree.addrs).length ≤ fuel →
    (ts.flatMap PTree.addrs).length < inner →
    toQueueLoop m inner fuel (ts.map PTree.addr) ret =
      some (ret ++ (PTree.bfs fuel ts).map Prod.fst)
  | fuel, [], ret, _, _, _ => by cases fuel <;> simp [toQueueLoop, PTree.bfs]
  | 0, t :: rest, _, _, hf, _ => by simp [PTree.addrs] at hf
  | fuel + 1, t :: rest, ret, ht, hf, hi => by
    obtain ⟨⟨sib, prev, hr⟩, hk⟩ := ht t (by simp)
    simp only [List.flatMap_cons, PTree.addrs, List.cons_append, List.length_cons,
      List.length_append] at hf hi
    have hlen : ((rest ++ t.kids.trees).flatMap PTree.addrs).length =
        t.kids.addrs.length + (rest.flatMap PTree.addrs).length := by
      rw [List.flatMap_append, List.length_append, Shape.trees_flatMap_addrs]
      omega
    have hts : ∀ t' ∈ rest ++ t.kids.trees, t'.Rooted m := by
      intro t' ht'
      simp only [List.mem_append] at ht'
      rcases ht' with h1 | h1
      · exact ht t' (by simp [h1])
      · exact hk.trees_rooted t' h1
    have ih := toQueueLoop_spec inner fuel (rest ++ t.kids.trees) (ret ++ [t.addr]) hts
      (by omega) (by omega)
    cases hkids : t.kids with
    | nil =>
      rw [hkids] at hr ih
      have hr' : m t.addr = some ⟨t.elt, none, sib, prev⟩ := hr
      simp only [Shape.trees, List.append_nil] at ih
      simp only [List.map_cons, toQueueLoop, hr', PTree.bfs, hkids, Shape.trees, List.append_nil, ih,
        List.append_assoc, List.singleton_append]
    | node c ec cc cs =>
      rw [hkids] at hr hk ih
      have hr' : m t.addr = some ⟨t.elt, some c, sib, prev⟩ := hr
      have hcl : cs.chain.length < inner := by
        have h1 := Shape.length_chain_le cs
        have h2 : cs.size ≤ t.kids.addrs.length := by
          rw [hkids, ← Shape.size_eq_length_addrs]; simp only [Shape.size]; omega
        omega
      have hps := pushSiblings_spec cs c ec cc (some t.addr) inner hk hcl
      have hmap : List.map PTree.addr rest ++ c :: cs.chain =
          List.map PTree.addr (rest ++ (Shape.node c ec cc cs).trees) := by
        simp [Shape.trees, Shape.trees_map_addr]
      simp only [List.map_cons, toQueueLoop, hr', hps, hmap, ih, PTree.bfs, hkids,
        List.append_assoc, List.singleton_append]

theorem to_queue_spec (s : PairingPQ α) (t : PTree α) (h : Models s (some t)) :
    to_queue s = some ((PTree.bfs (s.next + 1) [t]).map Prod.fst) := by
  obtain ⟨hr, hroot, hnd, _, _, hlt⟩ := h
  have hlen : t.addrs.length ≤ s.next := List.length_le_of_nodup_of_lt hnd hlt
  have := toQueueLoop_spec (m := s.cells) (s.next + 1) (s.next + 1) [t] [] (by simpa using hroot)
    (by simp; omega) (by simp; omega)
  simpa [to_queue, hr] using this

end PairingPQ

namespace Mem
variable {α : Type}

theorem setChild_elt {m m' : Mem α} {a : Nat} {v : Option Nat} (h : m.setChild a v = some m')
    (x : Nat) : (m' x).map Node.elt = (m x).map Node.elt := by
  unfold setChild at h
  cases hm : m a with
  | none => rw [hm] at h; cases h
  | some n =>
    rw [hm] at h
    cases h
    by_cases hx : x = a
    · simp [store, hx, hm]
    · simp [store, hx]

theorem setSibling_elt {m m' : Mem α} {a : Nat} {v : Option Nat}
    (h : m.setSibling a v = some m') (x : Nat) : (m' x).map Node.elt = (m x).map Node.elt := by
  unfold setSibling at h
  cases hm : m a with
  | none => rw [hm] at h; cases h
  | some n =>
    rw [hm] at h
    cases h
    by_cases hx : x = a
    · simp [store, hx, hm]
    · simp [store, hx]

theorem setPrevious_elt {m m' : Mem α} {a : Nat} {v : Option Nat}
    (h : m.setPrevious a v = some m') (x : Nat) : (m' x).map Node.elt = (m x).map Node.elt := by
  unfold setPrevious at h
  cases hm : m a with
  | none => rw [hm] at h; cases h
  | some n =>
    rw [hm] at h
    cases h
    by_cases hx : x = a
    · simp [store, hx, hm]
    · simp [store, hx]

end Mem

namespace PairingPQ
variable {α : Type}

/-- The assignments of `meld` change no element and allocate or free no node. -/
theorem attach_elt {m m' : Mem α} {g l : Nat} (h : attach m g l = some m') (x : Nat) :
    (m' x).map Node.elt = (m x).map Node.elt := by
  unfold attach at h
  split at h
  · cases h
  · rename_i gn hg
    simp only at h
    split at h
    · cases h
    · rename_i m1 h1
      split at h
      · cases h
      · rename_i m2 h2
        split at h
        · cases h
        · rename_i m3 h3
          have e1 := Mem.setSibling_elt h1 x
          have e3 := Mem.setPrevious_elt h3 x
          have e4 := Mem.setChild_elt h x
          have e2 : (m2 x).map Node.elt = (m1 x).map Node.elt := by
            cases hc : gn.child with
            | none => rw [hc] at h2; cases h2; rfl
            | some c => rw [hc] at h2; exact Mem.setPrevious_elt h2 x
          rw [e4, e3, e2, e1]

theorem meldNodes_elt {compare : α → α → Bool} {m m' : Mem α} {a b g : Nat}
    (h : meldNodes compare m a b = some (m', g)) (x : Nat) :
    (m' x).map Node.elt = (m x).map Node.elt := by
  cases ha : m a with
  | none => simp [meldNodes, ha] at h
  | some na =>
    cases hb : m b with
    | none => simp [meldNodes, ha, hb] at h
    | some nb =>
      rw [meldNodes_eq compare m a b na nb ha hb] at h
      split at h
      · cases hat : attach m a b with
        | none => rw [hat] at h; cases h
        | some m1 =>
          rw [hat] at h
          cases h
          exact attach_elt hat x
      · cases hat : attach m b a with
        | none => rw [hat] at h; cases h
        | some m1 =>
          rw [hat] at h
          cases h
          exact attach_elt hat x

theorem rebuilt_addrs_perm (compare : α → α → Bool) : ∀ (q : List (Nat × α))
    (acc : Option (PTree α)),
    (heapAddrs (rebuilt compare acc q)).Perm (heapAddrs acc ++ q.map Prod.fst)
  | [], acc => by cases acc <;> simp [rebuilt]
  | x :: rest, none => by
    simp only [rebuilt]
    refine (rebuilt_addrs_perm compare rest _).trans ?_
    simp [heapAddrs, PTree.addrs, Shape.addrs]
  | x :: rest, some t => by
    simp only [rebuilt]
    refine (rebuilt_addrs_perm compare rest _).trans ?_
    simp only [heapAddrs, List.map_cons]
    have h1 := (PTree.meld_addrs_perm compare t ⟨x.1, x.2, Shape.nil⟩).append_right
      (rest.map Prod.fst)
    refine h1.trans ?_
    simp [PTree.addrs, Shape.addrs]

theorem rebuilt_elts_perm (compare : α → α → Bool) : ∀ (q : List (Nat × α))
    (acc : Option (PTree α)),
    (heapElts (rebuilt compare acc q)).Perm (heapElts acc ++ q.map Prod.snd)
  | [], acc => by cases acc <;> simp [rebuilt]
  | x :: rest, none => by
    simp only [rebuilt]
    refine (rebuilt_elts_perm compare rest _).trans ?_
    simp [heapElts, PTree.elts, Shape.elts]
  | x :: rest, some t => by
    simp only [rebuilt]
    refine (rebuilt_elts_perm compare rest _).trans ?_
    simp only [heapElts, List.map_cons]
    have h1 := (PTree.meld_elts_perm compare t ⟨x.1, x.2, Shape.nil⟩).append_right
      (rest.map Prod.snd)
    refine h1.trans ?_
    simp [PTree.elts, Shape.elts]

theorem rebuilt_ordered {compare : α → α → Bool} (hc : StrictWeakOrder compare) :
    ∀ (q : List (Nat × α)) (acc : Option (PTree α)), HeapOrdered compare acc →
      HeapOrdered compare (rebuilt compare acc q)
  | [], acc, h => by cases acc <;> simpa [rebuilt] using h
  | x :: rest, none, _ => by
    simp only [rebuilt]
    exact rebuilt_ordered hc rest _ ⟨by simp [Shape.roots], trivial⟩
  | x :: rest, some t, h => by
    simp only [rebuilt]
    exact rebuilt_ordered hc rest _ (PTree.meld_ordered hc h ⟨by simp [Shape.roots], trivial⟩)

/-- The loop of `updatePriorities` builds `rebuilt`, touches only the nodes it is given and
changes no element. -/
theorem rebuildLoop_spec (compare : α → α → Bool) : ∀ (q : List (Nat × α)) (m : Mem α)
    (acc : Option (PTree α)),
    (∀ t, acc = some t → t.Rooted m) → (heapAddrs acc ++ q.map Prod.fst).Nodup →
    (∀ x ∈ q, ∃ n, m x.1 = some n ∧ n.elt = x.2) →
    ∃ m', rebuildLoop compare m (acc.map PTree.addr) (q.map Prod.fst) =
        some (m', (rebuilt compare acc q).map PTree.addr) ∧
      (∀ g, rebuilt compare acc q = some g → g.Rooted m') ∧
      (∀ x, x ∉ heapAddrs acc ++ q.map Prod.fst → m' x = m x) ∧
      (∀ x, (m' x).map Node.elt = (m x).map Node.elt)
  | [], m, acc, hacc, _, _ =>
    ⟨m, by cases acc <;> rfl, by
      intro g hg
      apply hacc
      cases acc with
      | none => simp [rebuilt] at hg
      | some t => simpa [rebuilt] using hg, fun _ _ => rfl, fun _ => rfl⟩
  | x :: rest, m, acc, hacc, hnd, hq => by
    obtain ⟨n, hn, hne⟩ := hq x (by simp)
    -- the three assignments that isolate `front`
    let m3 : Mem α := ((m.store x.1 { n with sibling := none }).store x.1
      { n with sibling := none, child := none }).store x.1 ⟨x.2, none, none, none⟩
    have hstrip : ∀ r, rebuildLoop compare m r (x.1 :: rest.map Prod.fst) =
        match meld compare m3 r (some x.1) with
        | none => none
        | some (m4, r') => rebuildLoop compare m4 r' (rest.map Prod.fst) := by
      intro r
      simp [rebuildLoop, Mem.setSibling, Mem.setChild, Mem.setPrevious, hn, Mem.store, m3, hne]
      try rfl
    have hm3 : ∀ y, y ≠ x.1 → m3 y = m y := by
      intro y hy
      simp [m3, Mem.store, hy]
    have hm3x : m3 x.1 = some ⟨x.2, none, none, none⟩ := by simp [m3, Mem.store]
    have hm3e : ∀ y, (m3 y).map Node.elt = (m y).map Node.elt := by
      intro y
      by_cases hy : y = x.1
      · rw [hy, hm3x, hn]; simp [hne]
      · rw [hm3 y hy]
    have hfront : (⟨x.1, x.2, Shape.nil⟩ : PTree α).Rooted m3 :=
      ⟨⟨none, none, hm3x⟩, trivial⟩
    simp only [List.map_cons] at hnd ⊢
    cases acc with
    | none =>
      simp only [heapAddrs, List.nil_append, List.nodup_cons] at hnd
      have hq' : ∀ y ∈ rest, ∃ n, m3 y.1 = some n ∧ n.elt = y.2 := by
        intro y hy
        have hne' : y.1 ≠ x.1 := by
          rintro h1
          exact hnd.1 (h1 ▸ List.mem_map_of_mem Prod.fst hy)
        rw [hm3 _ hne']
        exact hq y (by simp [hy])
      obtain ⟨m', g1, g2, g3, g4⟩ := rebuildLoop_spec compare rest m3
        (some ⟨x.1, x.2, Shape.nil⟩) (by intro t ht; cases ht; exact hfront)
        (by simpa [heapAddrs, PTree.addrs, Shape.addrs] using hnd) hq'
      refine ⟨m', ?_, ?_, ?_, ?_⟩
      · rw [Option.map_none', hstrip]
        simpa [meld, rebuilt] using g1
      · intro g hg
        exact g2 g (by simpa [rebuilt] using hg)
      · intro y hy
        simp only [heapAddrs, List.nil_append, List.mem_cons, not_or] at hy
        rw [g3 y (by simp [heapAddrs, PTree.addrs, Shape.addrs, hy.1, hy.2]), hm3 y hy.1]
      · intro y
        rw [g4 y, hm3e y]
    | some t =>
      simp only [heapAddrs] at hnd
      have hnd' : (t.addrs ++ [x.1] ++ rest.map Prod.fst).Nodup := by
        simpa using hnd
      have hnd1 : (t.addrs ++ [x.1]).Nodup := (List.nodup_append.1 hnd').1
      have hxt : x.1 ∉ t.addrs := by
        intro h1
        exact (List.nodup_append.1 hnd1).2.2 h1 (by simp)
      have ht3 : t.Rooted m3 := by
        apply (hacc t rfl).frame_tree
        intro y hy
        apply hm3
        rintro rfl
        exact hxt hy
      obtain ⟨m4, h1, h2, h3⟩ := meldNodes_spec compare m3 t ⟨x.1, x.2, Shape.nil⟩ ht3 hfront
        (by simpa [PTree.addrs, Shape.addrs] using hnd1)
      have hperm := PTree.meld_addrs_perm compare t ⟨x.1, x.2, Shape.nil⟩
      have hxa : (⟨x.1, x.2, Shape.nil⟩ : PTree α).addrs = [x.1] := rfl
      have hq' : ∀ y ∈ rest, ∃ n, m4 y.1 = some n ∧ n.elt = y.2 := by
        intro y hy
        have hy1 : y.1 ∈ rest.map Prod.fst := List.mem_map_of_mem Prod.fst hy
        have hd := (List.nodup_append.1 hnd').2.2
        have hny : y.1 ∉ t.addrs ++ [x.1] := fun h4 => hd h4 hy1
        rw [h3 y.1 (by simpa [PTree.addrs, Shape.addrs] using hny), hm3]
        · exact hq y (by simp [hy])
        · rintro h5
          exact hny (by simp [h5])
      obtain ⟨m', g1, g2, g3, g4⟩ := rebuildLoop_spec compare rest m4
        (some (PTree.meld compare t ⟨x.1, x.2, Shape.nil⟩)) (by intro t' ht'; cases ht'; exact h2)
        (by
          simp only [heapAddrs]
          refine ((hperm.append_right _).nodup_iff).2 ?_
          simpa [PTree.addrs, Shape.addrs] using hnd') hq'
      have h1' : meldNodes compare m3 t.addr x.1 =
          some (m4, (PTree.meld compare t ⟨x.1, x.2, Shape.nil⟩).addr) := h1
      refine ⟨m', ?_, ?_, ?_, ?_⟩
      · rw [Option.map_some', hstrip]
        simpa [meld, h1', rebuilt] using g1
      · intro g hg
        exact g2 g (by simpa [rebuilt] using hg)
      · intro y hy
        simp only [List.mem_append, List.mem_cons, not_or] at hy
        have hy4 : y ∉ heapAddrs (some (PTree.meld compare t ⟨x.1, x.2, Shape.nil⟩)) ++
            rest.map Prod.fst := by
          simp only [heapAddrs, List.mem_append, not_or]
          refine ⟨fun h5 => ?_, hy.2.2⟩
          have := hperm.subset h5
          rw [hxa, List.mem_append, List.mem_singleton] at this
          rcases this with h6 | h6
          · exact hy.1 h6
          · exact hy.2.1 h6
        have hy3 : y ∉ t.addrs ++ (⟨x.1, x.2, Shape.nil⟩ : PTree α).addrs := by
          rw [hxa, List.mem_append, List.mem_singleton, not_or]
          exact ⟨hy.1, hy.2.1⟩
        rw [g3 y hy4, h3 y hy3, hm3 y hy.2.1]
      · intro y
        rw [g4 y, meldNodes_elt h1' y, hm3e y]

end PairingPQ

namespace PairingPQ
variable {α : Type}

theorem updatePriorities_spec (compare : α → α → Bool) (s : PairingPQ α)
    (o : Option (PTree α)) (h : Models s o) :
    ∃ s', updatePriorities compare s = some s' ∧
      Models s' (reordered compare (s.next + 1) o) ∧ s'.next = s.next ∧
      (∀ x, (s'.cells x).map Node.elt = (s.cells x).map Node.elt) := by
  cases o with
  | none =>
    refine ⟨⟨s.cells, s.next, none, s.count⟩, ?_, ⟨rfl, h.2.1, h.2.2⟩, rfl, fun _ => rfl⟩
    simp [updatePriorities, to_queue, h.1, rebuildLoop]
  | some t =>
    have hq := to_queue_spec s t h
    obtain ⟨hr, hroot, hnd, hc, hlive, hlt⟩ := h
    have hlen : t.addrs.length ≤ s.next := List.length_le_of_nodup_of_lt hnd hlt
    have hlen' : (List.flatMap [t] PTree.addrs).length ≤ s.next + 1 := by simp; omega
    have hbfs : ((PTree.bfs (s.next + 1) [t]).map Prod.fst).Perm t.addrs := by
      simpa using PTree.bfs_addrs_perm (s.next + 1) [t] hlen'
    obtain ⟨m', g1, g2, g3, g4⟩ := rebuildLoop_spec compare (PTree.bfs (s.next + 1) [t]) s.cells
      none (by intro t' ht'; cases ht') (by simpa [heapAddrs] using (hbfs.nodup_iff).2 hnd)
      (PTree.bfs_stored (s.next + 1) [t] (by simpa using hroot))
    have hp := (rebuilt_addrs_perm compare (PTree.bfs (s.next + 1) [t]) none).trans
      (by simpa [heapAddrs] using hbfs)
    cases hg : rebuilt compare none (PTree.bfs (s.next + 1) [t]) with
    | none =>
      rw [hg] at hp
      have := hp.length_eq
      simp [heapAddrs, PTree.addrs] at this
    | some g =>
      rw [hg] at hp g1
      refine ⟨⟨m', s.next, some g.addr, s.count⟩, ?_, ?_, rfl, g4⟩
      · simp only [updatePriorities, hq]
        have g1' : rebuildLoop compare s.cells none
            (List.map Prod.fst (PTree.bfs (s.next + 1) [t])) = some (m', some g.addr) := g1
        simp [g1']
      · simp only [reordered, hg]
        have hp' : g.addrs.Perm t.addrs := hp
        refine ⟨rfl, g2 g hg, (hp'.nodup_iff).2 hnd, ?_, ?_, ?_⟩
        · show s.count = g.size
          rw [hc, PTree.size_eq_length_tree_addrs, PTree.size_eq_length_tree_addrs]
          exact hp'.length_eq.symm
        · intro a ha
          apply hp'.symm.subset
          apply hlive
          intro hn
          apply ha
          have := g4 a
          rw [hn] at this
          simpa using this
        · intro a ha
          exact hlt a (hp'.subset ha)

theorem reordered_ordered {compare : α → α → Bool} (hc : StrictWeakOrder compare) (fuel : Nat)
    (o : Option (PTree α)) : HeapOrdered compare (reordered compare fuel o) := by
  cases o with
  | none => trivial
  | some t => exact rebuilt_ordered hc _ none trivial

/-- Every reachable state holds a heap-ordered tree. -/
theorem Reach.models_ordered {compare : α → α → Bool} (hc : StrictWeakOrder compare)
    {s : PairingPQ α} (h : Reach compare s) : ∃ o, Models s o ∧ HeapOrdered compare o := by
  induction h with
  | init => exact ⟨none, init_models, trivial⟩
  | push v _ hs ih =>
    obtain ⟨o, h1, h2⟩ := ih
    obtain ⟨s1, g1, g2, _⟩ := push_spec compare _ o v h1
    rw [g1] at hs; cases hs
    exact ⟨_, g2, pushed_ordered hc _ v h2⟩
  | addNode v a _ hs ih =>
    obtain ⟨o, h1, h2⟩ := ih
    obtain ⟨s1, g1, g2, _⟩ := addNode_spec compare _ o v h1
    rw [g1] at hs; cases hs
    exact ⟨_, g2, pushed_ordered hc _ v h2⟩
  | pop _ hs ih =>
    obtain ⟨o, h1, h2⟩ := ih
    obtain ⟨s1, g1, g2, _⟩ := pop_spec compare _ o h1
    rw [g1] at hs; cases hs
    exact ⟨_, g2, popped_ordered hc h2⟩
  | @updateElt s0 s1 a v n _ hlive hroot hv hs ih =>
    obtain ⟨o, h1, h2⟩ := ih
    cases o with
    | none => rw [h1.2.2 a] at hlive; cases hlive
    | some t =>
      have hat : a ∈ t.addrs := h1.2.2.2.2.1 a (by rw [hlive]; simp)
      have hak : a ∈ t.kids.addrs := by
        simp only [PTree.addrs, List.mem_cons] at hat
        rcases hat with h3 | h3
        · exact absurd (by rw [h1.1, h3]) hroot
        · exact h3
      obtain ⟨s2, g1, g2, _⟩ := updateElt_spec compare s0 t a v h1 hak
      rw [g1] at hs; cases hs
      refine ⟨_, g2, updated_ordered hc t a v h2 ?_⟩
      intro u hu
      have hndk : t.kids.addrs.Nodup := (List.nodup_cons.1 h1.2.2.1).2
      obtain ⟨hn, p, j1, _, _, _, j5, _⟩ := Shape.rep_kidsOf t.kids t.addr h1.2.1.2 hndk hak
      rw [hlive] at j1
      cases j1
      rw [j5] at hu
      cases hu
      exact hv
  | updatePriorities _ hs ih =>
    obtain ⟨o, h1, _⟩ := ih
    obtain ⟨s1, g1, g2, _⟩ := updatePriorities_spec compare _ o h1
    rw [g1] at hs; cases hs
    exact ⟨_, g2, reordered_ordered hc _ o⟩

end PairingPQ

namespace Shape
variable {α : Type}

theorem relabel_head (val : Nat → α) (t : Shape α) : (relabel val t).head = t.head := by
  cases t <;> rfl

theorem relabel_addrs (val : Nat → α) : ∀ t : Shape α, (relabel val t).addrs = t.addrs
  | nil => rfl
  | node a e c s => by simp [relabel, addrs, relabel_addrs val c, relabel_addrs val s]

theorem relabel_size (val : Nat → α) : ∀ t : Shape α, (relabel val t).size = t.size
  | nil => rfl
  | node a e c s => by simp [relabel, size, relabel_size val c, relabel_size val s]

theorem rep_relabel {m : Mem α} (val : Nat → α) : ∀ {t : Shape α} {prev : Option Nat},
    Rep m prev t →
      Rep (fun a => (m a).map (fun n => { n with elt := val a })) prev (relabel val t)
  | nil, _, _ => trivial
  | node a e c s, prev, h => by
    obtain ⟨ha, hc, hs⟩ := h
    refine ⟨?_, rep_relabel val hc, rep_relabel val hs⟩
    simp [ha, relabel_head]

/-- In a list laid out in memory, a node of the sibling chain holds one of the first-level
elements and its `sibling` is again in the chain. -/
theorem rep_chain_step {m : Mem α} : ∀ {t : Shape α} {prev : Option Nat}, Rep m prev t →
    ∀ c ∈ t.chain, ∀ cn, m c = some cn →
      cn.elt ∈ t.roots ∧ ∀ d, cn.sibling = some d → d ∈ t.chain
  | nil, _, _, c, hc, _, _ => by simp [chain] at hc
  | node a e k s, prev, h, c, hc, cn, hcn => by
    obtain ⟨ha, _, hs⟩ := h
    simp only [chain, List.mem_cons] at hc
    rcases hc with rfl | hc
    · rw [ha] at hcn
      cases hcn
      refine ⟨by simp [roots], ?_⟩
      intro d hd
      simp only [chain, List.mem_cons]
      right
      cases s with
      | nil => simp [head] at hd
      | node b eb kb sb =>
        simp only [head, Option.some.injEq] at hd
        simp [chain, hd]
    · obtain ⟨h1, h2⟩ := rep_chain_step hs c hc cn hcn
      refine ⟨by simp [roots, h1], ?_⟩
      intro d hd
      simp only [chain, List.mem_cons]
      exact Or.inr (h2 d hd)

theorem head_mem_chain {t : Shape α} {x : Nat} (h : t.head = some x) : x ∈ t.chain := by
  cases t with
  | nil => simp [head] at h
  | node a e c s =>
    simp only [head, Option.some.injEq] at h
    simp [chain, h]

end Shape

namespace PairingPQ
variable {α : Type}

/-- The child list of a live node, when the memory lays out the list `K` from its `child`
link: everything the list reaches is in the chain of `K`. -/
theorem inChildList_chain {m : Mem α} {p c : Nat} (h : InChildList m p c) :
    ∀ (pn : Node α) (K : Shape α), m p = some pn → pn.child = K.head →
      Shape.Rep m (some p) K → c ∈ K.chain := by
  induction h with
  | first hn hc =>
    intro pn K hp hK _
    rw [hn] at hp
    cases hp
    rw [hK] at hc
    exact Shape.head_mem_chain hc
  | next _ hn hd ih =>
    intro pn K hp hK hrep
    have hc := ih pn K hp hK hrep
    exact (Shape.rep_chain_step hrep _ hc _ hn).2 _ hd

/-- Every live node has its child list laid out in memory, with the heap order of the tree. -/
theorem Models.child_list {compare : α → α → Bool} {s : PairingPQ α} {t : PTree α}
    (h : Models s (some t)) (ho : t.Ordered compare) {p : Nat} {pn : Node α}
    (hp : s.cells p = some pn) :
    ∃ K : Shape α, pn.child = K.head ∧ Shape.Rep s.cells (some p) K ∧
      (∀ x ∈ K.roots, compare pn.elt x = false) ∧ ∀ x ∈ K.addrs, x ∈ t.addrs := by
  obtain ⟨_, ⟨⟨sib, prev, hroot⟩, hk⟩, hnd, _, hlive, _⟩ := h
  have hpt : p ∈ t.addrs := hlive p (by rw [hp]; simp)
  simp only [PTree.addrs, List.mem_cons] at hpt
  rcases hpt with rfl | hpk
  · rw [hroot] at hp
    cases hp
    exact ⟨t.kids, rfl, hk, ho.1, fun x hx => by simp [PTree.addrs, hx]⟩
  · have hndk : t.kids.addrs.Nodup := (List.nodup_cons.1 hnd).2
    obtain ⟨hn, q, j1, _, _, j4, j5, j6⟩ := Shape.rep_kidsOf t.kids t.addr hk hndk hpk
    rw [hp] at j1
    cases j1
    obtain ⟨_, _, c3⟩ := Shape.ordered_cut (h := p) ho.2
    refine ⟨Shape.kidsOf p t.kids, j4, j6, c3 _ j5, ?_⟩
    intro x hx
    have := (Shape.cut_addrs_perm hndk hpk).subset (by simp [hx] : x ∈ _ ++ p :: _)
    simp [PTree.addrs, this]

/-- Heap order on the pointer graph: no node beats a node of its child list. -/
theorem Models.direct_order {compare : α → α → Bool} {s : PairingPQ α} {o : Option (PTree α)}
    (h : Models s o) (ho : HeapOrdered compare o) {p c : Nat} {pn cn : Node α}
    (hpc : InChildList s.cells p c) (hp : s.cells p = some pn) (hc : s.cells c = some cn) :
    compare pn.elt cn.elt = false := by
  cases o with
  | none => rw [h.2.2 p] at hp; cases hp
  | some t =>
    obtain ⟨K, k1, k2, k3, _⟩ := h.child_list ho hp
    have hck := inChildList_chain hpc pn K hp k1 k2
    exact k3 _ (Shape.rep_chain_step k2 c hck cn hc).1

theorem inChildList_live {m : Mem α} {p c : Nat} (h : InChildList m p c) :
    ∃ pn, m p = some pn := by
  induction h with
  | first hn _ => exact ⟨_, hn⟩
  | next _ _ _ ih => exact ih

/-- Heap order between a node and everything in its child subtree. -/
theorem Models.subtree_order {compare : α → α → Bool} (hcmp : StrictWeakOrder compare)
    {s : PairingPQ α} {o : Option (PTree α)} (h : Models s o) (ho : HeapOrdered compare o)
    {p d : Nat} (hpd : Relation.TransGen (InChildList s.cells) p d) :
    ∀ {pn dn : Node α}, s.cells p = some pn → s.cells d = some dn →
      compare pn.elt dn.elt = false := by
  induction hpd with
  | single h1 =>
    intro pn dn hp hd
    exact h.direct_order ho h1 hp hd
  | tail _ h2 ih =>
    intro pn dn hp hd
    obtain ⟨cn, hc⟩ := inChildList_live h2
    exact hcmp.neg_trans (ih hp hc) (h.direct_order ho h2 hc hd)

theorem Models.overwrite_models {s : PairingPQ α} {o : Option (PTree α)} (h : Models s o)
    (val : Nat → α) :
    Models (s.overwrite val) (o.map fun t => ⟨t.addr, val t.addr, Shape.relabel val t.kids⟩) := by
  cases o with
  | none =>
    refine ⟨h.1, h.2.1, ?_⟩
    intro a
    simp [PairingPQ.overwrite, h.2.2 a]
  | some t =>
    obtain ⟨hr, ⟨⟨sib, prev, hroot⟩, hk⟩, hnd, hc, hlive, hlt⟩ := h
    refine ⟨hr, ⟨⟨sib, prev, ?_⟩, ?_⟩, ?_, ?_, ?_, ?_⟩
    · simp [PairingPQ.overwrite, hroot, Shape.relabel_head]
    · exact Shape.rep_relabel val hk
    · simpa [PTree.addrs, Shape.relabel_addrs] using hnd
    · simpa [PTree.size, Shape.relabel_size, PairingPQ.overwrite] using hc
    · intro a ha
      have : s.cells a ≠ none := by
        intro hn
        apply ha
        simp [PairingPQ.overwrite, hn]
      simpa [PTree.addrs, Shape.relabel_addrs] using hlive a this
    · intro a ha
      apply hlt
      simpa [PTree.addrs, Shape.relabel_addrs] using ha

end PairingPQ

namespace PairingPQ
variable {α : Type}

theorem ReachPushPop.reach {compare : α → α → Bool} {s : PairingPQ α}
    (h : ReachPushPop compare s) : Reach compare s := by
  induction h with
  | init => exact Reach.init
  | push v _ hs ih => exact Reach.push v ih hs
  | addNode v a _ hs ih => exact Reach.addNode v a ih hs
  | pop _ hs ih => exact Reach.pop ih hs

end PairingPQ

namespace PairingPQ
variable {α : Type}

/-- The chain of a list laid out in memory is in the child list of the node whose `child`
points to it. -/
theorem chain_inChildList {m : Mem α} {p : Nat} : ∀ (K : Shape α) (prev : Option Nat),
    Shape.Rep m prev K → (∀ y, K.head = some y → InChildList m p y) →
    ∀ x ∈ K.chain, InChildList m p x
  | Shape.nil, _, _, _, x, hx => by simp [Shape.chain] at hx
  | Shape.node b eb kb sb, prev, h, hy, x, hx => by
    obtain ⟨hb, _, hs⟩ := h
    have hpb : InChildList m p b := hy b rfl
    simp only [Shape.chain, List.mem_cons] at hx
    rcases hx with rfl | hx
    · exact hpb
    · apply chain_inChildList sb (some b) hs _ x hx
      intro y hy'
      exact InChildList.next hpb hb hy'

/-- Every node of a list laid out in memory below a node reached from `root` is reached from
`root`. -/
theorem fromRoot_of_rep {s : PairingPQ α} {p : Nat} (hp : FromRoot s p) :
    ∀ (K : Shape α) (prev : Option Nat), Shape.Rep s.cells prev K →
      (∀ c ∈ K.chain, InChildList s.cells p c) → ∀ a ∈ K.addrs, FromRoot s a
  | Shape.nil, _, _, _, a, ha => by simp [Shape.addrs] at ha
  | Shape.node b eb kb sb, prev, h, hch, a, ha => by
    obtain ⟨hb, hk, hs⟩ := h
    have hfb : FromRoot s b := FromRoot.child hp (hch b (by simp [Shape.chain]))
    simp only [Shape.addrs, List.mem_cons, List.mem_append] at ha
    rcases ha with rfl | ha | ha
    · exact hfb
    · exact fromRoot_of_rep hfb kb (some b) hk
        (chain_inChildList kb (some b) hk (fun y hy => InChildList.first hb hy)) a ha
    · exact fromRoot_of_rep hp sb (some b) hs
        (fun c hc => hch c (by simp [Shape.chain, hc])) a ha


/-- Every node of the tree a state holds is reached from `root`. -/
theorem Models.fromRoot {s : PairingPQ α} {t : PTree α} (h : Models s (some t)) :
    ∀ a ∈ t.addrs, FromRoot s a := by
  obtain ⟨hr, ⟨⟨sib, prev, hroot⟩, hk⟩, _⟩ := h
  have hfr : FromRoot s t.addr := FromRoot.root hr
  intro a ha
  simp only [PTree.addrs, List.mem_cons] at ha
  rcases ha with rfl | ha
  · exact hfr
  · exact fromRoot_of_rep hfr t.kids (some t.addr) hk
      (chain_inChildList t.kids (some t.addr) hk (fun y hy => InChildList.first hroot hy)) a ha

theorem updatePriorities_count {compare : α → α → Bool} {s s' : PairingPQ α}
    (h : updatePriorities compare s = some s') : s'.count = s.count := by
  unfold updatePriorities at h
  split at h
  · cases h
  · split at h
    · cases h
    · cases h; rfl

end PairingPQ

namespace PairingPQ
variable {α : Type}

/-- The assignments of `meld` on two distinct live nodes, when the first child of the
winner (if any) is a third live node. -/
theorem attach_exact (m : Mem α) (g l : Nat) (gn ln : Node α) (hg : m g = some gn)
    (hl : m l = some ln) (hgl : g ≠ l)
    (hfc : ∀ c, gn.child = some c → c ≠ g ∧ c ≠ l ∧ ∃ cn, m c = some cn) :
    attach m g l = some (attached m g l gn ln) := by
  cases hc : gn.child with
  | none =>
    have h1 : attach m g l = some (((m.store l { ln with sibling := none }).store l
        { ln with sibling := none, previous := some g }).store g { gn with child := some l }) := by
      simp [attach, hg, hc, Mem.setSibling, Mem.setPrevious, Mem.setChild, Mem.store, hl, hgl]
    rw [h1]
    congr 1
    funext x
    by_cases hxg : x = g
    · simp [attached, Mem.store, hxg]
    · by_cases hxl : x = l
      · simp [attached, Mem.store, hxl, Ne.symm hgl, hc]
      · simp [attached, Mem.store, hxg, hxl, hc]
  | some c =>
    obtain ⟨hcg, hcl, cn, hcn⟩ := hfc c hc
    have h1 : attach m g l = some ((((m.store l { ln with sibling := some c }).store c
        { cn with previous := some l }).store l
        { ln with sibling := some c, previous := some g }).store g { gn with child := some l }) := by
      simp [attach, hg, hc, Mem.setSibling, Mem.setPrevious, Mem.setChild, Mem.store, hl, hgl,
        hcl, hcn, hcg, Ne.symm hcl, Ne.symm hcg]
    rw [h1]
    congr 1
    funext x
    by_cases hxg : x = g
    · simp [attached, Mem.store, hxg]
    · by_cases hxl : x = l
      · simp [attached, Mem.store, hxl, Ne.symm hgl, hc]
      · by_cases hxc : x = c
        · simp [attached, Mem.store, hxg, hxl, hc, hxc, hcg, hcl, hcn]
        · simp [attached, Mem.store, hxg, hxl, hc, hxc, Ne.symm hxc]

end PairingPQ

namespace PairingPQ
variable {α : Type}

/-- On trees that share no node the loop of `pop` calls `meld` once less than there are
trees, whatever fuel is left beyond that. -/
theorem pairLoopMelds_spec (compare : α → α → Bool) : ∀ (fuel : Nat) (m : Mem α)
    (ts : List (PTree α)), Forest m ts → ts.length ≤ fuel + 1 →
    pairLoopMelds compare fuel m (ts.map PTree.addr) = some (ts.length - 1)
  | fuel, m, [], _, _ => by cases fuel <;> rfl
  | fuel, m, [t], _, _ => by cases fuel <;> rfl
  | 0, m, a :: b :: rest, _, hf => by simp at hf
  | fuel + 1, m, a :: b :: rest, h, hf => by
    have hnd : (a.addrs ++ (b.addrs ++ rest.flatMap PTree.addrs)).Nodup := by
      simpa [List.flatMap_cons] using h.2
    have hab : (a.addrs ++ b.addrs).Nodup := by
      rw [← List.append_assoc] at hnd
      exact (List.nodup_append.1 hnd).1
    obtain ⟨m1, h1, h2, h3⟩ := meldNodes_spec compare m a b (h.1 a (by simp)) (h.1 b (by simp)) hab
    have hF : Forest m1 (rest ++ [PTree.meld compare a b]) := by
      refine ⟨?_, ?_⟩
      · intro t ht
        simp only [List.mem_append, List.mem_singleton] at ht
        rcases ht with ht | rfl
        · apply (h.1 t (by simp [ht])).frame_tree
          intro x hx
          apply h3
          rw [← List.append_assoc] at hnd
          have hd := (List.nodup_append.1 hnd).2.2
          intro hx'
          exact hd hx' (List.mem_flatMap.2 ⟨t, ht, hx⟩)
        · exact h2
      · rw [List.flatMap_append]
        simp only [List.flatMap_cons, List.flatMap_nil, List.append_nil]
        rw [← List.append_assoc] at hnd
        have hp : (rest.flatMap PTree.addrs ++ (PTree.meld compare a b).addrs).Perm
            ((a.addrs ++ b.addrs) ++ rest.flatMap PTree.addrs) :=
          List.perm_append_comm.trans (List.Perm.append_right _ (PTree.meld_addrs_perm compare a b))
        exact (hp.nodup_iff).2 hnd
    have hlen : (rest ++ [PTree.meld compare a b]).length ≤ fuel + 1 := by
      simp only [List.length_append, List.length_cons, List.length_nil] at hf ⊢; omega
    have ih := pairLoopMelds_spec compare fuel m1 _ hF hlen
    simp only [List.map_append, List.map_cons, List.map_nil] at ih
    simp only [List.map_cons, pairLoopMelds, h1, ih]
    simp

/-- The walk of `pop` over the children of the root returns them in sibling order. -/
theorem Models.root_chain {s : PairingPQ α} {t : PTree α} (hM : Models s (some t))
    {rn : Node α} (hrn : s.cells t.addr = some rn) :
    siblingChain s.cells s.next rn.child = some t.kids.chain := by
  obtain ⟨_, ⟨⟨sib, prev, hroot⟩, hkids⟩, hnd, _, _, hlt⟩ := hM
  rw [hroot] at hrn
  cases hrn
  have hndk : t.kids.addrs.Nodup := (List.nodup_cons.1 hnd).2
  have hlen : t.kids.addrs.length ≤ s.next := by
    apply List.length_le_of_nodup_of_lt hndk
    intro a ha
    exact hlt a (by simp [PTree.addrs, ha])
  exact siblingChain_spec t.kids (some t.addr) s.next hkids
    (le_trans (by rw [← Shape.size_eq_length_addrs]; exact Shape.length_chain_le t.kids) hlen)

end PairingPQ

namespace PairingPQ
variable {α : Type}

theorem setElt_elt {m m' : Mem α} {a : Nat} {v : α} (h : m.setElt a v = some m') (x : Nat) :
    (m' x).map Node.elt = if x = a then some v else (m x).map Node.elt := by
  unfold Mem.setElt at h
  cases hm : m a with
  | none => rw [hm] at h; cases h
  | some n =>
    rw [hm] at h
    cases h
    by_cases hx : x = a
    · simp [Mem.store, hx]
    · simp [Mem.store, hx]

theorem meld_elt {compare : α → α → Bool} {m m' : Mem α} {a b g : Option Nat}
    (h : meld compare m a b = some (m', g)) (x : Nat) :
    (m' x).map Node.elt = (m x).map Node.elt := by
  unfold meld at h
  split at h
  · cases h; rfl
  · cases h; rfl
  · split at h
    · cases h
    · rename_i pa pb m1 g1 hm
      cases h
      exact meldNodes_elt hm x

/-- `updateElt` writes the new value into its node and changes no other stored value; it
allocates and frees nothing. -/
theorem updateElt_elt {compare : α → α → Bool} {s s' : PairingPQ α} {node : Nat} {v : α}
    (h : updateElt compare s node v = some s') (x : Nat) :
    (s'.cells x).map Node.elt = if x = node then some v else (s.cells x).map Node.elt := by
  unfold updateElt at h
  split at h
  · cases h
  · rename_i m0 h0
    split at h
    · cases h
    · rename_i n hn
      split at h
      · cases h
      · rename_i p hp
        split at h
        · cases h
        · rename_i pn hpn
          split at h
          · cases h
          · rename_i m1 h1
            split at h
            · cases h
            · rename_i n1 hn1
              split at h
              · cases h
              · rename_i m2 h2
                split at h
                · cases h
                · rename_i m3 h3
                  split at h
                  · cases h
                  · rename_i m4 h4
                    split at h
                    · cases h
                    · rename_i m5 root h5
                      cases h
                      have e0 := setElt_elt h0 x
                      have e1 : (m1 x).map Node.elt = (m0 x).map Node.elt := by
                        split at h1
                        · exact Mem.setChild_elt h1 x
                        · exact Mem.setSibling_elt h1 x
                      have e2 : (m2 x).map Node.elt = (m1 x).map Node.elt := by
                        split at h2
                        · cases h2; rfl
                        · exact Mem.setPrevious_elt h2 x
                      have e3 := Mem.setSibling_elt h3 x
                      have e4 := Mem.setPrevious_elt h4 x
                      have e5 := meld_elt h5 x
                      simp only
                      rw [e5, e4, e3, e2, e1, e0]

end PairingPQ

namespace PTree
variable {α : Type}

theorem levelOrder_nil : ∀ (depth : Nat), levelOrder depth ([] : List (PTree α)) = []
  | 0 => rfl
  | depth + 1 => by simp [levelOrder, levelOrder_nil depth]

/-- The queue of `to_queue` after the trees at its front were visited: their roots, then
the visit of the rest of the queue followed by their children. -/
theorem bfs_append : ∀ (ts us : List (PTree α)) (fuel : Nat), ts.length ≤ fuel →
    bfs fuel (ts ++ us) =
      ts.map (fun t => (t.addr, t.elt)) ++
        bfs (fuel - ts.length) (us ++ ts.flatMap fun t => t.kids.trees)
  | [], us, fuel, _ => by simp
  | t :: ts, us, 0, hf => by simp at hf
  | t :: ts, us, fuel + 1, hf => by
    simp only [List.length_cons, Nat.add_le_add_iff_right] at hf
    have ih := bfs_append ts (us ++ t.kids.trees) fuel hf
    have e : bfs (fuel + 1) (t :: ts ++ us) =
        (t.addr, t.elt) :: bfs fuel (ts ++ (us ++ t.kids.trees)) := by
      rw [← List.append_assoc]
      rfl
    rw [e, ih]
    simp only [List.map_cons, List.length_cons, List.flatMap_cons, Nat.add_sub_add_right,
      List.append_assoc, List.cons_append]

theorem flatMap_kids_addrs_length (ts : List (PTree α)) :
    (ts.flatMap PTree.addrs).length =
      ts.length + ((ts.flatMap fun t => t.kids.trees).flatMap PTree.addrs).length := by
  induction ts with
  | nil => rfl
  | cons t ts ih =>
    simp only [List.flatMap_cons, List.length_append, List.length_cons, List.flatMap_append,
      Shape.trees_flatMap_addrs, PTree.addrs, ih]
    omega

/-- The visit of `to_queue` is the breadth-first order. -/
theorem bfs_eq_levelOrder : ∀ (depth fuel : Nat) (ts : List (PTree α)),
    (ts.flatMap PTree.addrs).length ≤ fuel → (ts.flatMap PTree.addrs).length ≤ depth →
    bfs fuel ts = levelOrder depth ts
  | depth, fuel, [], _, _ => by rw [bfs_nil, levelOrder_nil]
  | 0, _, t :: ts, _, hd => by simp [PTree.addrs] at hd
  | depth + 1, fuel, t :: ts, hf, hd => by
    have hlen := flatMap_kids_addrs_length (t :: ts)
    have hl : (t :: ts).length ≤ fuel := by
      simp only [List.length_cons] at hlen ⊢; omega
    have h1 := bfs_append (t :: ts) [] fuel hl
    simp only [List.append_nil, List.nil_append] at h1
    rw [h1]
    simp only [levelOrder]
    congr 1
    apply bfs_eq_levelOrder depth
    · simp only [List.length_cons] at hlen ⊢; omega
    · simp only [List.length_cons] at hlen ⊢; omega

end PTree

namespace Shape
variable {α : Type}

theorem ordered_of_false : ∀ t : Shape α, t.Ordered (fun _ _ => false)
  | nil => trivial
  | node _ _ c s => ⟨fun _ _ => rfl, ordered_of_false c, ordered_of_false s⟩

end Shape

namespace PairingPQ
variable {α : Type}

/-- Only nodes of the tree are reached from `root`. -/
theorem Models.of_fromRoot {s : PairingPQ α} {o : Option (PTree α)} (hM : Models s o) {a : Nat}
    (h : FromRoot s a) : a ∈ heapAddrs o := by
  induction h with
  | root hr =>
    cases o with
    | none => rw [hM.1] at hr; cases hr
    | some t =>
      rw [hM.1] at hr
      cases hr
      simp [heapAddrs, PTree.addrs]
  | child _ hc ih =>
    cases o with
    | none => simp [heapAddrs] at ih
    | some t =>
      obtain ⟨pn, hp⟩ := inChildList_live hc
      have ho : t.Ordered (fun _ _ => false) := ⟨fun _ _ => rfl, Shape.ordered_of_false _⟩
      obtain ⟨K, k1, k2, _, k4⟩ := hM.child_list ho hp
      exact k4 _ (Shape.chain_subset K _ (inChildList_chain hc pn K hp k1 k2))

end PairingPQ

namespace PairingPQ
variable {α : Type}

/-- Live nodes have addresses below `next`. -/
theorem Models.lt_next {s : PairingPQ α} {o : Option (PTree α)} (h : Models s o) {a : Nat}
    {n : Node α} (ha : s.cells a = some n) : a < s.next := by
  cases o with
  | none => rw [h.2.2 a] at ha; cases ha
  | some t =>
    obtain ⟨_, _, _, _, hlive, hlt⟩ := h
    exact hlt a (hlive a (by rw [ha]; simp))

end PairingPQ

namespace PairingPQ
variable {α : Type}

/-- A node that is its own first child keeps the queue of `to_queue` from ever getting
empty: whatever the number of steps, the loop has not ended. -/
theorem toQueueLoop_self_child (m : Mem α) (r : Nat) (rn : Node α) (hr : m r = some rn)
    (hc : rn.child = some r) (inner : Nat) :
    ∀ (fuel : Nat) (child_queue ret_queue : List Nat), r ∈ child_queue →
      toQueueLoop m inner fuel child_queue ret_queue = none
  | _, [], _, h => by simp at h
  | 0, _ :: _, _, _ => rfl
  | fuel + 1, head :: rest, ret_queue, h => by
    simp only [toQueueLoop]
    cases hm : m head with
    | none => rfl
    | some hn =>
      simp only []
      cases hch : hn.child with
      | none =>
        simp only []
        apply toQueueLoop_self_child m r rn hr hc inner fuel
        rcases List.mem_cons.1 h with h1 | h1
        · subst h1
          rw [hr] at hm
          cases hm
          rw [hc] at hch
          cases hch
        · exact h1
      | some node =>
        simp only []
        cases hp : pushSiblings m inner node with
        | none => rfl
        | some sibs =>
          simp only []
          apply toQueueLoop_self_child m r rn hr hc inner fuel
          rcases List.mem_cons.1 h with h1 | h1
          · subst h1
            rw [hr] at hm
            cases hm
            rw [hc] at hch
            cases hch
            simp
          · simp [h1]

end PairingPQ

/-! ## The claims -/

open PairingPQ

/-- C1. Sorted extraction: for a strict weak ordering and any list `xs`, pushing `xs` in
order into the empty heap succeeds, and reading `top()` then calling `pop()` until
`empty()` returns a list `ys` that is a permutation of `xs` in which no element is beaten
by a later one: `compare yi yj = false` whenever `yi` comes before `yj`. -/
theorem sorted_extraction {α : Type} (compare : α → α → Bool) (hc : StrictWeakOrder compare)
    (xs : List α) :
    ∃ s, ofRange compare xs init = some s ∧
      ∀ fuel, xs.length ≤ fuel →
        ∃ ys, drain compare fuel s = some ys ∧ ys.Perm xs ∧
          ys.Pairwise (fun yi yj => compare yi yj = false) := by
  obtain ⟨s, o, h1, h2, h3, h4⟩ := ofRange_spec compare hc xs init none init_models trivial
  refine ⟨s, h1, ?_⟩
  intro fuel hf
  have h4' : (heapElts o).Perm xs := by simpa [heapElts] using h4
  obtain ⟨ys, g1, g2, g3⟩ := drain_spec compare hc fuel s o h2 h3 (by rw [h4'.length_eq]; exact hf)
  exact ⟨ys, g1, g2.trans h4', g3⟩

/-- Witness of C1 for `std::less` on the list 3, 1, 2. -/
theorem sorted_extraction_witness :
    StrictWeakOrder (less : Nat → Nat → Bool) ∧
    ∃ s, ofRange less [3, 1, 2] init = some s ∧
      ∀ fuel, [3, 1, 2].length ≤ fuel →
        ∃ ys, drain less fuel s = some ys ∧ ys.Perm [3, 1, 2] ∧
          ys.Pairwise (fun yi yj => less yi yj = false) :=
  ⟨less_strictWeakOrder, sorted_extraction less less_strictWeakOrder [3, 1, 2]⟩

/-- C2. In a non-empty heap reached from the empty heap by `push`, `addNode` and `pop`
(strict weak ordering), `top()` returns an element `t` of the heap that no element of the
heap beats (`compare t x = false`), and `pop()` succeeds and removes exactly one
occurrence of `t`: the elements before are `t` plus the elements after, and `size()` goes
down by exactly one. -/
theorem top_extreme_pop_removes_it {α : Type} (compare : α → α → Bool)
    (hc : StrictWeakOrder compare) (s : PairingPQ α) (hs : ReachPushPop compare s)
    (hne : s.empty = false) :
    ∃ t s', s.top = some t ∧ t ∈ liveElts s ∧ (∀ x ∈ liveElts s, compare t x = false) ∧
      pop compare s = some s' ∧ (liveElts s).Perm (t :: liveElts s') ∧
      s'.size + 1 = s.size := by
  obtain ⟨o, h1, h2⟩ := hs.models hc
  cases o with
  | none => rw [(h1.empty_iff).2 rfl] at hne; cases hne
  | some t =>
    obtain ⟨s', g1, g2, _⟩ := pop_spec compare s _ h1
    have hp := h1.liveElts_perm
    have hp' := g2.liveElts_perm
    have hk := popped_elts compare t
    refine ⟨t.elt, s', h1.top_eq, hp.symm.subset (by simp [heapElts, PTree.elts]), ?_, g1, ?_, ?_⟩
    · intro x hx
      exact PTree.Ordered.root_extreme hc h2 x (hp.subset hx)
    · refine hp.trans ?_
      simp only [heapElts, PTree.elts]
      exact List.Perm.cons _ (hk.symm.trans hp'.symm)
    · rw [g2.size_eq, h1.size_eq, hk.length_eq]
      simp [heapElts, PTree.elts]

/-- Witness of C2, scenario A: with the comparator that makes the least element the most
extreme, insert 5, 3, 8, 1; `top()` is 1; after `pop()`, `top()` is 3 and `size()` is 3. -/
theorem top_extreme_pop_removes_it_witness :
    ∃ s, ofRange greater [5, 3, 8, 1] init = some s ∧ s.top = some 1 ∧
      (∃ s', pop greater s = some s' ∧ s'.top = some 3 ∧ s'.size = 3) ∧
      ∃ t s', s.top = some t ∧ t ∈ liveElts s ∧ (∀ x ∈ liveElts s, greater t x = false) ∧
        pop greater s = some s' ∧ (liveElts s).Perm (t :: liveElts s') ∧
        s'.size + 1 = s.size :=
  ⟨_, rfl, rfl, ⟨_, rfl, rfl, rfl⟩,
    top_extreme_pop_removes_it greater greater_strictWeakOrder _
      (ReachPushPop.of_range_reach [5, 3, 8, 1] ReachPushPop.init rfl) rfl⟩

/-- C3 fails on the code (root handle given to `updateElt`). With `std::less`: insert 10,
7, 9, 3, 5 and `pop()`; the new root is the node of 9 (address 2) and its `previous` still
points to the node of 3. `updateElt` of the root to 11 then runs to completion and leaves
the node of 7 (address 1) in the child list of the node of 5 (address 4), although 5 is
beaten by 7. -/
theorem updateElt_on_root_breaks_heap_order :
    ∃ s0 s : PairingPQ Nat, ∃ n p d : Node Nat,
      (ofRange less [10, 7, 9, 3, 5] init).bind (pop less) = some s0 ∧
      s0.root = some 2 ∧ s0.cells 2 = some n ∧ less n.elt 11 = true ∧
      updateElt less s0 2 11 = some s ∧
      InChildList s.cells 4 1 ∧ s.cells 4 = some p ∧ s.cells 1 = some d ∧
      less p.elt d.elt = true :=
  ⟨_, _, _, _, _, rfl, rfl, rfl, rfl, rfl, InChildList.next (InChildList.first rfl rfl) rfl rfl,
    rfl, rfl, rfl⟩

/-- C4 fails on the code (root handle given to `updateElt`). With `std::less`: insert 10,
7, 5 and `pop()`; the new root is the node of 7 (address 1) and its `previous` still points
to the node of 5. `updateElt` of the root to 8 melds the root with itself, and after
`push(9)` the new root's only child is its own child: `size()` is 3, the node of 5
(address 2) is still allocated, and only two nodes are reached from `root`. -/
theorem updateElt_on_root_breaks_size :
    ∃ s0 s : PairingPQ Nat, ∃ n : Node Nat,
      (ofRange less [10, 7, 5] init).bind (pop less) = some s0 ∧
      s0.root = some 1 ∧ s0.cells 1 = some n ∧ less n.elt 8 = true ∧
      (updateElt less s0 1 8).bind (fun s1 => push less s1 9) = some s ∧
      s.size = 3 ∧ (s.cells 2).isSome = true ∧ ∀ x, FromRoot s x → x = 3 ∨ x = 1 := by
  refine ⟨_, _, _, rfl, rfl, rfl, rfl, rfl, rfl, rfl, ?_⟩
  have key : ∀ (m : Mem Nat), m 3 = some ⟨9, some 1, none, none⟩ →
      m 1 = some ⟨8, some 1, none, some 3⟩ →
      ∀ p c, InChildList m p c → (p = 3 ∨ p = 1) → c = 1 := by
    intro m h3 h1 p c h
    induction h with
    | first hn hc =>
      intro hp
      rcases hp with rfl | rfl
      · rw [h3] at hn; cases hn; simpa using hc.symm
      · rw [h1] at hn; cases hn; simpa using hc.symm
    | next _ hn hd ih =>
      intro hp
      have := ih hp
      subst this
      rw [h1] at hn; cases hn; simp at hd
  intro x hx
  induction hx with
  | root hr => left; exact (Option.some.inj hr).symm
  | child _ hc ih => right; exact key _ rfl rfl _ _ hc ih

/-- C5 fails on the code (root handle given to `updateElt`). With the comparator that
makes the least element the most extreme: insert 10; the handle of 10 is the root, whose
`previous` is null; `updateElt(h, 5)` dereferences it and does not complete. -/
theorem updateElt_on_only_node_fails :
    ∃ s : PairingPQ Nat, ∃ n : Node Nat,
      push greater init 10 = some s ∧ s.cells 0 = some n ∧ n.elt = 10 ∧
      greater n.elt 5 = true ∧ n.previous = none ∧ updateElt greater s 0 5 = none :=
  ⟨_, _, rfl, rfl, rfl, rfl, rfl, rfl⟩

/-- C6 fails on the code (root handle given to `updateElt`). Scenario B: insert 10, 20, 5
with the comparator that makes the least element the most extreme, and `updateElt(h, 1)`
on the handle of 20 (address 1). The node is now the root with a null `previous`, and the
second call `updateElt(h, 0)` dereferences it and does not complete. -/
theorem second_updateElt_on_handle_fails :
    ∃ s0 s1 : PairingPQ Nat, ∃ n : Node Nat,
      ofRange greater [10, 20, 5] init = some s0 ∧ updateElt greater s0 1 1 = some s1 ∧
      s1.top = some 1 ∧ s1.root = some 1 ∧ s1.cells 1 = some n ∧ n.previous = none ∧
      greater n.elt 0 = true ∧ updateElt greater s1 1 0 = none :=
  ⟨_, _, _, rfl, rfl, rfl, rfl, rfl, rfl, rfl, rfl⟩

/-- Rebuild correctness on the states reached without `updateElt` on the root handle: take
such a heap and overwrite the stored values arbitrarily (node `a` now holds `val a`, links
untouched). Then `updatePriorities()` succeeds, and afterwards no node beats a node of its
child subtree, `size()` is unchanged, the allocated nodes are the same as before, every
node holds the value it held just before the call, and every one of them is reached from
`root`. -/
theorem rebuild_restores_heap_order {α : Type} (compare : α → α → Bool)
    (hc : StrictWeakOrder compare) (s : PairingPQ α) (hs : Reach compare s) (val : Nat → α) :
    ∃ s', updatePriorities compare (s.overwrite val) = some s' ∧
      (∀ p d pn dn, Relation.TransGen (InChildList s'.cells) p d → s'.cells p = some pn →
        s'.cells d = some dn → compare pn.elt dn.elt = false) ∧
      s'.size = s.size ∧
      (∀ a, (s'.cells a).isSome = (s.cells a).isSome) ∧
      (∀ a n, s'.cells a = some n → n.elt = val a) ∧
      (∀ a, (s.cells a).isSome = true → FromRoot s' a) := by
  obtain ⟨o, h1, _⟩ := hs.models_ordered hc
  have h2 := h1.overwrite_models val
  obtain ⟨s', g1, g2, _, g4⟩ := updatePriorities_spec compare _ _ h2
  have ho := reordered_ordered hc ((s.overwrite val).next + 1)
    (o.map fun t => ⟨t.addr, val t.addr, Shape.relabel val t.kids⟩)
  have hsome : ∀ a, (s'.cells a).isSome = (s.cells a).isSome := by
    intro a
    have := g4 a
    simp only [PairingPQ.overwrite, Option.map_map] at this
    cases h3 : s'.cells a <;> cases h4 : s.cells a <;> simp [h3, h4] at this ⊢
  refine ⟨s', g1, ?_, ?_, hsome, ?_, ?_⟩
  · intro p d pn dn hpd hp hd
    exact g2.subtree_order hc ho hpd hp hd
  · have := updatePriorities_count g1
    exact this
  · intro a n hn
    have := g4 a
    simp only [PairingPQ.overwrite, Option.map_map, hn, Option.map_some'] at this
    cases h4 : s.cells a with
    | none => simp [h4] at this
    | some n0 => simpa [h4] using this
  · intro a ha
    rw [← hsome a] at ha
    cases hro : reordered compare ((s.overwrite val).next + 1)
        (o.map fun t => ⟨t.addr, val t.addr, Shape.relabel val t.kids⟩) with
    | none =>
      rw [hro] at g2
      rw [g2.2.2 a] at ha
      cases ha
    | some g =>
      rw [hro] at g2
      apply g2.fromRoot
      apply g2.2.2.2.2.1
      intro hn
      rw [hn] at ha
      cases ha

/-- Rebuild correctness at an instance, for `std::less`: the heap built from 1, 2, 3 with
then node `a` overwritten by `7 - a`. -/
theorem rebuild_restores_heap_order_witness :
    StrictWeakOrder (less : Nat → Nat → Bool) ∧
    ∃ s : PairingPQ Nat, ofRange less [1, 2, 3] init = some s ∧
      ∃ s', updatePriorities less (s.overwrite fun a => 7 - a) = some s' ∧
        (∀ p d pn dn, Relation.TransGen (InChildList s'.cells) p d → s'.cells p = some pn →
          s'.cells d = some dn → less pn.elt dn.elt = false) ∧
        s'.size = s.size ∧
        (∀ a, (s'.cells a).isSome = (s.cells a).isSome) ∧
        (∀ a n, s'.cells a = some n → n.elt = 7 - a) ∧
        (∀ a, (s.cells a).isSome = true → FromRoot s' a) :=
  ⟨less_strictWeakOrder, _, rfl,
    rebuild_restores_heap_order (less : Nat → Nat → Bool) less_strictWeakOrder _
      (ReachPushPop.reach (ReachPushPop.of_range_reach [1, 2, 3] ReachPushPop.init rfl))
      (fun a => 7 - a)⟩

/-- C8 as stated fails. With the default comparator `std::less`, inserting 4, 2, 9, 1, 7
gives `top()` = 9, not the smallest element 1, and draining gives 9, 7, 4, 2, 1, not the
ascending order 1, 2, 4, 7, 9. -/
theorem default_less_is_not_min_heap :
    ∃ s : PairingPQ Nat, ofRange less [4, 2, 9, 1, 7] init = some s ∧
      s.top = some 9 ∧ s.top ≠ some 1 ∧
      drain less 5 s = some [9, 7, 4, 2, 1] ∧ drain less 5 s ≠ some [1, 2, 4, 7, 9] :=
  ⟨_, rfl, rfl, by decide, rfl, by decide⟩

/-- C8 amended. With the default comparator `std::less` the heap has max-heap semantics:
building from any sequence succeeds; if the sequence is not empty, `top()` is an element
of it that is at least every element; and draining by `top()`/`pop()` returns the elements
in descending order. -/
theorem default_less_is_max_heap {α : Type} [LinearOrder α] (xs : List α) :
    ∃ s, ofRange less xs init = some s ∧
      (xs ≠ [] → ∃ t, s.top = some t ∧ t ∈ xs ∧ ∀ x ∈ xs, x ≤ t) ∧
      ∀ fuel, xs.length ≤ fuel →
        ∃ ys, drain less fuel s = some ys ∧ ys.Perm xs ∧ ys.Pairwise (fun yi yj => yj ≤ yi) := by
  have hc : StrictWeakOrder (less : α → α → Bool) := less_strictWeakOrder
  obtain ⟨s, o, h1, h2, h3, h4⟩ := ofRange_spec less hc xs init none init_models trivial
  have h4' : (heapElts o).Perm xs := by simpa [heapElts] using h4
  refine ⟨s, h1, ?_, ?_⟩
  · intro hne
    cases o with
    | none =>
      have := h4'.length_eq
      simp only [heapElts, List.length_nil] at this
      exact absurd (List.length_eq_zero.1 this.symm) hne
    | some t =>
      refine ⟨t.elt, h2.top_eq, h4'.subset (by simp [heapElts, PTree.elts]), ?_⟩
      intro x hx
      have := PTree.Ordered.root_extreme hc h3 x (h4'.symm.subset hx)
      simpa [less] using this
  · intro fuel hf
    obtain ⟨ys, g1, g2, g3⟩ := drain_spec less hc fuel s o h2 h3
      (by rw [h4'.length_eq]; exact hf)
    refine ⟨ys, g1, g2.trans h4', g3.imp ?_⟩
    intro a b hab
    simpa [less] using hab

/-- Witness of C8 amended: the sequence 4, 2, 9, 1, 7 of scenario C. -/
theorem default_less_is_max_heap_witness :
    ([4, 2, 9, 1, 7] : List Nat) ≠ [] ∧
    ∃ s, ofRange less [4, 2, 9, 1, 7] init = some s ∧
      (([4, 2, 9, 1, 7] : List Nat) ≠ [] →
        ∃ t, s.top = some t ∧ t ∈ [4, 2, 9, 1, 7] ∧ ∀ x ∈ [4, 2, 9, 1, 7], x ≤ t) ∧
      ∀ fuel, [4, 2, 9, 1, 7].length ≤ fuel →
        ∃ ys, drain less fuel s = some ys ∧ ys.Perm [4, 2, 9, 1, 7] ∧
          ys.Pairwise (fun yi yj => yj ≤ yi) :=
  ⟨by decide, default_less_is_max_heap [4, 2, 9, 1, 7]⟩

/-- C9 as stated fails. With `std::less`, after inserting 1 and 2 the node of 1
(address 0) is a direct child of the node of 2 (address 1), and `compare(c.elt, p.elt)`
is `compare(1, 2)`, which is true. -/
theorem child_is_beaten_by_parent :
    ∃ s : PairingPQ Nat, ∃ pn cn : Node Nat, ofRange less [1, 2] init = some s ∧
      Reach less s ∧ InChildList s.cells 1 0 ∧ s.cells 1 = some pn ∧ s.cells 0 = some cn ∧
      less cn.elt pn.elt = true :=
  ⟨_, _, _, rfl,
    ReachPushPop.reach (ReachPushPop.of_range_reach [1, 2] ReachPushPop.init rfl),
    InChildList.first rfl rfl, rfl, rfl, rfl⟩

/-- C9 amended. In every state reached from the empty heap by `push`, `addNode`, `pop`,
`updatePriorities`, and `updateElt` on a live node other than the root with a value that
beats the node's (strict weak ordering), every direct child `c` of every node `p`
satisfies: `compare(p.elt, c.elt)` is false. -/
theorem parent_not_beaten_by_child {α : Type} (compare : α → α → Bool)
    (hc : StrictWeakOrder compare) (s : PairingPQ α) (hs : Reach compare s) (p c : Nat)
    (pn cn : Node α) (hpc : InChildList s.cells p c) (hp : s.cells p = some pn)
    (hcn : s.cells c = some cn) : compare pn.elt cn.elt = false := by
  obtain ⟨o, h1, h2⟩ := hs.models_ordered hc
  exact h1.direct_order h2 hpc hp hcn

/-- Witness of C9 amended: with `std::less`, insert 5, 3, 8, `pop()`, raise the node of 3
(address 1, not the root) to 9, rebuild with `updatePriorities()`; the node of 5
(address 0) is then a direct child of the node of 9 (address 1). -/
theorem parent_not_beaten_by_child_witness :
    ∃ s0 s1 s2 s3 : PairingPQ Nat, ∃ n pn cn : Node Nat,
      StrictWeakOrder (less : Nat → Nat → Bool) ∧
      ofRange less [5, 3, 8] init = some s0 ∧ pop less s0 = some s1 ∧
      s1.cells 1 = some n ∧ s1.root ≠ some 1 ∧ less n.elt 9 = true ∧
      updateElt less s1 1 9 = some s2 ∧ updatePriorities less s2 = some s3 ∧
      InChildList s3.cells 1 0 ∧ s3.cells 1 = some pn ∧ s3.cells 0 = some cn ∧
      less pn.elt cn.elt = false :=
  ⟨_, _, _, _, _, _, _, less_strictWeakOrder, rfl, rfl, rfl, by decide, rfl, rfl, rfl,
    InChildList.first rfl rfl, rfl, rfl,
    parent_not_beaten_by_child (less : Nat → Nat → Bool) less_strictWeakOrder _
      (Reach.updatePriorities
        (Reach.updateElt 1 9 _
          (Reach.pop (ReachPushPop.reach
            (ReachPushPop.of_range_reach [5, 3, 8] ReachPushPop.init rfl)) rfl)
          rfl (by decide) rfl rfl) rfl)
      1 0 _ _ (InChildList.first rfl rfl) rfl rfl⟩

/-- C10 fails on the code. With `std::less`: insert 1, 2 and `pop()`. The heap is not empty,
its root is the node of 1 (address 0), and the root's `previous` still points to address 1,
the old root that `pop` deleted. -/
theorem pop_leaves_root_previous :
    ∃ s : PairingPQ Nat, ∃ n : Node Nat,
      (ofRange less [1, 2] init).bind (pop less) = some s ∧ s.empty = false ∧
      s.root = some 0 ∧ s.cells 0 = some n ∧ n.previous = some 1 ∧ s.cells 1 = none :=
  ⟨_, _, rfl, rfl, rfl, rfl, rfl, rfl⟩

/-- C12. Meld postcondition: with an absent argument `meld` returns the other argument and
changes nothing. For the roots `a`, `b` of two trees that share no node, `meld` returns the
winner (`a` if `compare(b.elt, a.elt)`, else `b`); afterwards the loser's `sibling` is the
winner's former first child, that node (if any) has `back = loser`, `loser.back = winner`,
`winner.child = loser`, and no other link and no stored value is changed; the memory lays
out the melded tree, which is heap-ordered if both trees were. -/
theorem meld_postcondition {α : Type} (compare : α → α → Bool) (m : Mem α) (ta tb : PTree α)
    (an bn : Node α) (ha : ta.Rooted m) (hb : tb.Rooted m) (hnd : (ta.addrs ++ tb.addrs).Nodup)
    (han : m ta.addr = some an) (hbn : m tb.addr = some bn) :
    (∀ b, meld compare m none b = some (m, b)) ∧
    (∀ a, meld compare m (some a) none = some (m, some a)) ∧
    ∃ m', meld compare m (some ta.addr) (some tb.addr) =
        some (m', some (if compare bn.elt an.elt then ta.addr else tb.addr)) ∧
      (if compare bn.elt an.elt then MeldPost m m' ta.addr tb.addr an bn
       else MeldPost m m' tb.addr ta.addr bn an) ∧
      (PTree.meld compare ta tb).Rooted m' ∧
      (StrictWeakOrder compare → ta.Ordered compare → tb.Ordered compare →
        (PTree.meld compare ta tb).Ordered compare) := by
  refine ⟨fun b => rfl, fun a => rfl, ?_⟩
  obtain ⟨m', h1, h2, _⟩ := meldNodes_spec compare m ta tb ha hb hnd
  have hab : ta.addr ≠ tb.addr := by
    intro h
    have := (List.nodup_append.1 hnd).2.2
    exact this (by simp [PTree.addrs] : ta.addr ∈ ta.addrs) (by simp [PTree.addrs, h])
  -- the first child of either root is a third live node
  have hfa : ∀ c, an.child = some c → c ≠ ta.addr ∧ c ≠ tb.addr ∧ ∃ cn, m c = some cn := by
    intro c hc
    obtain ⟨⟨siba, preva, hra⟩, hka⟩ := ha
    rw [han] at hra
    cases hra
    have hck : c ∈ ta.kids.addrs := Shape.head_mem_addrs hc
    have hnda : ta.addrs.Nodup := (List.nodup_append.1 hnd).1
    refine ⟨?_, ?_, hka.live c hck⟩
    · rintro rfl
      exact (List.nodup_cons.1 hnda).1 hck
    · rintro rfl
      exact (List.nodup_append.1 hnd).2.2 (by simp [PTree.addrs, hck] : tb.addr ∈ ta.addrs)
        (by simp [PTree.addrs])
  have hfb : ∀ c, bn.child = some c → c ≠ tb.addr ∧ c ≠ ta.addr ∧ ∃ cn, m c = some cn := by
    intro c hc
    obtain ⟨⟨sibb, prevb, hrb⟩, hkb⟩ := hb
    rw [hbn] at hrb
    cases hrb
    have hck : c ∈ tb.kids.addrs := Shape.head_mem_addrs hc
    have hndb : tb.addrs.Nodup := (List.nodup_append.1 hnd).2.1
    refine ⟨?_, ?_, hkb.live c hck⟩
    · rintro rfl
      exact (List.nodup_cons.1 hndb).1 hck
    · rintro rfl
      exact (List.nodup_append.1 hnd).2.2 (by simp [PTree.addrs])
        (by simp [PTree.addrs, hck] : ta.addr ∈ tb.addrs)
  have hpost : ∀ (w l : Nat) (wn ln : Node α), w ≠ l →
      (∀ c, wn.child = some c → c ≠ w ∧ c ≠ l ∧ ∃ cn, m c = some cn) →
      MeldPost m (attached m w l wn ln) w l wn ln := by
    intro w l wn ln hwl hf
    refine ⟨by simp [attached], by simp [attached, Ne.symm hwl], ?_, ?_⟩
    · intro c cn hc hcn
      obtain ⟨h3, h4, _⟩ := hf c hc
      simp [attached, h3, h4, hc, hcn]
    · intro x hxw hxl hxc
      simp only [attached, hxw, hxl, if_false]
      rw [if_neg (fun h => hxc h)]
  have heq := meldNodes_eq compare m ta.addr tb.addr an bn han hbn
  cases hc : compare bn.elt an.elt
  · rw [hc] at heq
    simp only [Bool.false_eq_true, if_false] at heq ⊢
    rw [attach_exact m tb.addr ta.addr bn an hbn han (Ne.symm hab) hfb] at heq
    refine ⟨attached m tb.addr ta.addr bn an, by simp [meld, heq],
      hpost _ _ _ _ (Ne.symm hab) hfb, ?_, fun hs ho1 ho2 => PTree.meld_ordered hs ho1 ho2⟩
    rw [heq] at h1
    simp only [Option.map_some', Option.some.injEq, Prod.mk.injEq] at h1
    rw [h1.1]; exact h2
  · rw [hc] at heq
    simp only [if_true] at heq ⊢
    rw [attach_exact m ta.addr tb.addr an bn han hbn hab hfa] at heq
    refine ⟨attached m ta.addr tb.addr an bn, by simp [meld, heq],
      hpost _ _ _ _ hab hfa, ?_, fun hs ho1 ho2 => PTree.meld_ordered hs ho1 ho2⟩
    rw [heq] at h1
    simp only [Option.map_some', Option.some.injEq, Prod.mk.injEq] at h1
    rw [h1.1]; exact h2

/-- Witness of C12: `meld` on the two single nodes 5 (address 0) and 7 (address 1) with
`std::less` returns the node of 7 with the node of 5 as its only child. -/
theorem meld_postcondition_witness :
    (⟨0, 5, Shape.nil⟩ : PTree Nat).Rooted twoNodes ∧
    (⟨1, 7, Shape.nil⟩ : PTree Nat).Rooted twoNodes ∧
    ((⟨0, 5, Shape.nil⟩ : PTree Nat).addrs ++ (⟨1, 7, Shape.nil⟩ : PTree Nat).addrs).Nodup ∧
    ∃ m', meld less twoNodes (some 0) (some 1) = some (m', some 1) ∧
      MeldPost twoNodes m' 1 0 ⟨7, none, none, none⟩ ⟨5, none, none, none⟩ := by
  have hA : (⟨0, 5, Shape.nil⟩ : PTree Nat).Rooted twoNodes := ⟨⟨none, none, rfl⟩, trivial⟩
  have hB : (⟨1, 7, Shape.nil⟩ : PTree Nat).Rooted twoNodes := ⟨⟨none, none, rfl⟩, trivial⟩
  have hN : ((⟨0, 5, Shape.nil⟩ : PTree Nat).addrs ++
      (⟨1, 7, Shape.nil⟩ : PTree Nat).addrs).Nodup := by decide
  obtain ⟨_, _, m', h1, h2, _⟩ := meld_postcondition less twoNodes ⟨0, 5, Shape.nil⟩
    ⟨1, 7, Shape.nil⟩ ⟨5, none, none, none⟩ ⟨7, none, none, none⟩ hA hB hN rfl rfl
  exact ⟨hA, hB, hN, m', h1, h2⟩

/-- C13. `pop()` on an empty heap is a no-op: it completes, changes no node, and leaves
`root` absent, `empty()` true and `size()` = 0; a following `push(v)` completes with
`top()` = `v` and `size()` = 1, as on a freshly constructed heap. -/
theorem pop_on_empty_is_noop {α : Type} (compare : α → α → Bool) (s : PairingPQ α)
    (he : s.empty = true) :
    ∃ s', pop compare s = some s' ∧ s'.cells = s.cells ∧ s'.root = none ∧ s'.empty = true ∧
      s'.size = 0 ∧
      ∀ v, ∃ s'', push compare s' v = some s'' ∧ s''.top = some v ∧ s''.size = 1 ∧
        s''.empty = false := by
  have hr : s.root = none := by
    cases h : s.root with
    | none => rfl
    | some r => simp [PairingPQ.empty, h] at he
  refine ⟨⟨s.cells, s.next, s.root, 0⟩, by simp [pop, hr], rfl, hr, by simp [PairingPQ.empty, hr],
    rfl, ?_⟩
  intro v
  refine ⟨⟨s.cells.store s.next ⟨v, none, none, none⟩, s.next + 1, some s.next, 1⟩, ?_, ?_, rfl,
    rfl⟩
  · simp [push, addNode, hr]
  · simp [PairingPQ.top, Mem.store]

/-- Witness of C13: the freshly constructed heap, and the heap emptied by `pop()` after
`push(4)`. -/
theorem pop_on_empty_is_noop_witness :
    (init : PairingPQ Nat).empty = true ∧
    (∃ s', pop less (init : PairingPQ Nat) = some s' ∧ s'.cells = (init : PairingPQ Nat).cells ∧
      s'.root = none ∧ s'.empty = true ∧ s'.size = 0 ∧
      ∀ v, ∃ s'', push less s' v = some s'' ∧ s''.top = some v ∧ s''.size = 1 ∧
        s''.empty = false) ∧
    ∃ s0 s1 : PairingPQ Nat, push less init 4 = some s0 ∧ pop less s0 = some s1 ∧
      s1.empty = true ∧ ∃ s2, pop less s1 = some s2 ∧ s2.root = none ∧ s2.size = 0 :=
  ⟨rfl, pop_on_empty_is_noop less init rfl, _, _, rfl, rfl, rfl, _, rfl, rfl, rfl⟩

/-- C16. Pairing loop of `pop`: in a well-formed heap whose root has `k ≥ 2` children
`c1..ck` (in sibling order) the walk over the children fills the queue with `c1..ck`, the
loop ends after exactly `k - 1` calls of `meld` (for any fuel of at least `k - 1` steps),
`pop()` succeeds, and the new root is the tree left by the FIFO reduction of the queue
(`PTree.pairing`: meld the two front trees, append the result, until one tree is left). -/
theorem pop_pairing_loop {α : Type} (compare : α → α → Bool) (s : PairingPQ α) (t : PTree α)
    (hM : Models s (some t)) (hk : 2 ≤ t.kids.chain.length) :
    ∃ rn s' g, s.cells t.addr = some rn ∧
      siblingChain s.cells s.next rn.child = some t.kids.chain ∧
      (∀ fuel, t.kids.chain.length - 1 ≤ fuel →
        pairLoopMelds compare fuel s.cells t.kids.chain = some (t.kids.chain.length - 1)) ∧
      PTree.pairing compare t.kids.chain.length t.kids.trees = some g ∧
      pop compare s = some s' ∧ s'.root = some g.addr ∧ Models s' (some g) ∧
      s'.size + 1 = s.size := by
  obtain ⟨s', h1, h2, _⟩ := pop_spec compare s _ hM
  obtain ⟨hr, ⟨⟨sib, prev, hroot⟩, hkids⟩, hnd, hc, hlive, hlt⟩ := id hM
  have hndk : t.kids.addrs.Nodup := (List.nodup_cons.1 hnd).2
  have hlen : t.kids.addrs.length ≤ s.next := by
    apply List.length_le_of_nodup_of_lt hndk
    intro a ha
    exact hlt a (by simp [PTree.addrs, ha])
  have hF : Forest s.cells t.kids.trees :=
    ⟨hkids.trees_rooted, by rw [Shape.trees_flatMap_addrs]; exact hndk⟩
  have hlt : t.kids.trees.length = t.kids.chain.length := Shape.length_trees t.kids
  obtain ⟨g, g1, g2, g3, _⟩ := PTree.pairing_spec compare t.kids.trees.length t.kids.trees
    (by intro h; rw [h] at hlt; simp at hlt; omega) (le_refl _)
  have hpop : popped compare (some t) = some g := g1
  rw [hpop] at h2
  refine ⟨_, s', g, hroot, ?_, ?_, by rw [← hlt]; exact g1, h1, h2.1, h2, ?_⟩
  · exact hM.root_chain hroot
  · intro fuel hf
    have := pairLoopMelds_spec compare fuel s.cells t.kids.trees hF (by omega)
    rw [Shape.trees_map_addr, hlt] at this
    exact this
  · rw [h2.size_eq, hM.size_eq]
    rw [Shape.trees_flatMap_elts] at g3
    have := g3.length_eq
    simp only [heapElts, PTree.elts, List.length_cons] at this ⊢
    omega

/-- Witness of C16 with `std::less`: the root 10 with the children 5, 3, 9, 7 at the
addresses 4, 3, 2, 1; three melds leave the node of 9 as the new root. -/
theorem pop_pairing_loop_witness :
    ∃ (s : PairingPQ Nat) (t : PTree Nat), ofRange less [10, 7, 9, 3, 5] init = some s ∧
      Models s (some t) ∧ t.kids.chain = [4, 3, 2, 1] ∧
      pairLoopMelds less 3 s.cells [4, 3, 2, 1] = some 3 ∧
      (∃ s', pop less s = some s' ∧ s'.root = some 2 ∧ s'.size = 4) ∧
      ∃ rn s' g, s.cells t.addr = some rn ∧
        siblingChain s.cells s.next rn.child = some t.kids.chain ∧
        (∀ fuel, t.kids.chain.length - 1 ≤ fuel →
          pairLoopMelds less fuel s.cells t.kids.chain = some (t.kids.chain.length - 1)) ∧
        PTree.pairing less t.kids.chain.length t.kids.trees = some g ∧
        pop less s = some s' ∧ s'.root = some g.addr ∧ Models s' (some g) ∧
        s'.size + 1 = s.size := by
  obtain ⟨s, o, h1, h2, _⟩ := ofRange_spec (less : Nat → Nat → Bool) less_strictWeakOrder
    [10, 7, 9, 3, 5] init none init_models trivial
  have hS : ofRange (less : Nat → Nat → Bool) [10, 7, 9, 3, 5] init =
      some ((ofRange (less : Nat → Nat → Bool) [10, 7, 9, 3, 5] init).getD init) := rfl
  rw [hS] at h1
  have hs := (Option.some.inj h1).symm
  subst hs
  cases o with
  | none => exact absurd h2.1 (by decide)
  | some t =>
    have ht : t.addr = 0 := (Option.some.inj h2.1).symm
    have hrn : ((ofRange (less : Nat → Nat → Bool) [10, 7, 9, 3, 5] init).getD init).cells t.addr =
        some ⟨10, some 4, none, none⟩ := by rw [ht]; rfl
    have hch := h2.root_chain hrn
    have hch' : t.kids.chain = [4, 3, 2, 1] := by
      have : siblingChain ((ofRange (less : Nat → Nat → Bool) [10, 7, 9, 3, 5] init).getD init).cells
          ((ofRange (less : Nat → Nat → Bool) [10, 7, 9, 3, 5] init).getD init).next (some 4) =
          some [4, 3, 2, 1] := rfl
      rw [this] at hch
      exact (Option.some.inj hch).symm
    exact ⟨_, t, hS, h2, hch', rfl, ⟨_, rfl, rfl, rfl⟩,
      pop_pairing_loop less _ t h2 (by rw [hch']; decide)⟩

/-- C17 as stated fails. With `std::less`, insert 10, 3, 4: the root 10 has the child list
4, 3, and `h` is the handle of 4 (address 2), the leftmost child, with right sibling 3
(address 1). After `updateElt(h, 5)` the root's `child` is `h` again, not the former right
sibling of `h`; and after `updateElt(h, 11)` instead, `h` is the root and its child list
starts with the old root, so its child list is not unchanged. -/
theorem updateElt_meld_relinks :
    ∃ s s1 s2 : PairingPQ Nat, ∃ hn rn1 hn2 : Node Nat,
      ofRange less [10, 3, 4] init = some s ∧ s.root = some 0 ∧ s.cells 2 = some hn ∧
      hn.previous = some 0 ∧ hn.sibling = some 1 ∧ hn.child = none ∧
      less hn.elt 5 = true ∧ updateElt less s 2 5 = some s1 ∧
      s1.cells 0 = some rn1 ∧ rn1.child = some 2 ∧ rn1.child ≠ hn.sibling ∧
      less hn.elt 11 = true ∧ updateElt less s 2 11 = some s2 ∧
      s2.cells 2 = some hn2 ∧ hn2.child = some 0 ∧ hn2.child ≠ hn.child :=
  ⟨_, _, _, _, _, _, rfl, rfl, rfl, rfl, rfl, rfl, rfl, rfl, rfl, rfl, by decide, rfl, rfl, rfl,
    rfl, by decide⟩

/-- C17 amended. Decrease-key on a non-root node: in a well-formed, heap-ordered heap, for a
live handle `h` other than the root and a value `v` that beats the value of `h`,
`updateElt(h, v)` succeeds and yields a well-formed, heap-ordered heap with the same live
nodes and the same `size()`, in which `h` holds `v` and every other stored value is
unchanged. The new tree is the meld of the old tree without `h` and what hangs below it
(`Shape.cut`: the former left neighbour of `h` is linked to its former right sibling) with
the tree of `h` on top of its former child list (`Shape.kidsOf`): if `compare(v, root.elt)`
the root stays and `h` is put in front of the root's child list, otherwise `h` becomes the
root and the old root is put in front of the former child list of `h`. -/
theorem updateElt_non_root {α : Type} (compare : α → α → Bool) (hc : StrictWeakOrder compare)
    (s : PairingPQ α) (t : PTree α) (hM : Models s (some t)) (ho : t.Ordered compare) (h : Nat)
    (hn : Node α) (hlive : s.cells h = some hn) (hroot : s.root ≠ some h) (v : α)
    (hv : compare hn.elt v = true) :
    ∃ s', updateElt compare s h v = some s' ∧
      Models s' (some (updated compare t h v)) ∧ (updated compare t h v).Ordered compare ∧
      (∀ a, (s'.cells a).isSome = (s.cells a).isSome) ∧ s'.size = s.size ∧
      (∃ hn', s'.cells h = some hn' ∧ hn'.elt = v) ∧
      (∀ a, a ≠ h → (s'.cells a).map Node.elt = (s.cells a).map Node.elt) ∧
      hn.child = (Shape.kidsOf h t.kids).head ∧
      Shape.Rep s.cells (some h) (Shape.kidsOf h t.kids) ∧
      updated compare t h v =
        (if compare v t.elt then
          ⟨t.addr, t.elt, Shape.node h v (Shape.kidsOf h t.kids) (Shape.cut h t.kids)⟩
         else ⟨h, v, Shape.node t.addr t.elt (Shape.cut h t.kids) (Shape.kidsOf h t.kids)⟩) := by
  have hat : h ∈ t.addrs := hM.2.2.2.2.1 h (by rw [hlive]; simp)
  have hak : h ∈ t.kids.addrs := by
    simp only [PTree.addrs, List.mem_cons] at hat
    rcases hat with h3 | h3
    · exact absurd (by rw [hM.1, h3]) hroot
    · exact h3
  have hndk : t.kids.addrs.Nodup := (List.nodup_cons.1 hM.2.2.1).2
  obtain ⟨hn0, p, j1, _, _, j4, j5, j6⟩ := Shape.rep_kidsOf t.kids t.addr hM.2.1.2 hndk hak
  rw [hlive] at j1
  cases j1
  obtain ⟨s', g1, g2, _⟩ := updateElt_spec compare s t h v hM hak
  have helt := updateElt_elt g1
  have hord : (updated compare t h v).Ordered compare := by
    apply updated_ordered hc t h v ho
    intro u hu
    rw [j5] at hu
    cases hu
    exact hv
  refine ⟨s', g1, g2, hord, ?_, ?_, ?_, ?_, j4, j6, ?_⟩
  · intro a
    have := helt a
    by_cases hah : a = h
    · subst hah
      simp only [if_true] at this
      cases h3 : s'.cells a with
      | none => simp [h3] at this
      | some n => simp [hlive]
    · simp only [hah, if_false] at this
      cases h3 : s'.cells a <;> cases h4 : s.cells a <;> simp [h3, h4] at this ⊢
  · show s'.count = s.count
    rw [g2.2.2.2.1, hM.2.2.2.1, PTree.size_eq_length_tree_addrs, PTree.size_eq_length_tree_addrs]
    exact (updated_addrs_perm compare t h v hM.2.2.1 hak).length_eq
  · have := helt h
    simp only [if_true] at this
    cases h3 : s'.cells h with
    | none => simp [h3] at this
    | some n => exact ⟨n, rfl, by simpa [h3] using this⟩
  · intro a ha
    have := helt a
    simpa [ha] using this
  · simp only [updated, PTree.meld, PTree.link]

/-- Witness of C17 amended with `std::less`: the heap built from 10, 3, 4 and the handle
of 3 (address 1), raised to 5. -/
theorem updateElt_non_root_witness :
    ∃ (s : PairingPQ Nat) (t : PTree Nat), ofRange less [10, 3, 4] init = some s ∧
      Models s (some t) ∧ t.Ordered less ∧ s.cells 1 = some ⟨3, none, none, some 2⟩ ∧
      s.root ≠ some 1 ∧ less 3 5 = true ∧
      ∃ s', updateElt less s 1 5 = some s' ∧
        Models s' (some (updated less t 1 5)) ∧ (updated less t 1 5).Ordered less ∧
        (∀ a, (s'.cells a).isSome = (s.cells a).isSome) ∧ s'.size = s.size ∧
        (∃ hn', s'.cells 1 = some hn' ∧ hn'.elt = 5) ∧
        (∀ a, a ≠ 1 → (s'.cells a).map Node.elt = (s.cells a).map Node.elt) ∧
        (⟨3, none, none, some 2⟩ : Node Nat).child = (Shape.kidsOf 1 t.kids).head ∧
        Shape.Rep s.cells (some 1) (Shape.kidsOf 1 t.kids) ∧
        updated less t 1 5 =
          (if less 5 t.elt then
            ⟨t.addr, t.elt, Shape.node 1 5 (Shape.kidsOf 1 t.kids) (Shape.cut 1 t.kids)⟩
           else ⟨1, 5, Shape.node t.addr t.elt (Shape.cut 1 t.kids) (Shape.kidsOf 1 t.kids)⟩) := by
  obtain ⟨s, o, h1, h2, h3, _⟩ := ofRange_spec (less : Nat → Nat → Bool) less_strictWeakOrder
    [10, 3, 4] init none init_models trivial
  have hS : ofRange (less : Nat → Nat → Bool) [10, 3, 4] init =
      some ((ofRange (less : Nat → Nat → Bool) [10, 3, 4] init).getD init) := rfl
  rw [hS] at h1
  have hs := (Option.some.inj h1).symm
  subst hs
  cases o with
  | none => exact absurd h2.1 (by decide)
  | some t =>
    exact ⟨_, t, hS, h2, h3, rfl, by decide, rfl,
      updateElt_non_root less less_strictWeakOrder _ t h2 h3 1 ⟨3, none, none, some 2⟩ rfl
        (by decide) 5 rfl⟩

/-- C20. Traversal helper: in a well-formed heap `to_queue()` returns; its queue lists the
nodes in breadth-first order (`PTree.levelOrder`: root first, then level by level, the
children of a node in sibling order), holds every node reached from `root` through child
lists exactly once, has length `size()`, and is empty exactly when the heap is empty. The
member is `const`: its model returns the queue alone. -/
theorem to_queue_breadth_first {α : Type} (s : PairingPQ α) (o : Option (PTree α))
    (hM : Models s o) :
    ∃ q, to_queue s = some q ∧
      q = (PTree.levelOrder s.size (heapTrees o)).map Prod.fst ∧
      q.Nodup ∧ (∀ a, a ∈ q ↔ FromRoot s a) ∧ q.head? = s.root ∧ q.length = s.size ∧
      (q = [] ↔ s.empty = true) := by
  cases o with
  | none =>
    refine ⟨[], by simp [to_queue, hM.1], by simp [heapTrees, PTree.levelOrder_nil],
      List.nodup_nil, ?_, by simp [hM.1], by simp [PairingPQ.size, hM.2.1],
      by simp [PairingPQ.empty, hM.1]⟩
    intro a
    constructor
    · intro h; cases h
    · intro h
      have := hM.of_fromRoot h
      simp [heapAddrs] at this
  | some t =>
    have hq := to_queue_spec s t hM
    obtain ⟨hr, hroot, hnd, hc, hlive, hlt⟩ := id hM
    have hlen : t.addrs.length ≤ s.next := List.length_le_of_nodup_of_lt hnd hlt
    have hsz : s.size = t.addrs.length := by
      show s.count = _
      rw [hc, PTree.size_eq_length_tree_addrs]
    have hlen' : ([t].flatMap PTree.addrs).length ≤ s.next + 1 := by simp; omega
    have hperm : ((PTree.bfs (s.next + 1) [t]).map Prod.fst).Perm t.addrs := by
      simpa using PTree.bfs_addrs_perm (s.next + 1) [t] hlen'
    have hlev : PTree.bfs (s.next + 1) [t] = PTree.levelOrder s.size [t] :=
      PTree.bfs_eq_levelOrder s.size (s.next + 1) [t] hlen' (by simp [hsz])
    refine ⟨_, hq, by rw [hlev]; rfl, (hperm.nodup_iff).2 hnd, ?_, ?_, ?_, ?_⟩
    · intro a
      constructor
      · intro h
        exact hM.fromRoot a (hperm.subset h)
      · intro h
        exact hperm.symm.subset (hM.of_fromRoot h)
    · rw [hr]
      simp [PTree.bfs]
    · rw [hperm.length_eq, hsz]
    · simp [PairingPQ.empty, hr, PTree.bfs]

/-- Witness of C20 with `std::less`: after inserting 10, 7, 9, 3, 5 the queue is the root
(address 0) followed by its children in sibling order. -/
theorem to_queue_breadth_first_witness :
    ∃ (s : PairingPQ Nat) (o : Option (PTree Nat)), ofRange less [10, 7, 9, 3, 5] init = some s ∧
      Models s o ∧ to_queue s = some [0, 4, 3, 2, 1] ∧
      ∃ q, to_queue s = some q ∧
        q = (PTree.levelOrder s.size (heapTrees o)).map Prod.fst ∧
        q.Nodup ∧ (∀ a, a ∈ q ↔ FromRoot s a) ∧ q.head? = s.root ∧ q.length = s.size ∧
        (q = [] ↔ s.empty = true) := by
  obtain ⟨s, o, h1, h2, _⟩ := ofRange_spec (less : Nat → Nat → Bool) less_strictWeakOrder
    [10, 7, 9, 3, 5] init none init_models trivial
  have hS : ofRange (less : Nat → Nat → Bool) [10, 7, 9, 3, 5] init =
      some ((ofRange (less : Nat → Nat → Bool) [10, 7, 9, 3, 5] init).getD init) := rfl
  rw [hS] at h1
  have hs := (Option.some.inj h1).symm
  subst hs
  exact ⟨_, o, hS, h2, rfl, to_queue_breadth_first _ o h2⟩

/-- C11 fails on the code. With `std::less`: insert 10, 1, 2, 3 and `pop()`. The new root is
the node of 3 (address 3) and its `sibling` still points to the node of 2 (address 2), its
right neighbour under the old root. The node of 2 is live, is not the root and is the first
child of no node, yet two live nodes have it as `sibling`: its left neighbour (address 1),
to which its `previous` points, and the root. -/
theorem pop_leaves_root_sibling :
    ∃ s : PairingPQ Nat,
      (ofRange less [10, 1, 2, 3] init).bind (pop less) = some s ∧ s.root = some 3 ∧
      (s.cells 2).map Node.previous = some (some 1) ∧
      (∀ p pn, s.cells p = some pn → pn.child ≠ some 2) ∧
      (s.cells 1).map Node.sibling = some (some 2) ∧
      (s.cells 3).map Node.sibling = some (some 2) := by
  obtain ⟨s1, o1, h1, h2, _⟩ := ofRange_spec (less : Nat → Nat → Bool) less_strictWeakOrder
    [10, 1, 2, 3] init none init_models trivial
  obtain ⟨s2, g1, g2, _⟩ := pop_spec (less : Nat → Nat → Bool) s1 o1 h2
  have hS : ofRange (less : Nat → Nat → Bool) [10, 1, 2, 3] init =
      some ((ofRange (less : Nat → Nat → Bool) [10, 1, 2, 3] init).getD init) := rfl
  rw [hS] at h1
  have hs := (Option.some.inj h1).symm
  subst hs
  have hP : pop (less : Nat → Nat → Bool)
      ((ofRange (less : Nat → Nat → Bool) [10, 1, 2, 3] init).getD init) =
      some ((pop (less : Nat → Nat → Bool)
        ((ofRange (less : Nat → Nat → Bool) [10, 1, 2, 3] init).getD init)).getD init) := rfl
  rw [hP] at g1
  have hs := (Option.some.inj g1).symm
  subst hs
  refine ⟨_, hP, rfl, rfl, ?_, rfl, rfl⟩
  intro p pn hp hc
  have hlt : p < 4 := g2.lt_next hp
  interval_cases p
  · cases hp
  · cases hp; cases hc
  · cases hp; cases hc
  · cases hp; cases hc

/-- C14 fails on the code. With `std::less`: insert 10, 3, 5 and `pop()`; the heap has the
two live nodes of 5 (root, address 2) and 3 (address 1) and `size()` is 2. The new root
keeps the `sibling` it had under the old root, and the copy constructor follows it: it
creates three nodes (addresses 3, 4, 5), the third a second copy of the node of 3 that
hangs off the `sibling` of the copied root. -/
theorem copy_after_pop_makes_extra_node :
    ∃ s c : PairingPQ Nat,
      (ofRange less [10, 3, 5] init).bind (pop less) = some s ∧ copy 10 s = some c ∧
      s.size = 2 ∧ liveAddrs s = [1, 2] ∧ s.next = 3 ∧ c.next = 6 ∧ c.size = 2 ∧
      c.root = some 3 ∧
      (c.cells 3).map (fun n => (n.elt, n.child, n.sibling)) = some (5, some 4, some 5) ∧
      (c.cells 4).map (fun n => (n.elt, n.child, n.sibling)) = some (3, none, none) ∧
      (c.cells 5).map (fun n => (n.elt, n.child, n.sibling)) = some (3, none, none) :=
  ⟨_, _, rfl, rfl, rfl, rfl, rfl, rfl, rfl, rfl, rfl, rfl, rfl⟩

/-- C15 fails on the code. Assigning from an empty heap to the heap holding 1, 2 (and to an
empty heap): `operator=` collects and deletes the nodes of the left-hand side, then passes
`rhs.root`, which is null, to `copy_non_recursive`, and that member reads `other->getElt()`
at once, so the assignment has no result. The copy constructor tests
`other.root == nullptr` first and returns an empty heap; `operator=` does not. -/
theorem assign_from_empty_fails :
    ∃ (s : PairingPQ Nat) (q : List Nat) (m : Mem Nat), ofRange less [1, 2] init = some s ∧
      to_queue s = some q ∧ destroyLoop s.cells q = some m ∧
      (∀ fuel, copy_non_recursive fuel m s.next (init : PairingPQ Nat).root = none) ∧
      (∀ fuel, assign fuel s init = none) ∧
      (∀ fuel, assign fuel (init : PairingPQ Nat) init = none) ∧
      ∀ fuel, (copy fuel (init : PairingPQ Nat)).map PairingPQ.empty = some true :=
  ⟨_, _, _, rfl, rfl, rfl, fun _ => rfl, fun _ => rfl, fun _ => rfl, fun _ => rfl⟩

/-- C18 fails on the code. With `std::less`: insert 1, 1, 1 (handles 0, 1, 2) and `pop()`;
the root is now handle 1 and its `previous` still points to handle 2. Then
`updateElt(1, 4)` melds the root with itself, which makes it its own first child;
`updateElt(2, 4)`, `pop()` and `pop()` follow. The last `pop` deletes the root and makes
its only child, the deleted node itself, the root: `size()` is 0 and `empty()` is false. -/
theorem empty_false_with_size_zero :
    ∃ s : PairingPQ Nat,
      ((((((ofRange less [1, 1, 1] init).bind (pop less)).bind
        fun s => updateElt less s 1 4).bind fun s => updateElt less s 2 4).bind
          (pop less)).bind (pop less)) = some s ∧
      s.size = 0 ∧ s.empty = false ∧ s.root = some 1 ∧ s.cells 1 = none :=
  ⟨_, rfl, rfl, rfl, rfl, rfl⟩

/-- C7 fails on the code (root handle given to `updateElt`). With `std::less`: insert 10,
7, 5 and `pop()`; the new root is the node of 7 (address 1, a live handle) and its
`previous` still points to the node of 5. `updateElt` of the root to 8 completes and melds
the root with itself: the root is its own first child. Whatever values are then written
into the nodes, `updatePriorities()` does not return: the loop of `to_queue` puts the root
back into its queue every time it takes it out, so the queue is never empty, for any
number of steps. -/
theorem rebuild_after_root_updateElt_never_returns :
    ∃ s0 s1 : PairingPQ Nat, ∃ n : Node Nat,
      (ofRange less [10, 7, 5] init).bind (pop less) = some s0 ∧
      s0.root = some 1 ∧ s0.cells 1 = some n ∧ less n.elt 8 = true ∧
      updateElt less s0 1 8 = some s1 ∧ s1.root = some 1 ∧ s1.size = 2 ∧
      (s1.cells 1).map Node.child = some (some 1) ∧
      ∀ val : Nat → Nat,
        (∀ inner fuel, toQueueLoop (s1.overwrite val).cells inner fuel [1] [] = none) ∧
        to_queue (s1.overwrite val) = none ∧
        updatePriorities less (s1.overwrite val) = none := by
  refine ⟨_, _, _, rfl, rfl, rfl, rfl, rfl, rfl, rfl, rfl, ?_⟩
  intro val
  have h1 : ∀ inner fuel, toQueueLoop
      (PairingPQ.overwrite ((((ofRange (less : Nat → Nat → Bool) [10, 7, 5] init).bind
        (pop less)).bind fun s => updateElt less s 1 8).getD init) val).cells
      inner fuel [1] [] = none := fun inner fuel =>
    toQueueLoop_self_child _ 1 ⟨val 1, some 1, some 2, some 1⟩ rfl rfl inner fuel [1] []
      (by simp)
  have h2 : to_queue (PairingPQ.overwrite ((((ofRange (less : Nat → Nat → Bool) [10, 7, 5]
      init).bind (pop less)).bind fun s => updateElt less s 1 8).getD init) val) = none :=
    h1 3 3
  have h3 : updatePriorities less (PairingPQ.overwrite ((((ofRange (less : Nat → Nat → Bool)
      [10, 7, 5] init).bind (pop less)).bind fun s => updateElt less s 1 8).getD init) val) =
      none := by
    simp only [updatePriorities, h2]
  exact ⟨h1, h2, h3⟩
